import Mathlib

/-!
# Filtering HTTP/HTTPS proxy (`project-4/proxy/proxy_http.cpp`)

A shallow embedding of the content-filtering proxy: byte strings, the policy
lists, the socket primitives, the body framers and the per-connection handler
`client_thread`, followed by the properties proved about them.

A `std::string` is a `List Char`; every `Char` stands for one byte.  The
program never calls `setlocale`, so `tolower` is the "C" locale one and only
moves `A`..`Z`.
-/

namespace ProxyHttp

/-- A C++ `std::string`, one `Char` per byte. -/
abbrev Str := List Char

/-! ## String primitives of the C++ standard library used by the proxy -/

/-- The libc `tolower` in the "C" locale. -/
def tolower (c : Char) : Char :=
  if 65 ≤ c.toNat ∧ c.toNat ≤ 90 then Char.ofNat (c.toNat + 32) else c

/-- `toLowerCopy` (lines 227-231): lowercases every byte. -/
def toLowerCopy (s : Str) : Str := s.map tolower

/-- `haystack.find(needle)`: index of the first occurrence, `none` for `npos`. -/
def find : Str → Str → Option Nat
  | [], w => if w.isEmpty then some 0 else none
  | c :: cs, w => if w.isPrefixOf (c :: cs) then some 0 else (find cs w).map (· + 1)

/-- `containsForbidden` (lines 13-21): the first word found in `body` answers true. -/
def containsForbidden (body : Str) : List Str → Bool
  | [] => false
  | w :: ws => if (find body w).isSome then true else containsForbidden body ws

/-- The forbidden-site loop of `client_thread` (lines 640-647 for CONNECT and
lines 682-689 for plain HTTP), run on the already lowercased host. -/
def siteLoop (hostLower : Str) : List Str → Bool
  | [] => false
  | s :: rest => if (find hostLower s).isSome then true else siteLoop hostLower rest

/-- The host check of `client_thread` (lines 639-647 and 681-689):
`hostLower = toLowerCopy(host)` and then the loop over `forbiddenSites`. -/
def hostForbidden (host : Str) (forbiddenSites : List Str) : Bool :=
  siteLoop (toLowerCopy host) forbiddenSites

/-- `s.find(c)` for a single byte `c`. -/
def findChar : Str → Char → Option Nat
  | [], _ => none
  | x :: xs, c => if x = c then some 0 else (findChar xs c).map (· + 1)

/-- `s.find(c, pos)` for a single byte `c`. -/
def findCharFrom (s : Str) (c : Char) (pos : Nat) : Option Nat :=
  (findChar (s.drop pos) c).map (pos + ·)

/-- `s.rfind(p, 0) == 0`: does `s` start with `p`. -/
def startsWith (s p : Str) : Bool := p.isPrefixOf s

/-- `s.find_first_not_of(set)`. -/
def find_first_not_of (s set : Str) : Option Nat :=
  match s with
  | [] => none
  | c :: cs => if set.contains c then (find_first_not_of cs set).map (· + 1) else some 0

/-- `s.find_last_not_of(set)`. -/
def find_last_not_of (s set : Str) : Option Nat :=
  match s with
  | [] => none
  | c :: cs =>
    match find_last_not_of cs set with
    | some i => some (i + 1)
    | none => if set.contains c then none else some 0

/-- `s.substr(pos, n)`. -/
def substr (s : Str) (pos n : Nat) : Str := (s.drop pos).take n

/-- `s.substr(pos)`. -/
def substrFrom (s : Str) (pos : Nat) : Str := s.drop pos

/-- The trimming idiom of the source: `a = s.find_first_not_of(l)`,
`b = s.find_last_not_of(r)`, and `s.substr(a, b-a+1)` unless one is `npos`. -/
def trimWith (s l r : Str) : Option Str :=
  match find_first_not_of s l, find_last_not_of s r with
  | some a, some b => some (substr s a (b - a + 1))
  | _, _ => none

/-- The `trim` lambda (lines 306-314, 426-434, 583-591): strips ``" \t"`` on the
left and ``" \t\r\n"`` on the right, and clears the string when nothing is left. -/
def trimLambda (s : Str) : Str :=
  (trimWith s [' ', '\t'] [' ', '\t', '\r', '\n']).getD []

/-- The libc `isspace` in the "C" locale. -/
def isspace (c : Char) : Bool :=
  c = ' ' || c = '\t' || c = '\n' || c = Char.ofNat 11 || c = Char.ofNat 12 || c = '\r'

/-- Value of a digit for `strtoul`: `0-9`, then letters from ten on. -/
def digitVal (c : Char) : Option Nat :=
  if 48 ≤ c.toNat ∧ c.toNat ≤ 57 then some (c.toNat - 48)
  else if 97 ≤ c.toNat ∧ c.toNat ≤ 122 then some (c.toNat - 97 + 10)
  else if 65 ≤ c.toNat ∧ c.toNat ≤ 90 then some (c.toNat - 65 + 10)
  else none

/-- Is `c` a digit of the given base. -/
def isDigitOf (base : Nat) (c : Char) : Bool :=
  match digitVal c with
  | some d => decide (d < base)
  | none => false

/-- The digit loop of `strtoul`: the value read so far and the number of digits. -/
def parseDigits (base : Nat) : Str → Nat → Nat → Nat × Nat
  | [], v, k => (v, k)
  | c :: cs, v, k =>
    match digitVal c with
    | some d => if d < base then parseDigits base cs (v * base + d) (k + 1) else (v, k)
    | none => (v, k)

/-- `ULONG_MAX` of an LP64 platform (`unsigned long` and `size_t` have 64 bits). -/
def ULONG_MAX : Nat := 2 ^ 64 - 1

/-- `strtoul` sign: an optional `+` or `-` after the white space. -/
def stripSign : Str → Bool × Str
  | '-' :: r => (true, r)
  | '+' :: r => (false, r)
  | s => (false, s)

/-- `strtoul` in base 16 skips a `0x` or `0X` that a hexadecimal digit follows. -/
def stripHexMark (base : Nat) : Str → Str
  | '0' :: x :: d :: r =>
    if base = 16 ∧ (x = 'x' ∨ x = 'X') ∧ isDigitOf 16 d = true then d :: r else '0' :: x :: d :: r
  | s => s

/-- `std::stoul(s, nullptr, base)`: `none` when it throws (`std::invalid_argument`
for no digit, `std::out_of_range` for a value above `ULONG_MAX`); every call
site catches both with `catch (...)`.  A leading `-` negates modulo `2^64`;
characters after the digits are ignored. -/
def stoul (s : Str) (base : Nat) : Option Nat :=
  let signed := stripSign (s.dropWhile isspace)
  let r := parseDigits base (stripHexMark base signed.2) 0 0
  if r.2 = 0 then none
  else if r.1 > ULONG_MAX then none
  else some (if signed.1 then (2 ^ 64 - r.1) % 2 ^ 64 else r.1)

/-- Successive results of `std::getline(stream, line)` until it fails. -/
def getlinesFrom : Str → Str → List Str
  | cur, [] => if cur.isEmpty then [] else [cur]
  | cur, c :: cs => if c = '\n' then cur :: getlinesFrom [] cs else getlinesFrom (cur ++ [c]) cs

/-- All lines `std::getline` yields from a string stream over `s`. -/
def getlines (s : Str) : List Str := getlinesFrom [] s

/-- Successive results of `stream >> token`: maximal runs of non-space bytes. -/
def tokensFrom : Str → Str → List Str
  | cur, [] => if cur.isEmpty then [] else [cur]
  | cur, c :: cs =>
    if isspace c then (if cur.isEmpty then tokensFrom [] cs else cur :: tokensFrom [] cs)
    else tokensFrom (cur ++ [c]) cs

/-- The `iss >> method >> uri >> version` extraction (lines 263-265, 625-627):
the first three tokens, or `none` when the stream fails first. -/
def parseRequestLine (requestLine : Str) : Option (Str × Str × Str) :=
  match tokensFrom [] requestLine with
  | method :: uri :: version :: _ => some (method, uri, version)
  | _ => none

/-- Decimal text of a number, as `ostream << size_t` prints it. -/
def decimal (n : Nat) : Str := Nat.toDigits 10 n

/-- The bytes `"\r\n"`. -/
def CRLF : Str := ['\r', '\n']

/-! ## Policy store -/

/-- The two process-wide lists `forbiddenWords` and `forbiddenSites` (lines 37-38). -/
structure Policy where
  forbiddenWords : List Str
  forbiddenSites : List Str
deriving DecidableEq, Repr

/-- The copying part of `fgets`: at most `room` bytes, stopping after a newline.
Returns the bytes stored and the rest of the file. -/
def fgetsCopy : Nat → Str → Str × Str
  | 0, f => ([], f)
  | _ + 1, [] => ([], [])
  | room + 1, c :: f =>
    if c = '\n' then ([c], f) else ((c :: (fgetsCopy room f).1), (fgetsCopy room f).2)

/-- `fgets(buf, size, f)`: `none` for `NULL` (end of file before any byte). -/
def fgets (size : Nat) (f : Str) : Option (Str × Str) :=
  match f with
  | [] => none
  | _ => some (fgetsCopy (size - 1) f)

/-- `std::string s(buf)`: the bytes of the buffer before its first NUL. -/
def cString (buf : Str) : Str := buf.takeWhile (fun c => c != Char.ofNat 0)

/-- Body of the `while (fgets(...))` loop of `loadForbiddenSingleFile`
(lines 198-220) for one buffer. -/
def loadLine (buf : Str) (p : Policy) : Policy :=
  let s := cString buf
  match trimWith s [' ', '\t', '\r', '\n'] [' ', '\t', '\r', '\n'] with
  | none => p
  | some s =>
    if s.isEmpty then p
    else if s.head? = some '#' then p
    else
      let lower := toLowerCopy s
      if startsWith lower "site:".toList then
        let host := substrFrom lower 5
        match trimWith host [' ', '\t'] [' ', '\t'] with
        | some host => { p with forbiddenSites := p.forbiddenSites ++ [host] }
        | none => p
      else { p with forbiddenWords := p.forbiddenWords ++ [lower] }

/-- The `while (fgets(buf, sizeof(buf), f))` loop with `char buf[1024]`; the
fuel bounds the number of `fgets` calls. -/
def loadLoop : Nat → Str → Policy → Policy
  | 0, _, p => p
  | fuel + 1, f, p =>
    match fgets 1024 f with
    | none => p
    | some (buf, rest) => loadLoop fuel rest (loadLine buf p)

/-- `loadForbiddenSingleFile` (lines 186-225) on the content of the file,
`none` when `fopen` fails.  Every successful `fgets` takes at least one byte,
so `length + 1` calls always reach the end of the file. -/
def loadForbiddenSingleFile (file : Option Str) : Policy :=
  match file with
  | none => ⟨[], []⟩
  | some f => loadLoop (f.length + 1) f ⟨[], []⟩

/-! ## Sockets and framed I/O -/

/-- The receiving side of a connected socket: the bytes that will still
arrive, in the pieces in which the network delivers them, and what `recv`
answers once they are used up: `-1` (reset, timeout) when `fails`, else `0`
(orderly close).  The process installs no signal handler, so `EINTR` does
not occur. -/
structure Sock where
  segs : List Str
  fails : Bool
deriving DecidableEq, Repr

/-- All bytes the socket will still deliver. -/
def Sock.bytes (s : Sock) : Str := s.segs.flatten

/-- Outcome of one `recv` call. -/
inductive RecvResult
  | error
  | closed
  | data (d : Str) (s : Sock)
deriving DecidableEq, Repr

/-- `recv` on the pieces: empty pieces carry nothing; a call returns at most
`len` bytes of the first piece. -/
def recvSegs (fails : Bool) (len : Nat) : List Str → RecvResult
  | [] => if fails then .error else .closed
  | [] :: segs => recvSegs fails len segs
  | (c :: cs) :: segs => .data ((c :: cs).take len) ⟨(c :: cs).drop len :: segs, fails⟩

/-- `recv(sock, buf, len, 0)`. -/
def recv (s : Sock) (len : Nat) : RecvResult :=
  if len = 0 then .closed else recvSegs s.fails len s.segs

/-- `recv(sock, &ch, 1, 0)`: the byte read, and `none` for `n <= 0`. -/
def recvByte (s : Sock) : Option (Char × Sock) :=
  match recv s 1 with
  | .data (ch :: _) s1 => some (ch, s1)
  | _ => none

/-- Loop of `recvExact` (lines 92-101): returns the return value, the bytes
stored and the socket. -/
def recvExactLoop : Nat → Sock → Nat → Str → Int × Str × Sock
  | 0, s, _, got => (got.length, got, s)
  | fuel + 1, s, len, got =>
    if got.length < len then
      match recv s (len - got.length) with
      | .error => (-1, got, s)
      | .closed => (got.length, got, s)
      | .data d s1 => recvExactLoop fuel s1 len (got ++ d)
    else (got.length, got, s)

/-- `recvExact(sock, buf, len)` (lines 88-102); every `recv` that returns data
returns at least one byte, so `len` rounds suffice. -/
def recvExact (s : Sock) (len : Nat) : Int × Str × Sock :=
  recvExactLoop len s len []

/-- Loop of `recvLine` (lines 109-131): `none` is `return false`. -/
def recvLineLoop (maxlen : Int) : Nat → Str → Sock → Option Str × Sock
  | 0, _, s => (none, s)
  | fuel + 1, out, s =>
    match recvByte s with
    | none => (none, s)
    | some (ch, s1) =>
      if ch = '\r' then
        match recvByte s1 with
        | some ('\n', s2) => (some out, s2)
        | _ => (some out, s1)
      else if ch = '\n' then (some out, s1)
      else if ((out ++ [ch]).length : Int) ≥ maxlen then (none, s1)
      else recvLineLoop maxlen fuel (out ++ [ch]) s1

/-- `recvLine(sock, out, maxlen)` (lines 105-134).  Every round takes one
byte off the socket, so `bytes + 1` rounds always suffice. -/
def recvLine (s : Sock) (maxlen : Int) : Option Str × Sock :=
  recvLineLoop maxlen (s.bytes.length + 1) [] s

/-- Loop of `readHeaders` (lines 141-154) with the default `maxlen = 8*1024`. -/
def readHeadersLoop : Nat → Str → Sock → Option Str × Sock
  | 0, _, s => (none, s)
  | fuel + 1, headersOut, s =>
    match recvLine s (8 * 1024) with
    | (none, s1) => (none, s1)
    | (some line, s1) =>
      if line.isEmpty then (some (headersOut ++ CRLF), s1)
      else if (headersOut ++ line ++ CRLF).length > 64 * 1024 then (none, s1)
      else readHeadersLoop fuel (headersOut ++ line ++ CRLF) s1

/-- `readHeaders(sock, headersOut)` (lines 137-157). -/
def readHeaders (s : Sock) : Option Str × Sock :=
  readHeadersLoop (s.bytes.length + 1) [] s

/-! ## Header parsing and target resolution -/

/-- `if (!line.empty() && line.back()=='\r') line.pop_back();`. -/
def stripCR (line : Str) : Str :=
  if line.getLast? = some '\r' then line.dropLast else line

/-- A `std::map<std::string,std::string>`: the value stored under each key. -/
abbrev HeaderMap := Str → Option Str

/-- `m[k] = v`. -/
def HeaderMap.set (m : HeaderMap) (k v : Str) : HeaderMap :=
  fun x => if x = k then some v else m x

/-- Loop of `parseHeadersToMap` (lines 418-438) over the `getline` lines. -/
def parseHeaderLines : List Str → HeaderMap → HeaderMap
  | [], m => m
  | line0 :: rest, m =>
    let line := stripCR line0
    if line.isEmpty then parseHeaderLines rest m
    else
      match findChar line ':' with
      | none => parseHeaderLines rest m
      | some pos =>
        let k := toLowerCopy (trimLambda (substr line 0 pos))
        let v := trimLambda (substrFrom line (pos + 1))
        parseHeaderLines rest (m.set k v)

/-- `parseHeadersToMap` (lines 413-440). -/
def parseHeadersToMap (headers : Str) : HeaderMap :=
  parseHeaderLines (getlines headers) (fun _ => none)

/-- The `Host` search of `determineHostPortAndPath` (lines 294-304): the text
after the first five bytes of the first line that starts with `host:`. -/
def hostHeaderLoop : List Str → Str
  | [] => []
  | line :: rest =>
    if line.length > 5 ∧ (line.head? = some 'H' ∨ line.head? = some 'h')
        ∧ startsWith (toLowerCopy line) "host:".toList = true then
      substrFrom line 5
    else hostHeaderLoop rest

/-- Splitting `host[:port]` at the first colon (lines 275-285 and 317-325). -/
def splitHostPort (authority defaultPort : Str) : Str × Str :=
  match findChar authority ':' with
  | some col => (substr authority 0 col, substrFrom authority (col + 1))
  | none => (authority, defaultPort)

/-- `determineHostPortAndPath` (lines 261-330): `(host, port, path)`, and
`none` for `return false`. -/
def determineHostPortAndPath (requestLine headers : Str) : Option (Str × Str × Str) :=
  match parseRequestLine requestLine with
  | none => none
  | some (_, uri, _) =>
    if startsWith uri "http://".toList ∨ startsWith uri "https://".toList then
      let start := match find uri "://".toList with
        | none => 0
        | some pos => pos + 3
      let slash := findCharFrom uri '/' start
      let authority := match slash with
        | none => substrFrom uri start
        | some sl => substr uri start (sl - start)
      let pathOut := match slash with
        | none => "/".toList
        | some sl => substrFrom uri sl
      let hp := splitHostPort authority
        (if startsWith uri "https://".toList then "443".toList else "80".toList)
      some (hp.1, hp.2, pathOut)
    else
      let hostHeader := trimLambda (hostHeaderLoop (getlines headers))
      if hostHeader.isEmpty then none
      else
        let hp := splitHostPort hostHeader "80".toList
        some (hp.1, hp.2, uri)

/-! ## Block pages -/

/-- The bytes `send503` writes (lines 23-30). -/
def send503 : Str :=
  ("HTTP/1.1 503 Service Unavailable\r\n" ++ "Content-Type: text/html\r\n\r\n"
    ++ "<html><body><h2>Forbidden content detected</h2></body></html>").toList

/-- The bytes `sendErrorHtml(clientSock, code, reason, bodytext)` writes
(lines 244-257). -/
def sendErrorHtml (code reason bodytext : Str) : Str :=
  let body := "<html><head><title>".toList ++ code ++ " ".toList ++ reason
    ++ "</title></head><body><h1>".toList ++ code ++ " ".toList ++ reason
    ++ "</h1><p>".toList ++ bodytext ++ "</p></body></html>".toList
  "HTTP/1.1 ".toList ++ code ++ " ".toList ++ reason ++ CRLF
    ++ "Content-Type: text/html; charset=utf-8\r\n".toList
    ++ "Connection: close\r\n".toList
    ++ "Content-Length: ".toList ++ decimal body.length ++ CRLF
    ++ CRLF ++ body

/-! ## Body framers -/

/-- How a body reader ended: `ok` is `return true`, `failed` is `return false`,
`blocked` is `send503(clientSock); return false`, and `crashed` is an
exception nothing catches (`std::length_error` from `resize` or `reserve`). -/
inductive ReadStatus
  | ok
  | failed
  | blocked
  | crashed
deriving DecidableEq, Repr

/-- Result of a body reader: its status, `rawOut`, `decodedOut` and the
upstream socket afterwards. -/
structure BodyRead where
  status : ReadStatus
  raw : Str
  decoded : Str
  sock : Sock
deriving DecidableEq, Repr

/-- Largest size `std::string` accepts before `resize` and `reserve` throw
`std::length_error` (libstdc++ on LP64); allocation failures below it are not
modelled. -/
def max_size : Nat := 2 ^ 62 - 1

/-- The trailer loop of the final chunk (lines 471-479). -/
def readTrailers : Nat → Sock → Str → Option Str × Sock
  | 0, s, _ => (none, s)
  | fuel + 1, s, rawOut =>
    match recvLine s (8 * 1024) with
    | (none, s1) => (none, s1)
    | (some hdr, s1) =>
      if hdr.isEmpty then (some (rawOut ++ CRLF), s1)
      else readTrailers fuel s1 (rawOut ++ hdr ++ CRLF)

/-- The hexadecimal text of a chunk-size line (lines 455-461): the part before
the first `;`, trimmed of spaces and tabs; `none` when nothing is left. -/
def chunkSizeText (line : Str) : Option Str :=
  let hex := match findChar line ';' with
    | none => line
    | some semi => substr line 0 semi
  trimWith hex [' ', '\t'] [' ', '\t']

/-- Loop of `readChunkedResponse` (lines 448-500). -/
def readChunkedLoop (forbiddenWords : List Str) : Nat → Sock → Str → Str → BodyRead
  | 0, s, rawOut, decodedOut => ⟨.failed, rawOut, decodedOut, s⟩
  | fuel + 1, s, rawOut, decodedOut =>
    match recvLine s (8 * 1024) with
    | (none, s1) => ⟨.failed, rawOut, decodedOut, s1⟩
    | (some line, s1) =>
      let raw1 := rawOut ++ line ++ CRLF
      match chunkSizeText line with
      | none => ⟨.failed, raw1, decodedOut, s1⟩
      | some hex =>
        match stoul hex 16 with
        | none => ⟨.failed, raw1, decodedOut, s1⟩
        | some chunkSize =>
          if chunkSize = 0 then
            match readTrailers (s1.bytes.length + 1) s1 raw1 with
            | (none, s2) => ⟨.failed, raw1, decodedOut, s2⟩
            | (some raw2, s2) => ⟨.ok, raw2, decodedOut, s2⟩
          else if chunkSize > max_size then ⟨.crashed, raw1, decodedOut, s1⟩
          else
            let got := recvExact s1 chunkSize
            if got.1 < 0 ∨ got.1 ≠ (chunkSize : Int) then ⟨.failed, raw1, decodedOut, got.2.2⟩
            else
              let raw2 := raw1 ++ got.2.1
              let dec2 := decodedOut ++ got.2.1
              if containsForbidden dec2 forbiddenWords then ⟨.blocked, raw2, dec2, got.2.2⟩
              else
                let c := recvExact got.2.2 2
                if c.1 ≠ 2 then ⟨.failed, raw2, dec2, c.2.2⟩
                else readChunkedLoop forbiddenWords fuel c.2.2 (raw2 ++ CRLF) dec2

/-- `readChunkedResponse` (lines 445-503), `rawOut` and `decodedOut` starting
empty as in `client_thread`.  Every round takes at least one byte off the
socket. -/
def readChunkedResponse (forbiddenWords : List Str) (serverSock : Sock) : BodyRead :=
  readChunkedLoop forbiddenWords (serverSock.bytes.length + 1) serverSock [] []

/-- Loop of `readContentLengthResponse` (lines 510-522); `bufSize` is
`BUF_SIZE`, defined in a header that is not part of the sources. -/
def readContentLengthLoop (forbiddenWords : List Str) (bufSize : Nat) :
    Nat → Sock → Nat → Str → Str → BodyRead
  | 0, s, _, rawOut, decodedOut => ⟨.failed, rawOut, decodedOut, s⟩
  | fuel + 1, s, remaining, rawOut, decodedOut =>
    if remaining > 0 then
      let toRead := if remaining < bufSize then remaining else bufSize
      let got := recvExact s toRead
      if got.1 ≤ 0 then ⟨.failed, rawOut, decodedOut, got.2.2⟩
      else
        let raw1 := rawOut ++ got.2.1
        let dec1 := decodedOut ++ got.2.1
        if containsForbidden dec1 forbiddenWords then ⟨.blocked, raw1, dec1, got.2.2⟩
        else readContentLengthLoop forbiddenWords bufSize fuel got.2.2
          (remaining - got.2.1.length) raw1 dec1
    else ⟨.ok, rawOut, decodedOut, s⟩

/-- `readContentLengthResponse` (lines 506-524).  Every round lowers
`remaining` by at least one. -/
def readContentLengthResponse (forbiddenWords : List Str) (bufSize : Nat)
    (serverSock : Sock) (contentLength : Nat) : BodyRead :=
  readContentLengthLoop forbiddenWords bufSize (contentLength + 1) serverSock contentLength [] []

/-- Loop of `readUntilCloseResponse` (lines 531-538): it ends with `return true`
on every `n <= 0`, a failed `recv` included. -/
def readUntilCloseLoop (forbiddenWords : List Str) (bufSize : Nat) :
    Nat → Sock → Str → Str → BodyRead
  | 0, s, rawOut, decodedOut => ⟨.failed, rawOut, decodedOut, s⟩
  | fuel + 1, s, rawOut, decodedOut =>
    match recv s bufSize with
    | .data d s1 =>
      if containsForbidden (decodedOut ++ d) forbiddenWords then
        ⟨.blocked, rawOut ++ d, decodedOut ++ d, s1⟩
      else readUntilCloseLoop forbiddenWords bufSize fuel s1 (rawOut ++ d) (decodedOut ++ d)
    | _ => ⟨.ok, rawOut, decodedOut, s⟩

/-- `readUntilCloseResponse` (lines 527-541). -/
def readUntilCloseResponse (forbiddenWords : List Str) (bufSize : Nat)
    (serverSock : Sock) : BodyRead :=
  readUntilCloseLoop forbiddenWords bufSize (serverSock.bytes.length + 1) serverSock [] []

/-! ## The per-connection handler -/

/-- The two sockets of a session. -/
inductive Peer
  | client
  | server
deriving DecidableEq, Repr

/-- What a session does to the outside world, in order.  `send` records a
`send` or `sendAll` call with the bytes handed to it (when the call fails only
a part of them went out), `connect` a call of `connectToHostPort`, `tunnel`
the call of `tunnelRelay`, `close` a `close`, and `terminate` the end of the
process by an exception nothing catches. -/
inductive Action
  | send (dest : Peer) (bytes : Str)
  | connect (host port : Str)
  | tunnel
  | close (sock : Peer)
  | terminate
deriving DecidableEq, Repr

/-- The world around one session: `BUF_SIZE` (its header is not part of the
sources), what `connectToHostPort` yields for a host and port (the byte stream
of the upstream, `none` when it returns `-1`), and which `sendAll` calls
return a negative value. -/
structure Env where
  bufSize : Nat
  connect : Str → Str → Option Sock
  sendFails : Peer → Str → Bool

/-- The `Content-Length` scan of the request headers (lines 574-600); the
second argument is `reqContentLength` so far. -/
def scanContentLength : List Str → Nat → Nat
  | [], n => n
  | line0 :: rest, n =>
    let line := stripCR line0
    match findChar line ':' with
    | none => scanContentLength rest n
    | some pos =>
      let k := toLowerCopy (trimLambda (substr line 0 pos))
      let v := trimLambda (substrFrom line (pos + 1))
      if k = "content-length".toList then scanContentLength rest ((stoul v 10).getD 0)
      else scanContentLength rest n

/-- The request-body loop (lines 606-612): it stops at the first `n <= 0`. -/
def readRequestBodyLoop (bufSize : Nat) : Nat → Sock → Nat → Str → Str × Sock
  | 0, s, _, reqBody => (reqBody, s)
  | fuel + 1, s, remaining, reqBody =>
    if remaining > 0 then
      match recv s (if remaining < bufSize then remaining else bufSize) with
      | .data d s1 => readRequestBodyLoop bufSize fuel s1 (remaining - d.length) (reqBody ++ d)
      | _ => (reqBody, s)
    else (reqBody, s)

/-- The request body as lines 602-613 buffer it. -/
def readRequestBody (bufSize : Nat) (s : Sock) (reqContentLength : Nat) : Str :=
  (readRequestBodyLoop bufSize reqContentLength s reqContentLength []).1

/-- The header filter (lines 712-728): the text written to `outReq` and
`hasHostHeader`. -/
def forwardHeaderLines : List Str → Str → Bool → Str × Bool
  | [], outReq, hasHostHeader => (outReq, hasHostHeader)
  | line0 :: rest, outReq, hasHostHeader =>
    let line := stripCR line0
    match find_first_not_of line [' ', '\t'] with
    | none => forwardHeaderLines rest outReq hasHostHeader
    | some _ =>
      let key := match findChar line ':' with
        | none => line
        | some colonPos => substr line 0 colonPos
      let lower := toLowerCopy key
      if lower = "proxy-connection".toList then forwardHeaderLines rest outReq hasHostHeader
      else if lower = "connection".toList then
        forwardHeaderLines rest (outReq ++ "Connection: close\r\n".toList) hasHostHeader
      else
        forwardHeaderLines rest (outReq ++ line ++ CRLF)
          (hasHostHeader || decide (lower = "host".toList))

/-- The request sent to the origin server (lines 705-734). -/
def buildUpstreamRequest (method path version headers host : Str) : Str :=
  let r := forwardHeaderLines (getlines headers)
    (method ++ " ".toList ++ path ++ " ".toList ++ version ++ CRLF) false
  (if r.2 then r.1 else r.1 ++ "Host: ".toList ++ host ++ CRLF) ++ CRLF

/-- The flags `isChunked`, `hasContentLength` and `contentLength` of
`client_thread`. -/
structure Framing where
  isChunked : Bool
  hasContentLength : Bool
  contentLength : Nat
deriving DecidableEq, Repr

/-- How `client_thread` sets the framing flags from the response headers
(lines 782-798). -/
def determineFraming (serverHeaders : Str) : Framing :=
  let hdrMap := parseHeadersToMap serverHeaders
  let isChunked := match hdrMap "transfer-encoding".toList with
    | some te => (find (toLowerCopy te) "chunked".toList).isSome
    | none => false
  match hdrMap "content-length".toList with
  | some v =>
    match stoul v 10 with
    | some n => ⟨isChunked, true, n⟩
    | none => ⟨isChunked, false, 0⟩
  | none => ⟨isChunked, false, 0⟩

/-- The choice of the body reader (lines 810-819). -/
def readBody (forbiddenWords : List Str) (bufSize : Nat) (f : Framing) (serverSock : Sock) :
    BodyRead :=
  if f.isChunked then readChunkedResponse forbiddenWords serverSock
  else if f.hasContentLength then
    readContentLengthResponse forbiddenWords bufSize serverSock f.contentLength
  else readUntilCloseResponse forbiddenWords bufSize serverSock

/-- The 403 page for a forbidden word in the request (line 619). -/
def page403Words : Str :=
  sendErrorHtml "403".toList "Forbidden".toList
    "Your request contains forbidden words and was blocked by the proxy.".toList

/-- The 403 page of the CONNECT branch (line 643). -/
def page403Connect : Str :=
  sendErrorHtml "403".toList "Forbidden".toList
    "CONNECT to this site is blocked by the proxy.".toList

/-- The 403 page of the plain HTTP branch (line 685). -/
def page403Host : Str :=
  sendErrorHtml "403".toList "Forbidden".toList
    "Access to this host is blocked by the proxy.".toList

/-- The 400 page for a malformed request line (line 628). -/
def page400 : Str :=
  sendErrorHtml "400".toList "Bad Request".toList "Malformed request line.".toList

/-- The 503 page sent after the body was read (line 833). -/
def page503 : Str :=
  sendErrorHtml "503".toList "Service Unavailable".toList
    "The server response contains forbidden content and was blocked by the proxy.".toList

/-- The bare 400 answer when no host can be determined (line 674). -/
def bare400 : Str := "HTTP/1.1 400 Bad Request\r\nConnection: close\r\n\r\n".toList

/-- The bare 502 answer when the upstream cannot be reached (lines 653, 695). -/
def bare502 : Str := "HTTP/1.1 502 Bad Gateway\r\nConnection: close\r\n\r\n".toList

/-- The answer that opens a tunnel (line 659). -/
def established200 : Str := "HTTP/1.1 200 Connection Established\r\n\r\n".toList

/-- Lines 762-857 of `client_thread`: reading the response of the upstream and
answering the client. -/
def responsePhase (pol : Policy) (env : Env) (serverSock : Sock) : List Action :=
  match recvLine serverSock (8 * 1024) with
  | (none, _) => [.close .server, .close .client]
  | (some statusLine, s1) =>
    match readHeaders s1 with
    | (none, _) => [.close .server, .close .client]
    | (some serverHeaders, s2) =>
      let responseHeaderBlock := statusLine ++ CRLF ++ serverHeaders
      let r := readBody pol.forbiddenWords env.bufSize (determineFraming serverHeaders) s2
      match r.status with
      | .crashed => [.terminate]
      | .blocked => [.send .client send503, .close .server, .close .client]
      | .failed => [.close .server, .close .client]
      | .ok =>
        if containsForbidden (toLowerCopy r.decoded) pol.forbiddenWords then
          [.send .client page503, .close .server, .close .client]
        else if env.sendFails .client responseHeaderBlock then
          [.send .client responseHeaderBlock, .close .server, .close .client]
        else if r.raw.isEmpty then
          [.send .client responseHeaderBlock, .close .server, .close .client]
        else
          [.send .client responseHeaderBlock, .send .client r.raw, .close .server, .close .client]

/-- Lines 634-668 of `client_thread`: the CONNECT branch. -/
def connectBranch (pol : Policy) (env : Env) (uri : Str) : List Action :=
  let hp := splitHostPort uri "443".toList
  if hostForbidden hp.1 pol.forbiddenSites then [.send .client page403Connect, .close .client]
  else
    match env.connect hp.1 hp.2 with
    | none => [.connect hp.1 hp.2, .send .client bare502, .close .client]
    | some _ =>
      [.connect hp.1 hp.2, .send .client established200, .tunnel, .close .server, .close .client]

/-- Lines 670-749 of `client_thread`: a request that is not CONNECT, up to the
point where the request has been handed to the upstream.  The second
component is the upstream socket when that point is reached. -/
def httpBranch (pol : Policy) (env : Env) (reqLine headers reqBody method version : Str) :
    List Action × Option Sock :=
  match determineHostPortAndPath reqLine headers with
  | none => ([.send .client bare400, .close .client], none)
  | some (host, port, path) =>
    if hostForbidden host pol.forbiddenSites then
      ([.send .client page403Host, .close .client], none)
    else
      match env.connect host port with
      | none => ([.connect host port, .send .client bare502, .close .client], none)
      | some serverSock =>
        let toSend := buildUpstreamRequest method path version headers host
        if env.sendFails .server toSend then
          ([.connect host port, .send .server toSend, .close .server, .close .client], none)
        else if reqBody.isEmpty then
          ([.connect host port, .send .server toSend], some serverSock)
        else if env.sendFails .server reqBody then
          ([.connect host port, .send .server toSend, .send .server reqBody,
            .close .server, .close .client], none)
        else
          ([.connect host port, .send .server toSend, .send .server reqBody], some serverSock)

/-- Lines 555-749 of `client_thread`: everything before the response of the
upstream is read.  The second component is the upstream socket when the
session goes on to read a response from it. -/
def requestPhase (pol : Policy) (env : Env) (clientSock : Sock) : List Action × Option Sock :=
  match recvLine clientSock (8 * 1024) with
  | (none, _) => ([.close .client], none)
  | (some reqLine, c1) =>
    match readHeaders c1 with
    | (none, _) => ([.close .client], none)
    | (some headers, c2) =>
      let reqContentLength := scanContentLength (getlines headers) 0
      if reqContentLength > max_size then ([.terminate], none)
      else
        let reqBody := readRequestBody env.bufSize c2 reqContentLength
        if containsForbidden (toLowerCopy (reqLine ++ CRLF ++ headers ++ reqBody))
            pol.forbiddenWords then
          ([.send .client page403Words, .close .client], none)
        else
          match parseRequestLine reqLine with
          | none => ([.send .client page400, .close .client], none)
          | some (method, uri, version) =>
            if method = "CONNECT".toList then (connectBranch pol env uri, none)
            else httpBranch pol env reqLine headers reqBody method version

/-- `client_thread` (lines 544-858) for one accepted connection: the policy
lists, the world and the bytes the client sends give the actions of the
session. -/
def client_thread (pol : Policy) (env : Env) (clientSock : Sock) : List Action :=
  match requestPhase pol env clientSock with
  | (acts, none) => acts
  | (acts, some serverSock) => acts ++ responsePhase pol env serverSock

/-- The bytes handed to `send` and `sendAll` on the client socket, in order. -/
def clientOutput : List Action → Str
  | [] => []
  | .send .client b :: rest => b ++ clientOutput rest
  | _ :: rest => clientOutput rest

/-- Does the session call `connectToHostPort`. -/
def connectsUpstream (acts : List Action) : Bool :=
  acts.any (fun a => match a with
    | .connect _ _ => true
    | _ => false)

/-- The three body encodings of the specification. -/
inductive BodyEncoding
  | Chunked
  | ContentLength (n : Nat)
  | UntilClose
deriving DecidableEq, Repr

/-- The encoding as the specification derives it from the header map:
`Transfer-Encoding` containing "chunked" comes first, then a `Content-Length`
that parses, then reading until close. -/
def specBodyEncoding (hdrMap : HeaderMap) : BodyEncoding :=
  if (match hdrMap "transfer-encoding".toList with
      | some te => decide ("chunked".toList <:+: toLowerCopy te)
      | none => false) = true then .Chunked
  else
    match (hdrMap "content-length".toList).bind (fun v => stoul v 10) with
    | some n => .ContentLength n
    | none => .UntilClose

/-- The reader the specification attaches to each encoding. -/
def readBodyAs (forbiddenWords : List Str) (bufSize : Nat) (serverSock : Sock) :
    BodyEncoding → BodyRead
  | .Chunked => readChunkedResponse forbiddenWords serverSock
  | .ContentLength n => readContentLengthResponse forbiddenWords bufSize serverSock n
  | .UntilClose => readUntilCloseResponse forbiddenWords bufSize serverSock

/-- Trimming as the specification words it: the bytes of `set` taken off both
ends of `s`. -/
def specTrim (set s : Str) : Str := (s.rdropWhile set.contains).dropWhile set.contains

/-- What one line of the policy file contributes. -/
inductive LineEntry
  | nothing
  | host (h : Str)
  | word (w : Str)
deriving DecidableEq, Repr

/-- The classification of a policy line in the words of the specification:
trimmed of spaces, tabs, CR and LF; empty or starting with `#` gives nothing;
a lowercased text starting with `site:` gives the trimmed remainder as a host;
anything else gives the lowercased text as a word. -/
def statedClassify (line : Str) : LineEntry :=
  let t := specTrim [' ', '\t', '\r', '\n'] line
  if t = [] ∨ t.head? = some '#' then .nothing
  else if "site:".toList <+: toLowerCopy t then
    .host (specTrim [' ', '\t'] ((toLowerCopy t).drop 5))
  else .word (toLowerCopy t)

/-- The classification the loader implements: as `statedClassify`, but a
`site:` line whose remainder is empty after trimming gives nothing. -/
def loaderClassify (line : Str) : LineEntry :=
  match statedClassify line with
  | .host [] => .nothing
  | e => e

/-- The word an entry adds, if any. -/
def LineEntry.word? : LineEntry → Option Str
  | .word w => some w
  | _ => none

/-- The host an entry adds, if any. -/
def LineEntry.host? : LineEntry → Option Str
  | .host h => some h
  | _ => none

/-- The policy a classification yields for the lines of a file, entries in
file order. -/
def policyOfLines (classify : Str → LineEntry) (lines : List Str) : Policy :=
  ⟨lines.filterMap (fun l => (classify l).word?), lines.filterMap (fun l => (classify l).host?)⟩

/-- Adding the contribution of one line to the lists. -/
def Policy.add (p : Policy) : LineEntry → Policy
  | .nothing => p
  | .host h => { p with forbiddenSites := p.forbiddenSites ++ [h] }
  | .word w => { p with forbiddenWords := p.forbiddenWords ++ [w] }

/-- A text file made of the given lines, each ended by a newline. -/
def fileOfLines (lines : List Str) : Str := (lines.map (fun l => l ++ ['\n'])).flatten

/-- Value of a string of hexadecimal digits. -/
def hexValue (h : Str) : Nat := h.foldl (fun v d => v * 16 + (digitVal d).getD 0) 0

/-- A chunk-size line as the chunked framing writes it: one or more
hexadecimal digits, then nothing or a chunk extension that starts with `;`
and holds no CR or LF; the whole line is shorter than the 8192-byte limit of
`recvLine`. -/
def sizeLineOk (sizeText ext : Str) : Prop :=
  sizeText ≠ [] ∧ (∀ d ∈ sizeText, isDigitOf 16 d = true)
    ∧ (ext = [] ∨ ext.head? = some ';') ∧ (∀ c ∈ ext, c ≠ '\r' ∧ c ≠ '\n')
    ∧ sizeText.length + ext.length < 8192

instance (sizeText ext : Str) : Decidable (sizeLineOk sizeText ext) := by
  unfold sizeLineOk; infer_instance

/-- One chunk on the wire: the digits of its size, its extension and its
payload. -/
structure Chunk where
  sizeText : Str
  ext : Str
  payload : Str
deriving DecidableEq, Repr

/-- A well-formed chunk: the size line is in order and announces the length
of the payload, which is not empty (a zero size ends the body). -/
def Chunk.wellFormed (c : Chunk) : Prop :=
  sizeLineOk c.sizeText c.ext ∧ hexValue c.sizeText = c.payload.length
    ∧ c.payload ≠ [] ∧ c.payload.length ≤ max_size

instance (c : Chunk) : Decidable c.wellFormed := by
  unfold Chunk.wellFormed; infer_instance

/-- The bytes of a chunk: size line, CRLF, payload, CRLF. -/
def Chunk.encode (c : Chunk) : Str := c.sizeText ++ c.ext ++ CRLF ++ c.payload ++ CRLF

/-- A chunked body: the chunks, the size line of the zero-size chunk and the
trailer lines. -/
structure ChunkedBody where
  chunks : List Chunk
  lastSize : Str
  lastExt : Str
  trailers : List Str
deriving DecidableEq, Repr

/-- A well-formed chunked body: well-formed chunks, a last size line of value
zero, and trailer lines that are not empty, hold no CR or LF and are shorter
than the 8192-byte limit of `recvLine`. -/
def ChunkedBody.wellFormed (b : ChunkedBody) : Prop :=
  (∀ c ∈ b.chunks, c.wellFormed) ∧ sizeLineOk b.lastSize b.lastExt ∧ hexValue b.lastSize = 0
    ∧ ∀ t ∈ b.trailers, t ≠ [] ∧ (∀ c ∈ t, c ≠ '\r' ∧ c ≠ '\n') ∧ t.length < 8192

instance (b : ChunkedBody) : Decidable b.wellFormed := by
  unfold ChunkedBody.wellFormed; infer_instance

/-- The bytes of a list of lines, each ended by CRLF. -/
def encodeLines (lines : List Str) : Str := (lines.map (fun l => l ++ CRLF)).flatten

/-- The bytes of a chunked body on the wire. -/
def ChunkedBody.encode (b : ChunkedBody) : Str :=
  (b.chunks.map Chunk.encode).flatten ++ (b.lastSize ++ b.lastExt ++ CRLF
    ++ encodeLines b.trailers ++ CRLF)

/-- The decoded body: the chunk payloads in order. -/
def ChunkedBody.decoded (b : ChunkedBody) : Str := (b.chunks.map Chunk.payload).flatten

/-- The chunked body of the examples: two chunks, the second with an
extension, a last chunk and one trailer line. -/
def sampleChunked : ChunkedBody :=
  ⟨[⟨"3".toList, [], "abc".toList⟩, ⟨"02".toList, ";x=y".toList, "de".toList⟩],
    "0".toList, [], ["T: v".toList]⟩

set_option maxRecDepth 100000

/-- A world with one reachable host, `ok.example` on port 80, whose
connection delivers `resp` in one piece and then ends as `fails` says; every
`sendAll` succeeds and `BUF_SIZE` is 65536. -/
def demoEnv (resp : Str) (fails : Bool) : Env :=
  ⟨65536,
   fun host port =>
     if host = "ok.example".toList ∧ port = "80".toList then some ⟨[resp], fails⟩ else none,
   fun _ _ => false⟩

/-- The policy of the examples: one forbidden word and one forbidden host. -/
def demoPolicy : Policy := ⟨["badword".toList], ["blocked.example".toList]⟩

/-- A plain GET for `http://ok.example/x` arriving in one piece. -/
def demoGet : Sock :=
  ⟨["GET http://ok.example/x HTTP/1.1\r\nHost: ok.example\r\n\r\n".toList], false⟩

/-- A POST whose body is sent chunked, without `Content-Length`, and holds the
forbidden word. -/
def chunkedPost : Sock :=
  ⟨[("POST http://ok.example/submit HTTP/1.1\r\nTransfer-Encoding: chunked\r\n\r\n"
      ++ "7\r\nbadword\r\n0\r\n\r\n").toList], false⟩

/-- A short clean response with `Content-Length`. -/
def cleanResponse : Str := "HTTP/1.1 200 OK\r\nContent-Length: 2\r\n\r\nhi".toList

/-- A GET whose URL holds the forbidden word in capitals. -/
def forbiddenGet : Sock :=
  ⟨["GET http://ok.example/BADWORD HTTP/1.1\r\nHost: ok.example\r\n\r\n".toList], false⟩

/-- A response whose lines end in a bare LF, with `Content-Length`. -/
def lfResponse : Str := "HTTP/1.1 200 OK\nContent-Length: 2\n\nhi".toList

/-- A chunked response whose chunk data is followed by two bytes other than
CRLF. -/
def oddChunkedResponse : Str :=
  "HTTP/1.1 200 OK\r\nTransfer-Encoding: chunked\r\n\r\n2\r\nhiXY0\r\n\r\n".toList

/-- A response without length, read until the connection ends. -/
def untilCloseResponse : Str := "HTTP/1.0 200 OK\r\n\r\npartial bo".toList

/-- A clean chunked response with CRLF line ends. -/
def cleanChunkedResponse : Str :=
  "HTTP/1.1 200 OK\r\nServer: demo\r\nTransfer-Encoding: chunked\r\n\r\n".toList
    ++ sampleChunked.encode

/-- The answers the proxy composes itself. -/
def ownPages : List Str :=
  [page403Words, page400, page403Connect, page403Host, bare400, bare502, established200,
    send503, page503]

/-- The loop of `recvLine` seen on the flat list of pending bytes: the result
and the bytes left on the socket. -/
def recvLineFlat (maxlen : Int) : Str → Str → Option Str × Str
  | _, [] => (none, [])
  | out, ch :: rest =>
    if ch = '\r' then
      match rest with
      | '\n' :: rest1 => (some out, rest1)
      | _ => (some out, rest)
    else if ch = '\n' then (some out, rest)
    else if ((out ++ [ch]).length : Int) ≥ maxlen then (none, rest)
    else recvLineFlat maxlen (out ++ [ch]) rest

/-- A header block whose lines fill 64 KiB exactly: eight lines of 8190 bytes,
each with its CRLF, and the empty line that ends the block. -/
def fullHeaders : Str :=
  encodeLines (List.replicate 8 (List.replicate 8190 'a')) ++ CRLF

/-- Host and port as the specification words them: the text before the first
colon of the authority, and the text after that colon or else the default
port. -/
def specHostPort (authority defaultPort : Str) : Str × Str :=
  (authority.takeWhile (· != ':'),
    if ':' ∈ authority then (authority.dropWhile (· != ':')).drop 1 else defaultPort)

/-- The Host value as the specification words it: of the first line that
starts with `host:` in any letter case, the text after the colon with spaces
and tabs taken off both ends. -/
def specHostValue (lines : List Str) : Option Str :=
  (lines.find? (fun l => startsWith (toLowerCopy l) "host:".toList)).map
    (fun l => specTrim " \t".toList (l.drop 5))

/-- The name of a header line as the rewrite sees it: the text before the
first colon (the whole line when it has none), lowercased. -/
def specHeaderName (line : Str) : Str := toLowerCopy (line.takeWhile (· != ':'))

/-- The rewrite of one client header line as the specification words it:
`Proxy-Connection` lines go, `Connection` lines become `Connection: close`,
every other line stays. -/
def specRewriteLine (line : Str) : Option Str :=
  if specHeaderName line = "proxy-connection".toList then none
  else if specHeaderName line = "connection".toList then some "Connection: close".toList
  else some line

/-- Did the client send a `Host` line. -/
def specHasHost (lines : List Str) : Bool :=
  lines.any (fun l => decide (specHeaderName l = "host".toList))

/-- A response with `Content-Length` whose body is the forbidden word as
stored. -/
def storedWordResponse : Str := "HTTP/1.1 200 OK\r\nContent-Length: 7\r\n\r\nbadword".toList

/-- An upstream that sends a chunked body whose first chunk is the forbidden
word in capitals, then one more chunk and the last chunk. -/
def capitalsChunked : Sock := ⟨["7\r\nBADWORD\r\n4\r\nmore\r\n0\r\n\r\n".toList], false⟩

/-- An upstream that sends the forbidden word in capitals and then four more
bytes, in two pieces. -/
def capitalsPlain : Sock := ⟨["BADWORD".toList, "more".toList], false⟩

/-! ## The tunnel relay -/

/-- A response without length whose connection fails after nine bytes of
body. -/
def resetResponse : Str := "HTTP/1.1 200 OK\r\nServer: demo\r\n\r\nhalf a pa".toList

/-- A response whose status line is the single token `junk`. -/
def junkStatusResponse : Str := "junk\r\nContent-Length: 2\r\n\r\nhi".toList

/-- An upstream that sends a chunked body with bare LF line ends. -/
def lfChunked : Sock := ⟨["2\nhi\r\n0\n\n".toList], false⟩

/-- An upstream that sends a chunked body whose chunk data is followed by the
bytes `XY` and whose trailer line ends in a bare LF. -/
def oddChunked : Sock := ⟨["2\r\nhiXY0\r\nT: v\n\r\n".toList], false⟩

/-- Name and value of a header line as `parseHeadersToMap` and the request
scan take them: the text before the first colon, trimmed and lowercased, and
the text after it, trimmed; nothing for a line without a colon. -/
def specHeaderEntry (line : Str) : Option (Str × Str) :=
  if ':' ∈ line then
    some (toLowerCopy (trimLambda (line.takeWhile (· != ':'))),
      trimLambda ((line.dropWhile (· != ':')).drop 1))
  else none

/-- The value of the first line of the block that carries the header `key`. -/
def specFirstValue (lines : List Str) (key : Str) : Option Str :=
  ((lines.filterMap specHeaderEntry).find? (fun e => decide (e.1 = key))).map (·.2)

/-- The value of the last line of the block that carries the header `key`. -/
def specLastValue (lines : List Str) (key : Str) : Option Str :=
  ((lines.filterMap specHeaderEntry).reverse.find? (fun e => decide (e.1 = key))).map (·.2)

/-- A header block with two `Content-Length` lines of different values. -/
def twoLengths : List Str := ["Content-Length: 2".toList, "Content-Length: 5".toList]

/-- A header block with two `Transfer-Encoding` lines, the first one chunked. -/
def twoEncodings : List Str :=
  ["Transfer-Encoding: chunked".toList, "Transfer-Encoding: identity".toList]

/-- The size text of a chunk-size line as the specification words it: the
part before the first `;`, with spaces and tabs taken off both ends. -/
def specSizeText (line : Str) : Str := specTrim [' ', '\t'] (line.takeWhile (· != ';'))

/-- A chunked body after the size line `sizeLine`: the payload `data`, CRLF
and the closing zero-size chunk. -/
def chunkedAfter (sizeLine data : String) : Sock :=
  ⟨[sizeLine.toList ++ CRLF ++ data.toList ++ CRLF ++ "0\r\n\r\n".toList], false⟩

/-- A chunked body whose payloads spell the forbidden word across the boundary
of the first two chunks, followed by one more chunk. -/
def splitWordChunked : ChunkedBody :=
  ⟨[⟨"4".toList, [], "xbad".toList⟩, ⟨"5".toList, [], "wordy".toList⟩,
    ⟨"4".toList, [], "more".toList⟩], "0".toList, [], []⟩

/-- An entry as the specification wants it: not empty, without an uppercase
ASCII letter, and with no space or tab at either end. -/
def entryOk (e : Str) : Prop :=
  e ≠ [] ∧ (∀ c ∈ e, ¬ (65 ≤ c.toNat ∧ c.toNat ≤ 90))
    ∧ e.head? ≠ some ' ' ∧ e.head? ≠ some '\t'
    ∧ e.getLast? ≠ some ' ' ∧ e.getLast? ≠ some '\t'

instance (e : Str) : Decidable (entryOk e) := by
  unfold entryOk; infer_instance

/-- Both lists of a policy hold only entries that are in order. -/
def Policy.entriesOk (p : Policy) : Prop :=
  (∀ e ∈ p.forbiddenWords, entryOk e) ∧ (∀ e ∈ p.forbiddenSites, entryOk e)

/-- A policy file with mixed case, blanks around the entries, a comment, a
`site:` line with a host and a `site:` line alone. -/
def untidyFile : Str := "  BadWord \t\r\n# note\nSite:  Blocked.Example \nsite:\n\n".toList

/-! ## Properties -/

/-! ### Searching -/

theorem find_isSome_iff (s w : Str) : (find s w).isSome = true ↔ w <:+: s := by
  induction s with
  | nil =>
    cases w <;> simp [find]
  | cons c cs ih =>
    rw [find, List.infix_cons_iff]
    by_cases h : w.isPrefixOf (c :: cs) = true
    · have h' : w <+: c :: cs := List.isPrefixOf_iff_prefix.mp h
      simp [h, h']
    · have h' : ¬ w <+: c :: cs := fun hp => h (List.isPrefixOf_iff_prefix.mpr hp)
      simp only [h, Bool.false_eq_true, if_false, Option.isSome_map', ih, h', false_or]

theorem containsForbidden_iff (body : Str) (words : List Str) :
    containsForbidden body words = true ↔ ∃ w ∈ words, w <:+: body := by
  induction words with
  | nil => simp [containsForbidden]
  | cons w ws ih =>
    rw [containsForbidden]
    by_cases h : (find body w).isSome = true
    · have h' := (find_isSome_iff body w).mp h
      simp [h, h']
    · have h' : ¬ w <:+: body := fun hp => h ((find_isSome_iff body w).mpr hp)
      simp [h, h', ih]

theorem siteLoop_iff (hostLower : Str) (sites : List Str) :
    siteLoop hostLower sites = true ↔ ∃ s ∈ sites, s <:+: hostLower := by
  induction sites with
  | nil => simp [siteLoop]
  | cons w ws ih =>
    rw [siteLoop]
    by_cases h : (find hostLower w).isSome = true
    · have h' := (find_isSome_iff hostLower w).mp h
      simp [h, h']
    · have h' : ¬ w <:+: hostLower := fun hp => h ((find_isSome_iff hostLower w).mpr hp)
      simp [h, h', ih]

/-- C8: the forbidden-word test on the lowercased text is true exactly when
some word of the list is a contiguous substring of the lowercased text; there
is no tokenization, so the word "ass" matches the text "Class". -/
theorem containsForbidden_lowercased_iff_substring :
    (∀ (text : Str) (words : List Str),
      containsForbidden (toLowerCopy text) words = true
        ↔ ∃ w ∈ words, w <:+: toLowerCopy text)
    ∧ containsForbidden (toLowerCopy "Class".toList) ["ass".toList] = true :=
  ⟨fun text words => containsForbidden_iff (toLowerCopy text) words, by decide⟩

/-- C9: the host check run for CONNECT and for plain HTTP requests reports the
host forbidden exactly when some entry of the forbidden-host list is a
contiguous substring of the lowercased host. -/
theorem hostForbidden_iff_substring (host : Str) (forbiddenSites : List Str) :
    hostForbidden host forbiddenSites = true
      ↔ ∃ s ∈ forbiddenSites, s <:+: toLowerCopy host :=
  siteLoop_iff (toLowerCopy host) forbiddenSites

theorem find_isSome_eq_decide (s w : Str) : (find s w).isSome = decide (w <:+: s) := by
  rw [Bool.eq_iff_iff, find_isSome_iff, decide_eq_true_iff]

/-- C7: the body reader `client_thread` runs depends on the response headers
alone and is the one of the encoding the specification derives from them:
chunked whenever the `Transfer-Encoding` value contains "chunked" in any
letter case, also next to a `Content-Length`; otherwise by length `n` when the
`Content-Length` value parses as `n`; otherwise until close. -/
theorem readBody_follows_specBodyEncoding (forbiddenWords : List Str) (bufSize : Nat)
    (serverHeaders : Str) (serverSock : Sock) :
    readBody forbiddenWords bufSize (determineFraming serverHeaders) serverSock
      = readBodyAs forbiddenWords bufSize serverSock
          (specBodyEncoding (parseHeadersToMap serverHeaders)) := by
  unfold readBody determineFraming specBodyEncoding
  dsimp only
  generalize parseHeadersToMap serverHeaders "transfer-encoding".toList = ote
  generalize parseHeadersToMap serverHeaders "content-length".toList = ocl
  generalize "chunked".toList = ck
  cases ote with
  | none =>
    cases ocl with
    | none => simp [readBodyAs]
    | some v => cases hn : stoul v 10 <;> simp [readBodyAs, hn]
  | some te =>
    cases ocl with
    | none =>
      by_cases hc : ck <:+: toLowerCopy te <;>
        simp [find_isSome_eq_decide, hc, readBodyAs]
    | some v =>
      cases hn : stoul v 10 <;>
        by_cases hc : ck <:+: toLowerCopy te <;>
          simp [find_isSome_eq_decide, hc, readBodyAs, hn]

/-! ### Trimming -/

theorem rdropWhile_cons (p : Char → Bool) (c : Char) (cs : Str) :
    (c :: cs).rdropWhile p
      = if cs.rdropWhile p = [] then (if p c = true then [] else [c]) else c :: cs.rdropWhile p := by
  unfold List.rdropWhile
  rw [List.reverse_cons, List.dropWhile_append]
  by_cases h : List.dropWhile p cs.reverse = []
  · by_cases hc : p c = true <;> simp [h, hc, List.dropWhile]
  · simp [h]

theorem find_last_not_of_spec (s set : Str) :
    match find_last_not_of s set with
    | none => s.rdropWhile set.contains = []
    | some b => s.take (b + 1) = s.rdropWhile set.contains ∧ s.rdropWhile set.contains ≠ [] := by
  induction s with
  | nil => simp [find_last_not_of]
  | cons c cs ih =>
    rw [find_last_not_of, rdropWhile_cons]
    cases hrec : find_last_not_of cs set with
    | some i =>
      rw [hrec] at ih
      simp only [List.take_succ_cons, ih.1, if_neg ih.2]
      simp
    | none =>
      rw [hrec] at ih
      have ih' : cs.rdropWhile set.contains = [] := ih
      rw [if_pos ih']
      by_cases hc : set.contains c = true
      · rw [if_pos hc, if_pos hc]
      · rw [if_neg hc, if_neg hc]
        exact ⟨rfl, by simp⟩

theorem trimWith_eq (s l r : Str) (hsub : ∀ c, l.contains c = true → r.contains c = true) :
    trimWith s l r
      = if s.rdropWhile r.contains = [] then none
        else some ((s.rdropWhile r.contains).dropWhile l.contains) := by
  induction s with
  | nil => simp [trimWith, find_first_not_of, find_last_not_of]
  | cons c cs ih =>
    have hlast := find_last_not_of_spec (c :: cs) r
    have hlast' := find_last_not_of_spec cs r
    by_cases hc : l.contains c = true
    · have hrc := hsub c hc
      unfold trimWith at ih ⊢
      rw [find_first_not_of, find_last_not_of, rdropWhile_cons]
      simp only [hc, if_true, hrc]
      cases hb : find_last_not_of cs r with
      | none =>
        rw [hb] at hlast'
        cases ha : find_first_not_of cs l <;> simp [hlast']
      | some i =>
        rw [hb] at hlast' ih
        rw [if_neg hlast'.2] at ih ⊢
        cases ha : find_first_not_of cs l with
        | none => rw [ha] at ih; simp at ih
        | some a =>
          rw [ha] at ih
          simp only [Option.map_some', List.dropWhile_cons, hc, if_true]
          rw [← ih]
          simp [substr]
    · unfold trimWith
      rw [find_first_not_of]
      simp only [hc, Bool.false_eq_true, if_false]
      cases hb : find_last_not_of (c :: cs) r with
      | none =>
        rw [hb] at hlast
        simp [hlast]
      | some b =>
        rw [hb] at hlast
        rw [if_neg hlast.2]
        have hhead : ∃ t, (c :: cs).rdropWhile r.contains = c :: t := by
          rw [← hlast.1]; simp
        obtain ⟨t, ht⟩ := hhead
        simp only [substr, List.drop_zero, Nat.sub_zero, hlast.1]
        rw [ht, List.dropWhile_cons]
        have hc' : c ∉ l := by simpa using hc
        simp [hc']

theorem specTrim_eq_nil_iff (set s : Str) :
    specTrim set s = [] ↔ s.rdropWhile set.contains = [] := by
  unfold specTrim
  constructor
  · intro h
    by_contra hne
    have hlast := List.rdropWhile_last_not set.contains s hne
    rw [List.dropWhile_eq_nil_iff] at h
    exact hlast (h _ (List.getLast_mem hne))
  · intro h; simp [h]

/-- Trimming with the same set on both sides is `specTrim`, and fails when
nothing is left. -/
theorem trimWith_same (s set : Str) :
    trimWith s set set = if specTrim set s = [] then none else some (specTrim set s) := by
  rw [trimWith_eq s set set (fun _ h => h)]
  by_cases h : s.rdropWhile set.contains = []
  · rw [if_pos h, if_pos ((specTrim_eq_nil_iff set s).mpr h)]
  · rw [if_neg h, if_neg (fun h' => h ((specTrim_eq_nil_iff set s).mp h'))]
    rfl

/-! ### Loading the policy file -/

theorem fgetsCopy_line (l rest : Str) (room : Nat) (hnl : ∀ c ∈ l, c ≠ '\n')
    (hlen : l.length < room) :
    fgetsCopy room (l ++ '\n' :: rest) = (l ++ ['\n'], rest) := by
  induction l generalizing room with
  | nil =>
    cases room with
    | zero => simp at hlen
    | succ k => simp [fgetsCopy]
  | cons c cs ih =>
    cases room with
    | zero => simp at hlen
    | succ k =>
      have hc : c ≠ '\n' := hnl c (List.mem_cons_self _ _)
      have hrec := ih k (fun x hx => hnl x (List.mem_cons_of_mem _ hx))
        (by simpa using hlen)
      simp [fgetsCopy, hc, hrec]

theorem specTrim_line (l : Str) :
    specTrim [' ', '\t', '\r', '\n'] (l ++ ['\n']) = specTrim [' ', '\t', '\r', '\n'] l := by
  unfold specTrim
  rw [List.rdropWhile_concat_pos]
  decide

theorem loadLine_line (l : Str) (p : Policy) (hnul : ∀ c ∈ l, c ≠ Char.ofNat 0) :
    loadLine (l ++ ['\n']) p = p.add (loaderClassify l) := by
  have hcs : cString (l ++ ['\n']) = l ++ ['\n'] := by
    unfold cString
    rw [List.takeWhile_eq_self_iff]
    intro x hx
    rcases List.mem_append.mp hx with h | h
    · simpa using hnul x h
    · have : x = '\n' := by simpa using h
      subst this; decide
  unfold loadLine loaderClassify statedClassify
  simp only [hcs]
  rw [trimWith_same, specTrim_line]
  generalize specTrim [' ', '\t', '\r', '\n'] l = t
  by_cases ht : t = []
  · simp [ht, Policy.add]
  · rw [if_neg ht]
    have hemp : t.isEmpty = false := by
      cases t with
      | nil => exact absurd rfl ht
      | cons a b => rfl
    simp only [hemp, Bool.false_eq_true, if_false]
    by_cases hhash : t.head? = some '#'
    · simp [hhash, Policy.add]
    · simp only [hhash, if_false, ht, false_or]
      by_cases hsite : "site:".toList <+: toLowerCopy t
      · have hs : startsWith (toLowerCopy t) "site:".toList = true :=
          List.isPrefixOf_iff_prefix.mpr hsite
        rw [if_pos hs, if_pos hsite, substrFrom, trimWith_same]
        generalize specTrim [' ', '\t'] (List.drop 5 (toLowerCopy t)) = h
        cases h with
        | nil => simp [Policy.add]
        | cons a b => simp [Policy.add]
      · have hs : ¬ startsWith (toLowerCopy t) "site:".toList = true :=
          fun h => hsite (List.isPrefixOf_iff_prefix.mp h)
        rw [if_neg hs, if_neg hsite]
        simp [Policy.add]

theorem loadLoop_lines (ls : List Str) (fuel : Nat) (p : Policy)
    (htext : ∀ l ∈ ls, (∀ c ∈ l, c ≠ '\n' ∧ c ≠ Char.ofNat 0) ∧ l.length + 1 < 1024)
    (hfuel : ls.length < fuel) :
    loadLoop fuel (fileOfLines ls) p = ls.foldl (fun q l => q.add (loaderClassify l)) p := by
  induction ls generalizing fuel p with
  | nil =>
    cases fuel with
    | zero => simp at hfuel
    | succ k => simp [fileOfLines, loadLoop, fgets]
  | cons l ls ih =>
    cases fuel with
    | zero => simp at hfuel
    | succ k =>
      have hl := htext l (List.mem_cons_self _ _)
      have hfile : fileOfLines (l :: ls) = l ++ '\n' :: fileOfLines ls := by
        simp [fileOfLines]
      have hget : fgets 1024 (l ++ '\n' :: fileOfLines ls)
          = some (l ++ ['\n'], fileOfLines ls) := by
        have hne : l ++ '\n' :: fileOfLines ls ≠ [] := by simp
        have := fgetsCopy_line l (fileOfLines ls) 1023 (fun c hc => (hl.1 c hc).1) (by omega)
        unfold fgets
        split
        · rename_i heq; exact absurd heq hne
        · simp [this]
      rw [hfile, loadLoop, hget]
      simp only [List.foldl_cons]
      rw [loadLine_line l p (fun c hc => (hl.1 c hc).2)]
      exact ih k _ (fun x hx => htext x (List.mem_cons_of_mem _ hx)) (by simpa using hfuel)

theorem foldl_add_eq (classify : Str → LineEntry) (ls : List Str) (p : Policy) :
    ls.foldl (fun q l => q.add (classify l)) p
      = ⟨p.forbiddenWords ++ ls.filterMap (fun l => (classify l).word?),
         p.forbiddenSites ++ ls.filterMap (fun l => (classify l).host?)⟩ := by
  induction ls generalizing p with
  | nil => simp
  | cons l ls ih =>
    rw [List.foldl_cons, ih]
    cases h : classify l <;>
      simp [Policy.add, List.filterMap_cons, h, LineEntry.word?, LineEntry.host?]

theorem fileOfLines_length (ls : List Str) : ls.length ≤ (fileOfLines ls).length := by
  induction ls with
  | nil => simp [fileOfLines]
  | cons l ls ih =>
    have : fileOfLines (l :: ls) = l ++ '\n' :: fileOfLines ls := by simp [fileOfLines]
    rw [this]
    simp only [List.length_append, List.length_cons]
    omega

/-- C10 (as amended): for a policy file whose lines are text (no NUL byte) and,
with their newline, shorter than the 1024-byte buffer, the loader classifies
every line as the specification says, except that a `site:` line whose
remainder is empty after trimming spaces and tabs contributes nothing; the
entries appear in file order. -/
theorem loadForbiddenSingleFile_classifies (ls : List Str)
    (htext : ∀ l ∈ ls, (∀ c ∈ l, c ≠ '\n' ∧ c ≠ Char.ofNat 0) ∧ l.length + 1 < 1024) :
    loadForbiddenSingleFile (some (fileOfLines ls)) = policyOfLines loaderClassify ls := by
  unfold loadForbiddenSingleFile policyOfLines
  simp only []
  rw [loadLoop_lines ls _ _ htext (Nat.lt_succ_of_le (fileOfLines_length ls)), foldl_add_eq]
  simp

/-- Witness for C10: a file with a comment, a host line, a blank line, a word
line and a bare `site:` line. -/
theorem loadForbiddenSingleFile_classifies_witness :
    loadForbiddenSingleFile (some (fileOfLines
        ["# c".toList, "site: Blocked.Example \r".toList, [], "BadWord".toList, "site:".toList]))
      = policyOfLines loaderClassify
        ["# c".toList, "site: Blocked.Example \r".toList, [], "BadWord".toList, "site:".toList] :=
  loadForbiddenSingleFile_classifies _ (by decide)

/-- Counterexample to C10 as stated: for the file with the single line `site:`,
the stated classification puts the empty remainder among the forbidden hosts,
while the loader leaves both lists empty. -/
theorem loadForbiddenSingleFile_site_alone :
    policyOfLines statedClassify ["site:".toList] = ⟨[], [[]]⟩
    ∧ loadForbiddenSingleFile (some (fileOfLines ["site:".toList])) = ⟨[], []⟩
    ∧ loadForbiddenSingleFile (some (fileOfLines ["site:".toList]))
        ≠ policyOfLines statedClassify ["site:".toList] := by
  decide

/-! ### Sockets -/

theorem recvSegs_spec (fails : Bool) (len : Nat) (hlen : 0 < len) (segs : List Str) :
    match recvSegs fails len segs with
    | .data d s1 => d ≠ [] ∧ d.length ≤ len ∧ segs.flatten = d ++ s1.bytes ∧ s1.fails = fails
    | .error => segs.flatten = [] ∧ fails = true
    | .closed => segs.flatten = [] ∧ fails = false := by
  induction segs with
  | nil => cases fails <;> simp [recvSegs]
  | cons seg segs ih =>
    cases seg with
    | nil => simpa [recvSegs] using ih
    | cons c cs =>
      rw [recvSegs]
      refine ⟨?_, ?_, ?_, rfl⟩
      · cases len with
        | zero => exact absurd hlen (Nat.lt_irrefl 0)
        | succ k => simp
      · simp [List.length_take]
      · simp only [Sock.bytes, List.flatten_cons]
        rw [← List.append_assoc, List.take_append_drop]

theorem recv_spec (s : Sock) (len : Nat) (hlen : 0 < len) :
    match recv s len with
    | .data d s1 => d ≠ [] ∧ d.length ≤ len ∧ s.bytes = d ++ s1.bytes ∧ s1.fails = s.fails
    | .error => s.bytes = [] ∧ s.fails = true
    | .closed => s.bytes = [] ∧ s.fails = false := by
  unfold recv
  rw [if_neg (Nat.pos_iff_ne_zero.mp hlen)]
  exact recvSegs_spec s.fails len hlen s.segs

/-- With bytes pending, `recv` returns a non-empty piece of them. -/
theorem recv_data (s : Sock) (len : Nat) (hlen : 0 < len) (hne : s.bytes ≠ []) :
    ∃ d s1, recv s len = .data d s1 ∧ d ≠ [] ∧ d.length ≤ len ∧ s.bytes = d ++ s1.bytes
      ∧ s1.fails = s.fails := by
  have h := recv_spec s len hlen
  cases hr : recv s len with
  | data d s1 => rw [hr] at h; exact ⟨d, s1, rfl, h⟩
  | error => rw [hr] at h; exact absurd h.1 hne
  | closed => rw [hr] at h; exact absurd h.1 hne

/-- With nothing pending, `recv` returns `0` or `-1`. -/
theorem recv_end (s : Sock) (len : Nat) (hnil : s.bytes = []) :
    recv s len = (if s.fails then .error else .closed) ∨ recv s len = .closed := by
  by_cases hlen : 0 < len
  · have h := recv_spec s len hlen
    cases hr : recv s len with
    | data d s1 =>
      rw [hr] at h
      rw [hnil] at h
      have := h.2.2.1
      cases d with
      | nil => exact absurd rfl h.1
      | cons a b => simp at this
    | error => rw [hr] at h; left; simp [h.2]
    | closed => right; rfl
  · right
    have : len = 0 := by omega
    simp [recv, this]

theorem recvByte_cons (s : Sock) (c : Char) (rest : Str) (h : s.bytes = c :: rest) :
    ∃ s1, recvByte s = some (c, s1) ∧ s1.bytes = rest ∧ s1.fails = s.fails := by
  obtain ⟨d, s1, hr, hne, hlen, hb, hf⟩ := recv_data s 1 (by decide) (by simp [h])
  cases d with
  | nil => exact absurd rfl hne
  | cons x xs =>
    cases xs with
    | cons y ys => simp at hlen
    | nil =>
      rw [h] at hb
      simp only [List.singleton_append, List.cons.injEq] at hb
      refine ⟨s1, ?_, hb.2.symm, hf⟩
      simp [recvByte, hr, hb.1]

theorem recvByte_nil (s : Sock) (h : s.bytes = []) : recvByte s = none := by
  unfold recvByte
  rcases recv_end s 1 h with hr | hr
  · rw [hr]; cases s.fails <;> rfl
  · rw [hr]

/-- `recvExact` on a socket that holds at least `p.length` bytes: it returns
them and leaves the rest. -/
theorem recvExactLoop_spec (fuel : Nat) : ∀ (s : Sock) (len : Nat) (got p rest : Str),
    s.bytes = p ++ rest → got.length + p.length = len → p.length ≤ fuel →
    ∃ s1, recvExactLoop fuel s len got = ((len : Int), got ++ p, s1) ∧ s1.bytes = rest
      ∧ s1.fails = s.fails := by
  induction fuel with
  | zero =>
    intro s len got p rest hb hlen hfuel
    have hp : p = [] := List.length_eq_zero.mp (Nat.le_zero.mp hfuel)
    subst hp
    refine ⟨s, ?_, by simpa using hb, rfl⟩
    simp only [recvExactLoop, List.append_nil]
    simp at hlen
    rw [hlen]
  | succ k ih =>
    intro s len got p rest hb hlen hfuel
    rw [recvExactLoop]
    cases p with
    | nil =>
      simp at hlen
      refine ⟨s, ?_, by simpa using hb, rfl⟩
      simp [hlen]
    | cons a p' =>
      have hlt : got.length < len := by simp at hlen; omega
      rw [if_pos hlt]
      have hpos : 0 < len - got.length := by omega
      obtain ⟨d, s1, hr, hne, hdlen, hbytes, hf⟩ :=
        recv_data s (len - got.length) hpos (by simp [hb])
      rw [hr]
      have hdp : d.length ≤ (a :: p').length := by simp at hlen ⊢; omega
      rw [hb] at hbytes
      have hd : d = (a :: p').take d.length := by
        have := congrArg (List.take d.length) hbytes
        rw [List.take_append_of_le_length hdp, List.take_left'] at this
        · exact this.symm
        · rfl
      have hs1 : s1.bytes = (a :: p').drop d.length ++ rest := by
        have := congrArg (List.drop d.length) hbytes
        rw [List.drop_append_of_le_length hdp, List.drop_left'] at this
        · exact this.symm
        · rfl
      have hdpos : 0 < d.length := List.length_pos.mpr hne
      obtain ⟨s2, h2, hb2, hf2⟩ := ih s1 len (got ++ d) ((a :: p').drop d.length) rest hs1
        (by simp only [List.length_append, List.length_drop]; omega)
        (by simp only [List.length_drop]; simp only [List.length_cons] at hfuel hdp ⊢; omega)
      refine ⟨s2, ?_, hb2, hf2.trans hf⟩
      show recvExactLoop k s1 len (got ++ d) = _
      rw [h2, List.append_assoc]
      congr 2
      conv_rhs => rw [← List.take_append_drop d.length (a :: p')]
      rw [← hd]

theorem recvExact_spec (s : Sock) (p rest : Str) (hb : s.bytes = p ++ rest) :
    ∃ s1, recvExact s p.length = ((p.length : Int), p, s1) ∧ s1.bytes = rest
      ∧ s1.fails = s.fails := by
  obtain ⟨s1, h, hb1, hf⟩ := recvExactLoop_spec p.length s p.length [] p rest hb (by simp)
    (Nat.le_refl _)
  exact ⟨s1, by simpa [recvExact] using h, hb1, hf⟩

/-- `recvLine` on a line ended by CRLF and shorter than `maxlen`. -/
theorem recvLineLoop_crlf (maxlen : Int) (rest : Str) (l : Str) :
    ∀ (fuel : Nat) (out : Str) (s : Sock), (∀ c ∈ l, c ≠ '\r' ∧ c ≠ '\n') →
    s.bytes = l ++ '\r' :: '\n' :: rest → l.length < fuel →
    ((out ++ l).length : Int) < maxlen →
    ∃ s1, recvLineLoop maxlen fuel out s = (some (out ++ l), s1) ∧ s1.bytes = rest
      ∧ s1.fails = s.fails := by
  induction l with
  | nil =>
    intro fuel out s _ hb hfuel _
    cases fuel with
    | zero => simp at hfuel
    | succ k =>
      obtain ⟨s1, h1, hb1, hf1⟩ := recvByte_cons s '\r' ('\n' :: rest) (by simpa using hb)
      obtain ⟨s2, h2, hb2, hf2⟩ := recvByte_cons s1 '\n' rest hb1
      refine ⟨s2, ?_, hb2, hf2.trans hf1⟩
      simp [recvLineLoop, h1, h2]
  | cons c cs ih =>
    intro fuel out s hl hb hfuel hmax
    cases fuel with
    | zero => simp at hfuel
    | succ k =>
      obtain ⟨s1, h1, hb1, hf1⟩ := recvByte_cons s c (cs ++ '\r' :: '\n' :: rest)
        (by simpa using hb)
      have hc := hl c (List.mem_cons_self _ _)
      have hmax1 : ¬ (((out ++ [c]).length : Int) ≥ maxlen) := by
        simp only [List.length_append, List.length_cons, List.length_nil] at hmax ⊢
        push_cast at hmax ⊢
        omega
      obtain ⟨s2, h2, hb2, hf2⟩ := ih k (out ++ [c]) s1
        (fun x hx => hl x (List.mem_cons_of_mem _ hx)) hb1 (by simpa using hfuel)
        (by simpa using hmax)
      refine ⟨s2, ?_, hb2, hf2.trans hf1⟩
      rw [recvLineLoop, h1]
      simp only [hc.1, hc.2, if_false, hmax1]
      rw [h2]
      simp

theorem recvLine_crlf (maxlen : Int) (s : Sock) (l rest : Str)
    (hl : ∀ c ∈ l, c ≠ '\r' ∧ c ≠ '\n') (hb : s.bytes = l ++ '\r' :: '\n' :: rest)
    (hmax : (l.length : Int) < maxlen) :
    ∃ s1, recvLine s maxlen = (some l, s1) ∧ s1.bytes = rest ∧ s1.fails = s.fails := by
  have := recvLineLoop_crlf maxlen rest l (s.bytes.length + 1) [] s hl hb
    (by rw [hb]; simp only [List.length_append]; omega) (by simpa using hmax)
  simpa [recvLine] using this

/-! ### Numbers -/

theorem isDigitOf_ne (a c : Char) (ha : isDigitOf 16 a = true) (hc : isDigitOf 16 c = false) :
    a ≠ c := by
  intro h; rw [h, hc] at ha; exact Bool.noConfusion ha

theorem parseDigits_hex (h : Str) (hh : ∀ d ∈ h, isDigitOf 16 d = true) (v k : Nat) :
    parseDigits 16 h v k
      = (h.foldl (fun v d => v * 16 + (digitVal d).getD 0) v, k + h.length) := by
  induction h generalizing v k with
  | nil => simp [parseDigits]
  | cons d ds ih =>
    have hd := hh d (List.mem_cons_self _ _)
    unfold isDigitOf at hd
    cases hv : digitVal d with
    | none => rw [hv] at hd; exact Bool.noConfusion hd
    | some x =>
      rw [hv] at hd
      have hx : x < 16 := by simpa using hd
      rw [parseDigits, hv]
      simp only [hx, if_true, List.foldl_cons, hv, Option.getD_some]
      rw [ih (fun y hy => hh y (List.mem_cons_of_mem _ hy))]
      simp only [List.length_cons]
      congr 1
      omega

theorem stripSign_hex (a : Char) (t : Str) (ha : isDigitOf 16 a = true) :
    stripSign (a :: t) = (false, a :: t) := by
  have h1 : a ≠ '-' := isDigitOf_ne a '-' ha (by decide)
  have h2 : a ≠ '+' := isDigitOf_ne a '+' ha (by decide)
  unfold stripSign
  split
  · rename_i heq; simp at heq; exact absurd heq.1 h1
  · rename_i heq; simp at heq; exact absurd heq.1 h2
  · rfl

theorem stripHexMark_hex (h : Str) (hh : ∀ d ∈ h, isDigitOf 16 d = true) :
    stripHexMark 16 h = h := by
  unfold stripHexMark
  split
  · rename_i x d r
    have hx : isDigitOf 16 x = true := hh x (by simp)
    have h1 : x ≠ 'x' := isDigitOf_ne x 'x' hx (by decide)
    have h2 : x ≠ 'X' := isDigitOf_ne x 'X' hx (by decide)
    simp [h1, h2]
  · rfl

theorem isspace_hex (a : Char) (ha : isDigitOf 16 a = true) : isspace a = false := by
  have h1 := isDigitOf_ne a ' ' ha (by decide)
  have h2 := isDigitOf_ne a '\t' ha (by decide)
  have h3 := isDigitOf_ne a '\n' ha (by decide)
  have h4 := isDigitOf_ne a (Char.ofNat 11) ha (by decide)
  have h5 := isDigitOf_ne a (Char.ofNat 12) ha (by decide)
  have h6 := isDigitOf_ne a '\r' ha (by decide)
  simp [isspace, h1, h2, h3, h4, h5, h6]

/-- `std::stoul(h, nullptr, 16)` on hexadecimal digits returns their value. -/
theorem stoul_hex (h : Str) (hne : h ≠ []) (hh : ∀ d ∈ h, isDigitOf 16 d = true)
    (hmax : hexValue h ≤ ULONG_MAX) : stoul h 16 = some (hexValue h) := by
  cases h with
  | nil => exact absurd rfl hne
  | cons a t =>
    have ha := hh a (List.mem_cons_self _ _)
    have hdrop : (a :: t).dropWhile isspace = a :: t := by
      simp [List.dropWhile, isspace_hex a ha]
    unfold stoul
    simp only [hdrop, stripSign_hex a t ha, stripHexMark_hex (a :: t) hh,
      parseDigits_hex (a :: t) hh]
    have hv : ¬ hexValue (a :: t) > ULONG_MAX := by omega
    simp [hexValue] at hv ⊢
    omega

/-! ### Chunked framing -/

theorem findChar_append_of_not_mem (a b : Str) (c : Char) (h : c ∉ a) :
    findChar (a ++ b) c = (findChar b c).map (· + a.length) := by
  induction a with
  | nil => simp
  | cons x xs ih =>
    have hx : x ≠ c := fun e => h (by simp [e])
    have hxs : c ∉ xs := fun e => h (List.mem_cons_of_mem _ e)
    rw [List.cons_append, findChar, if_neg hx, ih hxs]
    cases findChar b c <;> simp [Nat.add_assoc]

theorem trimWith_self (s set : Str) (hne : s ≠ []) (h : ∀ c ∈ s, set.contains c = false) :
    trimWith s set set = some s := by
  have h1 : s.rdropWhile set.contains = s := by
    rw [List.rdropWhile_eq_self_iff]
    intro hl
    rw [h _ (List.getLast_mem hl)]
    exact Bool.false_ne_true
  have h2 : s.dropWhile set.contains = s := by
    rw [List.dropWhile_eq_self_iff]
    intro hl
    rw [h _ (List.get_mem _ _ _)]
    exact Bool.false_ne_true
  have h3 : specTrim set s = s := by unfold specTrim; rw [h1, h2]
  rw [trimWith_same, h3, if_neg hne]

theorem chunkSizeText_sizeLine (sizeText ext : Str) (h : sizeLineOk sizeText ext) :
    chunkSizeText (sizeText ++ ext) = some sizeText := by
  obtain ⟨hne, hhex, hext, _, _⟩ := h
  have hsemi : ';' ∉ sizeText := fun hm =>
    isDigitOf_ne ';' ';' (hhex _ hm) (by decide) rfl
  have hself : trimWith sizeText [' ', '\t'] [' ', '\t'] = some sizeText := by
    apply trimWith_self _ _ hne
    intro c hc
    have h1 := isDigitOf_ne c ' ' (hhex c hc) (by decide)
    have h2 := isDigitOf_ne c '\t' (hhex c hc) (by decide)
    simp [h1, h2]
  unfold chunkSizeText
  rw [findChar_append_of_not_mem _ _ _ hsemi]
  rcases hext with he | he
  · subst he
    simpa [findChar] using hself
  · cases ext with
    | nil => simpa [findChar] using hself
    | cons x xs =>
      have hx : x = ';' := by simpa using he
      subst hx
      simpa [findChar, substr] using hself

theorem encodeLines_length (trailers : List Str) :
    trailers.length ≤ (encodeLines trailers).length := by
  induction trailers with
  | nil => simp [encodeLines]
  | cons t ts ih =>
    simp only [encodeLines, List.map_cons, List.flatten_cons, List.length_append,
      List.length_cons, CRLF] at ih ⊢
    omega

theorem readTrailers_spec (rest : Str) (trailers : List Str) :
    ∀ (fuel : Nat) (s : Sock) (raw : Str),
    (∀ t ∈ trailers, t ≠ [] ∧ (∀ c ∈ t, c ≠ '\r' ∧ c ≠ '\n') ∧ t.length < 8192) →
    s.bytes = encodeLines trailers ++ CRLF ++ rest → trailers.length < fuel →
    ∃ s1, readTrailers fuel s raw = (some (raw ++ encodeLines trailers ++ CRLF), s1)
      ∧ s1.bytes = rest ∧ s1.fails = s.fails := by
  induction trailers with
  | nil =>
    intro fuel s raw _ hb hfuel
    cases fuel with
    | zero => simp at hfuel
    | succ k =>
      obtain ⟨s1, h1, hb1, hf1⟩ := recvLine_crlf (8 * 1024) s [] rest (by simp)
        (by simpa [encodeLines, CRLF] using hb) (by simp)
      refine ⟨s1, ?_, hb1, hf1⟩
      rw [readTrailers, h1]
      simp [encodeLines]
  | cons t ts ih =>
    intro fuel s raw htr hb hfuel
    cases fuel with
    | zero => simp at hfuel
    | succ k =>
      obtain ⟨htne, htc, htl⟩ := htr t (List.mem_cons_self _ _)
      obtain ⟨s1, h1, hb1, hf1⟩ := recvLine_crlf (8 * 1024) s t
        (encodeLines ts ++ CRLF ++ rest) htc
        (by simpa [encodeLines, CRLF, List.append_assoc] using hb) (by omega)
      obtain ⟨s2, h2, hb2, hf2⟩ := ih k s1 (raw ++ t ++ CRLF)
        (fun x hx => htr x (List.mem_cons_of_mem _ hx)) hb1 (by simpa using hfuel)
      refine ⟨s2, ?_, hb2, hf2.trans hf1⟩
      have hemp : t.isEmpty = false := by
        cases t with
        | nil => exact absurd rfl htne
        | cons a b => rfl
      rw [readTrailers, h1]
      simp only [hemp, Bool.false_eq_true, if_false]
      rw [h2]
      simp [encodeLines, List.append_assoc]

theorem containsForbidden_append (a b : Str) (words : List Str)
    (h : containsForbidden a words = true) : containsForbidden (a ++ b) words = true := by
  rw [containsForbidden_iff] at h ⊢
  obtain ⟨w, hw, hin⟩ := h
  exact ⟨w, hw, hin.trans (List.infix_append' [] a b |>.trans (by simp))⟩

theorem sizeLineOk_line (sizeText ext : Str) (h : sizeLineOk sizeText ext) :
    (∀ c ∈ sizeText ++ ext, c ≠ '\r' ∧ c ≠ '\n')
      ∧ ((sizeText ++ ext).length : Int) < 8 * 1024 := by
  obtain ⟨_, hhex, _, hext, hlen⟩ := h
  constructor
  · intro c hc
    rcases List.mem_append.mp hc with hm | hm
    · exact ⟨isDigitOf_ne c '\r' (hhex c hm) (by decide),
        isDigitOf_ne c '\n' (hhex c hm) (by decide)⟩
    · exact hext c hm
  · simp only [List.length_append]
    push_cast
    omega

/-- The zero-size chunk and the trailers end a chunked body with success. -/
theorem readChunkedLoop_last (words : List Str) (fuel : Nat) (s : Sock) (raw dec : Str)
    (lastSize lastExt : Str) (trailers : List Str) (rest : Str)
    (hline : sizeLineOk lastSize lastExt) (hzero : hexValue lastSize = 0)
    (htr : ∀ t ∈ trailers, t ≠ [] ∧ (∀ c ∈ t, c ≠ '\r' ∧ c ≠ '\n') ∧ t.length < 8192)
    (hb : s.bytes = lastSize ++ lastExt ++ CRLF ++ encodeLines trailers ++ CRLF ++ rest)
    (hfuel : 0 < fuel) :
    ∃ s1, readChunkedLoop words fuel s raw dec
        = ⟨.ok, raw ++ (lastSize ++ lastExt ++ CRLF ++ encodeLines trailers ++ CRLF), dec, s1⟩
      ∧ s1.bytes = rest ∧ s1.fails = s.fails := by
  cases fuel with
  | zero => exact absurd hfuel (Nat.lt_irrefl 0)
  | succ k =>
    obtain ⟨hlc, hll⟩ := sizeLineOk_line _ _ hline
    obtain ⟨s1, h1, hb1, hf1⟩ := recvLine_crlf (8 * 1024) s (lastSize ++ lastExt)
      (encodeLines trailers ++ CRLF ++ rest) hlc
      (by simpa [CRLF, List.append_assoc] using hb) hll
    obtain ⟨s2, h2, hb2, hf2⟩ := readTrailers_spec rest trailers (s1.bytes.length + 1) s1
      (raw ++ (lastSize ++ lastExt) ++ CRLF) htr hb1
      (by
        rw [hb1]
        have := encodeLines_length trailers
        simp only [List.length_append]
        omega)
    refine ⟨s2, ?_, hb2, hf2.trans hf1⟩
    have hst : stoul lastSize 16 = some 0 := by
      rw [stoul_hex lastSize hline.1 hline.2.1 (by rw [hzero]; decide), hzero]
    rw [readChunkedLoop, h1]
    simp only [chunkSizeText_sizeLine _ _ hline, hst, if_true, h2]
    simp [List.append_assoc]

/-- Reading a well-formed chunked body: either some prefix of the payloads
holds a forbidden word and the reader answers 503, or it succeeds with the
bytes it consumed as raw stream and the payloads as decoded stream. -/
theorem readChunkedLoop_body (words : List Str) (lastSize lastExt : Str) (trailers : List Str)
    (rest : Str) (hline : sizeLineOk lastSize lastExt) (hzero : hexValue lastSize = 0)
    (htr : ∀ t ∈ trailers, t ≠ [] ∧ (∀ c ∈ t, c ≠ '\r' ∧ c ≠ '\n') ∧ t.length < 8192)
    (chunks : List Chunk) :
    ∀ (fuel : Nat) (s : Sock) (raw dec : Str), (∀ c ∈ chunks, c.wellFormed) →
    s.bytes = (chunks.map Chunk.encode).flatten
      ++ (lastSize ++ lastExt ++ CRLF ++ encodeLines trailers ++ CRLF) ++ rest →
    chunks.length < fuel →
    ((readChunkedLoop words fuel s raw dec).status = .blocked
      ∧ containsForbidden (dec ++ (chunks.map Chunk.payload).flatten) words = true)
    ∨ ∃ s1, readChunkedLoop words fuel s raw dec
        = ⟨.ok, raw ++ ((chunks.map Chunk.encode).flatten
            ++ (lastSize ++ lastExt ++ CRLF ++ encodeLines trailers ++ CRLF)),
          dec ++ (chunks.map Chunk.payload).flatten, s1⟩
      ∧ s1.bytes = rest ∧ s1.fails = s.fails := by
  induction chunks with
  | nil =>
    intro fuel s raw dec _ hb hfuel
    right
    obtain ⟨s1, h1, hb1, hf1⟩ := readChunkedLoop_last words fuel s raw dec lastSize lastExt
      trailers rest hline hzero htr (by simpa [List.append_assoc] using hb) (by omega)
    exact ⟨s1, by simpa using h1, hb1, hf1⟩
  | cons c cs ih =>
    intro fuel s raw dec hwf hb hfuel
    cases fuel with
    | zero => simp at hfuel
    | succ k =>
      obtain ⟨hsl, hval, hpne, hpmax⟩ := hwf c (List.mem_cons_self _ _)
      obtain ⟨hlc, hll⟩ := sizeLineOk_line _ _ hsl
      let tailBytes := (cs.map Chunk.encode).flatten
        ++ (lastSize ++ lastExt ++ CRLF ++ encodeLines trailers ++ CRLF) ++ rest
      obtain ⟨s1, h1, hb1, hf1⟩ := recvLine_crlf (8 * 1024) s (c.sizeText ++ c.ext)
        (c.payload ++ (CRLF ++ tailBytes)) hlc
        (by simpa [CRLF, Chunk.encode, List.append_assoc, tailBytes] using hb) hll
      obtain ⟨s2, h2, hb2, hf2⟩ := recvExact_spec s1 c.payload (CRLF ++ tailBytes) hb1
      obtain ⟨s3, h3, hb3, hf3⟩ := recvExact_spec s2 CRLF tailBytes hb2
      have hst : stoul c.sizeText 16 = some c.payload.length := by
        rw [stoul_hex c.sizeText hsl.1 hsl.2.1
          (by rw [hval]; exact le_trans hpmax (by decide)), hval]
      have hnz : c.payload.length ≠ 0 := fun h => hpne (List.length_eq_zero.mp h)
      have hnm : ¬ c.payload.length > max_size := by omega
      rw [readChunkedLoop, h1]
      simp only [chunkSizeText_sizeLine _ _ hsl, hst, hnz, if_false, hnm, h2]
      have hneg : ¬ ((c.payload.length : Int) < 0) := by omega
      simp only [hneg, ne_eq, not_true_eq_false, or_self, if_false]
      by_cases hforb : containsForbidden (dec ++ c.payload) words = true
      · left
        simp only [hforb, if_true, true_and]
        simpa [List.append_assoc] using
          containsForbidden_append (dec ++ c.payload) (cs.map Chunk.payload).flatten words hforb
      · simp only [hforb, if_false]
        have hc2 : (recvExact s2 2).1 = 2 := by
          have : CRLF.length = 2 := rfl
          rw [this] at h3
          rw [h3]; rfl
        have h32 : recvExact s2 2 = ((2 : Int), CRLF, s3) := by
          have : CRLF.length = 2 := rfl
          rw [this] at h3
          exact h3
        rw [h32]
        simp only [ne_eq, not_true_eq_false, if_false]
        rcases ih k s3 (raw ++ (c.sizeText ++ c.ext) ++ CRLF ++ c.payload ++ CRLF)
            (dec ++ c.payload) (fun x hx => hwf x (List.mem_cons_of_mem _ hx)) hb3
            (by simpa using hfuel) with hblk | ⟨s4, h4, hb4, hf4⟩
        · left
          refine ⟨hblk.1, ?_⟩
          simpa [List.append_assoc] using hblk.2
        · right
          refine ⟨s4, ?_, hb4, ?_⟩
          · rw [h4]
            simp [Chunk.encode, List.append_assoc]
          · rw [hf4, hf3, hf2, hf1]

theorem chunks_length_le (chunks : List Chunk) :
    chunks.length ≤ ((chunks.map Chunk.encode).flatten).length := by
  induction chunks with
  | nil => simp
  | cons c cs ih =>
    simp only [List.map_cons, List.flatten_cons, List.length_append, List.length_cons,
      Chunk.encode, CRLF, List.length_nil] at ih ⊢
    omega

/-- `readChunkedResponse` on a well-formed chunked body. -/
theorem readChunkedResponse_wellFormed (words : List Str) (b : ChunkedBody) (rest : Str)
    (s : Sock) (hwf : b.wellFormed) (hb : s.bytes = b.encode ++ rest) :
    ((readChunkedResponse words s).status = .blocked
      ∧ containsForbidden b.decoded words = true)
    ∨ ∃ s1, readChunkedResponse words s = ⟨.ok, b.encode, b.decoded, s1⟩ ∧ s1.bytes = rest
        ∧ s1.fails = s.fails := by
  obtain ⟨hch, hline, hzero, htr⟩ := hwf
  have hfuel : b.chunks.length < s.bytes.length + 1 := by
    rw [hb]
    have := chunks_length_le b.chunks
    simp only [ChunkedBody.encode, List.length_append]
    omega
  have := readChunkedLoop_body words b.lastSize b.lastExt b.trailers rest hline hzero htr
    b.chunks (s.bytes.length + 1) s [] [] hch (by simpa [ChunkedBody.encode] using hb) hfuel
  simpa [readChunkedResponse, ChunkedBody.encode, ChunkedBody.decoded] using this

/-- C6: for every well-formed chunked body (chunks, a zero-size chunk, optional
trailers) whose decoded stream holds no forbidden word, `readChunkedResponse`
succeeds, the decoded stream is the concatenation of the chunk payloads in
order, the raw stream is the chunked body as it was sent, and exactly those
bytes were taken off the upstream socket. -/
theorem readChunkedResponse_roundtrip (words : List Str) (b : ChunkedBody) (rest : Str)
    (s : Sock) (hwf : b.wellFormed) (hclean : ∀ w ∈ words, ¬ w <:+: b.decoded)
    (hb : s.bytes = b.encode ++ rest) :
    ∃ s1, readChunkedResponse words s = ⟨.ok, b.encode, b.decoded, s1⟩
      ∧ b.decoded = (b.chunks.map Chunk.payload).flatten ∧ s1.bytes = rest := by
  rcases readChunkedResponse_wellFormed words b rest s hwf hb with hblk | ⟨s1, h1, hb1, _⟩
  · obtain ⟨w, hw, hin⟩ := (containsForbidden_iff _ _).mp hblk.2
    exact absurd hin (hclean w hw)
  · exact ⟨s1, h1, rfl, hb1⟩

/-- Witness for C6: the sample body arriving in two pieces, followed by other
bytes. -/
theorem readChunkedResponse_roundtrip_witness :
    ∃ s1, readChunkedResponse ["bad".toList]
        ⟨[sampleChunked.encode.take 7, sampleChunked.encode.drop 7 ++ "next".toList], false⟩
        = ⟨.ok, sampleChunked.encode, sampleChunked.decoded, s1⟩
      ∧ sampleChunked.decoded = (sampleChunked.chunks.map Chunk.payload).flatten
      ∧ s1.bytes = "next".toList :=
  readChunkedResponse_roundtrip ["bad".toList] sampleChunked "next".toList
    ⟨[sampleChunked.encode.take 7, sampleChunked.encode.drop 7 ++ "next".toList], false⟩
    (by decide) (by decide) (by decide)

/-- `readContentLengthResponse` when the socket holds the whole body: either
a prefix of the body holds a forbidden word and the reader answers 503, or it
succeeds with the body as raw and as decoded stream. -/
theorem readContentLengthLoop_spec (words : List Str) (bufSize : Nat) (hbuf : 0 < bufSize)
    (rest : Str) (fuel : Nat) :
    ∀ (s : Sock) (remaining : Nat) (raw dec body : Str),
    s.bytes = body ++ rest → body.length = remaining → remaining < fuel →
    ((readContentLengthLoop words bufSize fuel s remaining raw dec).status = .blocked
      ∧ containsForbidden (dec ++ body) words = true)
    ∨ ∃ s1, readContentLengthLoop words bufSize fuel s remaining raw dec
        = ⟨.ok, raw ++ body, dec ++ body, s1⟩ ∧ s1.bytes = rest ∧ s1.fails = s.fails := by
  induction fuel with
  | zero => intro s remaining raw dec body _ _ hfuel; simp at hfuel
  | succ k ih =>
    intro s remaining raw dec body hb hlen hfuel
    rw [readContentLengthLoop]
    by_cases hrem : remaining > 0
    · rw [if_pos hrem]
      generalize htr : (if remaining < bufSize then remaining else bufSize) = toRead
      have htr1 : 0 < toRead ∧ toRead ≤ remaining := by
        rw [← htr]; split <;> omega
      have hp : (body.take toRead).length = toRead := by
        rw [List.length_take]; omega
      obtain ⟨s1, h1, hb1, hf1⟩ := recvExact_spec s (body.take toRead)
        (body.drop toRead ++ rest)
        (by rw [← List.append_assoc, List.take_append_drop]; exact hb)
      rw [hp] at h1
      simp only [h1]
      have hpos : ¬ ((toRead : Int) ≤ 0) := by omega
      simp only [hpos, if_false]
      by_cases hforb : containsForbidden (dec ++ body.take toRead) words = true
      · left
        simp only [hforb, if_true, true_and]
        have := containsForbidden_append (dec ++ body.take toRead) (body.drop toRead) words hforb
        simpa [List.append_assoc] using this
      · simp only [hforb, if_false]
        rcases ih s1 (remaining - (body.take toRead).length) (raw ++ body.take toRead)
            (dec ++ body.take toRead) (body.drop toRead) hb1
            (by rw [List.length_drop, hp]; omega) (by rw [hp]; omega)
          with hblk | ⟨s2, h2, hb2, hf2⟩
        · left
          refine ⟨hblk.1, ?_⟩
          simpa [List.append_assoc] using hblk.2
        · right
          refine ⟨s2, ?_, hb2, hf2.trans hf1⟩
          rw [h2]
          simp [List.append_assoc]
    · rw [if_neg hrem]
      have hbody : body = [] := List.length_eq_zero.mp (by omega)
      subst hbody
      right
      exact ⟨s, by simp, by simpa using hb, rfl⟩

theorem readContentLengthResponse_spec (words : List Str) (bufSize : Nat) (hbuf : 0 < bufSize)
    (s : Sock) (body rest : Str) (hb : s.bytes = body ++ rest) :
    ((readContentLengthResponse words bufSize s body.length).status = .blocked
      ∧ containsForbidden body words = true)
    ∨ ∃ s1, readContentLengthResponse words bufSize s body.length = ⟨.ok, body, body, s1⟩
        ∧ s1.bytes = rest ∧ s1.fails = s.fails := by
  have := readContentLengthLoop_spec words bufSize hbuf rest (body.length + 1) s body.length
    [] [] body hb rfl (Nat.lt_succ_self _)
  simpa [readContentLengthResponse] using this

/-! ### Sessions -/

theorem toLowerCopy_append (a b : Str) :
    toLowerCopy (a ++ b) = toLowerCopy a ++ toLowerCopy b := by
  simp [toLowerCopy]

theorem requestPhase_upstream (pol : Policy) (env : Env) (clientSock serverSock : Sock)
    (acts : List Action) (h : requestPhase pol env clientSock = (acts, some serverSock)) :
    clientOutput acts = [] := by
  unfold requestPhase httpBranch at h
  dsimp only at h
  repeat' split at h
  all_goals
    first
    | (simp at h; done)
    | (simp only [Prod.mk.injEq] at h; rw [← h.1]; rfl)

theorem clientOutput_append (a b : List Action) :
    clientOutput (a ++ b) = clientOutput a ++ clientOutput b := by
  induction a with
  | nil => rfl
  | cons x xs ih =>
    cases x with
    | send dest bytes =>
      cases dest <;> simp [clientOutput, ih]
    | connect h p => simp [clientOutput, ih]
    | tunnel => simp [clientOutput, ih]
    | close p => simp [clientOutput, ih]
    | terminate => simp [clientOutput, ih]

theorem page403_heads :
    "HTTP/1.1 403 Forbidden\r\n".toList <+: page403Words
      ∧ "HTTP/1.1 403 Forbidden\r\n".toList <+: page403Connect
      ∧ "HTTP/1.1 403 Forbidden\r\n".toList <+: page403Host := by
  refine ⟨?_, ?_, ?_⟩ <;> exact List.isPrefixOf_iff_prefix.mp (by decide)

/-- C3 (as amended): when the request line and the headers of a request are
read (every line under 8192 bytes, the header block within 64 KiB, a
`Content-Length` the proxy can reserve) and the request line, the headers or
the body the proxy buffers (the bytes announced by `Content-Length`, as far as
the client sends them) hold a forbidden word in any letter case, the session
writes the 403 page, closes, and never calls `connectToHostPort`. -/
theorem forbidden_request_gets_403 (pol : Policy) (env : Env) (clientSock c1 c2 : Sock)
    (reqLine headers : Str)
    (hline : recvLine clientSock (8 * 1024) = (some reqLine, c1))
    (hhdrs : readHeaders c1 = (some headers, c2))
    (hlen : scanContentLength (getlines headers) 0 ≤ max_size)
    (hforb : ∃ w ∈ pol.forbiddenWords, w <:+: toLowerCopy reqLine
      ∨ w <:+: toLowerCopy headers
      ∨ w <:+: toLowerCopy
          (readRequestBody env.bufSize c2 (scanContentLength (getlines headers) 0))) :
    client_thread pol env clientSock = [.send .client page403Words, .close .client]
      ∧ "HTTP/1.1 403 Forbidden\r\n".toList <+: page403Words
      ∧ connectsUpstream (client_thread pol env clientSock) = false := by
  have hcheck : containsForbidden (toLowerCopy (reqLine ++ CRLF ++ headers
      ++ readRequestBody env.bufSize c2 (scanContentLength (getlines headers) 0)))
      pol.forbiddenWords = true := by
    rw [containsForbidden_iff]
    obtain ⟨w, hw, hin⟩ := hforb
    refine ⟨w, hw, ?_⟩
    simp only [toLowerCopy_append, List.append_assoc]
    rcases hin with h | h | h
    · exact h.trans (List.prefix_append _ _).isInfix
    · exact h.trans (List.infix_append' _ _ _ |>.trans
        ((List.suffix_append _ _).isInfix))
    · exact h.trans ((List.suffix_append _ _).isInfix.trans
        ((List.suffix_append _ _).isInfix.trans (List.suffix_append _ _).isInfix))
  have hct : client_thread pol env clientSock
      = [.send .client page403Words, .close .client] := by
    unfold client_thread requestPhase
    rw [hline]
    dsimp only
    rw [hhdrs]
    dsimp only
    rw [if_neg (Nat.not_lt.mpr hlen), if_pos hcheck]
  refine ⟨hct, page403_heads.1, ?_⟩
  rw [hct]
  rfl

/-- Witness for C3: the forbidden word in capitals in the URL. -/
theorem forbidden_request_gets_403_witness :
    client_thread demoPolicy (demoEnv cleanResponse false) forbiddenGet
        = [.send .client page403Words, .close .client]
      ∧ "HTTP/1.1 403 Forbidden\r\n".toList <+: page403Words
      ∧ connectsUpstream (client_thread demoPolicy (demoEnv cleanResponse false) forbiddenGet)
        = false :=
  forbidden_request_gets_403 demoPolicy (demoEnv cleanResponse false) forbiddenGet
    (recvLine forbiddenGet (8 * 1024)).2
    (readHeaders (recvLine forbiddenGet (8 * 1024)).2).2
    "GET http://ok.example/BADWORD HTTP/1.1".toList "Host: ok.example\r\n\r\n".toList
    (by decide) (by decide) (by decide)
    ⟨"badword".toList, by decide, Or.inl (by decide)⟩

/-- Counterexample to C3 as stated: a POST whose body is sent chunked holds the
forbidden word, yet the proxy buffers no body, connects to the upstream,
forwards the request head and returns the response of the upstream instead of
a 403. -/
theorem chunked_request_body_not_checked :
    chunkedPost.bytes
        = "POST http://ok.example/submit HTTP/1.1\r\nTransfer-Encoding: chunked\r\n\r\n".toList
          ++ "7\r\nbadword\r\n0\r\n\r\n".toList
      ∧ containsForbidden (toLowerCopy "7\r\nbadword\r\n0\r\n\r\n".toList)
          demoPolicy.forbiddenWords = true
      ∧ connectsUpstream (client_thread demoPolicy (demoEnv cleanResponse false) chunkedPost)
          = true
      ∧ clientOutput (client_thread demoPolicy (demoEnv cleanResponse false) chunkedPost)
          = cleanResponse := by
  decide

/-- C1 (code bug): a clean response whose lines end in a bare LF is accepted
and written to the client with every line ending rewritten to CRLF, and a
chunked response whose chunk data is followed by the bytes `XY` is written
with CRLF in their place: in both cases the client does not get the bytes the
upstream sent. -/
theorem response_line_endings_rewritten :
    clientOutput (client_thread demoPolicy (demoEnv lfResponse false) demoGet)
        = "HTTP/1.1 200 OK\r\nContent-Length: 2\r\n\r\nhi".toList
      ∧ clientOutput (client_thread demoPolicy (demoEnv lfResponse false) demoGet) ≠ lfResponse
      ∧ clientOutput (client_thread demoPolicy (demoEnv oddChunkedResponse false) demoGet)
        = "HTTP/1.1 200 OK\r\nTransfer-Encoding: chunked\r\n\r\n2\r\nhi\r\n0\r\n\r\n".toList
      ∧ clientOutput (client_thread demoPolicy (demoEnv oddChunkedResponse false) demoGet)
        ≠ oddChunkedResponse := by
  decide

/-- C5 (code bug): the upstream sends a response without length and the
connection then fails (`recv` returns `-1`); `readUntilCloseResponse` still
returns success, and the session writes the header block and the part of the
body that arrived to the client. -/
theorem failed_until_close_read_is_forwarded :
    recv ⟨[[]], true⟩ 65536 = .error
      ∧ readUntilCloseResponse demoPolicy.forbiddenWords 65536 ⟨["partial bo".toList], true⟩
        = ⟨.ok, "partial bo".toList, "partial bo".toList, ⟨[[]], true⟩⟩
      ∧ client_thread demoPolicy (demoEnv untilCloseResponse true) demoGet
        = [.connect "ok.example".toList "80".toList,
           .send .server "GET /x HTTP/1.1\r\nHost: ok.example\r\n\r\n".toList,
           .send .client "HTTP/1.0 200 OK\r\n\r\n".toList,
           .send .client "partial bo".toList, .close .server, .close .client] := by
  decide

/-- `readHeaders` on a header block of CRLF-ended lines within both limits. -/
theorem readHeadersLoop_spec (rest : Str) (lines : List Str) :
    ∀ (fuel : Nat) (acc : Str) (s : Sock),
    (∀ l ∈ lines, l ≠ [] ∧ (∀ c ∈ l, c ≠ '\r' ∧ c ≠ '\n') ∧ l.length < 8192) →
    s.bytes = encodeLines lines ++ CRLF ++ rest → lines.length < fuel →
    (acc ++ encodeLines lines).length ≤ 64 * 1024 →
    ∃ s1, readHeadersLoop fuel acc s = (some (acc ++ encodeLines lines ++ CRLF), s1)
      ∧ s1.bytes = rest ∧ s1.fails = s.fails := by
  induction lines with
  | nil =>
    intro fuel acc s _ hb hfuel _
    cases fuel with
    | zero => simp at hfuel
    | succ k =>
      obtain ⟨s1, h1, hb1, hf1⟩ := recvLine_crlf (8 * 1024) s [] rest (by simp)
        (by simpa [encodeLines, CRLF] using hb) (by simp)
      refine ⟨s1, ?_, hb1, hf1⟩
      rw [readHeadersLoop, h1]
      simp [encodeLines]
  | cons l ls ih =>
    intro fuel acc s hl hb hfuel hsize
    cases fuel with
    | zero => simp at hfuel
    | succ k =>
      obtain ⟨hne, hc, hlen⟩ := hl l (List.mem_cons_self _ _)
      obtain ⟨s1, h1, hb1, hf1⟩ := recvLine_crlf (8 * 1024) s l
        (encodeLines ls ++ CRLF ++ rest) hc
        (by simpa [encodeLines, CRLF, List.append_assoc] using hb) (by omega)
      have hsz : (acc ++ l ++ CRLF ++ encodeLines ls).length ≤ 64 * 1024 := by
        simpa [encodeLines, List.append_assoc] using hsize
      obtain ⟨s2, h2, hb2, hf2⟩ := ih k (acc ++ l ++ CRLF) s1
        (fun x hx => hl x (List.mem_cons_of_mem _ hx)) hb1 (by simpa using hfuel) hsz
      refine ⟨s2, ?_, hb2, hf2.trans hf1⟩
      have hemp : l.isEmpty = false := by
        cases l with
        | nil => exact absurd rfl hne
        | cons a b => rfl
      have hnot : ¬ (acc ++ l ++ CRLF).length > 64 * 1024 := by
        simp only [List.length_append] at hsz ⊢
        omega
      rw [readHeadersLoop, h1]
      simp only [hemp, Bool.false_eq_true, if_false, hnot]
      rw [h2]
      simp [encodeLines, List.append_assoc]

theorem readHeaders_spec (s : Sock) (lines : List Str) (rest : Str)
    (hl : ∀ l ∈ lines, l ≠ [] ∧ (∀ c ∈ l, c ≠ '\r' ∧ c ≠ '\n') ∧ l.length < 8192)
    (hsize : (encodeLines lines).length ≤ 64 * 1024)
    (hb : s.bytes = encodeLines lines ++ CRLF ++ rest) :
    ∃ s1, readHeaders s = (some (encodeLines lines ++ CRLF), s1) ∧ s1.bytes = rest
      ∧ s1.fails = s.fails := by
  have hfuel : lines.length < s.bytes.length + 1 := by
    rw [hb]
    have := encodeLines_length lines
    simp only [List.length_append]
    omega
  have := readHeadersLoop_spec rest lines (s.bytes.length + 1) [] s hl hb hfuel
    (by simpa using hsize)
  simpa [readHeaders] using this

/-- `readUntilCloseResponse` takes every byte the socket still delivers:
either a prefix of them holds a forbidden word and the reader answers 503, or
it succeeds with all of them, however the stream ends. -/
theorem readUntilCloseLoop_spec (words : List Str) (bufSize : Nat) (hbuf : 0 < bufSize)
    (fuel : Nat) : ∀ (s : Sock) (raw dec : Str), s.bytes.length < fuel →
    ((readUntilCloseLoop words bufSize fuel s raw dec).status = .blocked
      ∧ containsForbidden (dec ++ s.bytes) words = true)
    ∨ ∃ s1, readUntilCloseLoop words bufSize fuel s raw dec
        = ⟨.ok, raw ++ s.bytes, dec ++ s.bytes, s1⟩ ∧ s1.bytes = [] ∧ s1.fails = s.fails := by
  induction fuel with
  | zero => intro s raw dec h; simp at h
  | succ k ih =>
    intro s raw dec hfuel
    rw [readUntilCloseLoop]
    by_cases hnil : s.bytes = []
    · right
      refine ⟨s, ?_, hnil, rfl⟩
      rcases recv_end s bufSize hnil with hr | hr
      · rw [hr, hnil]; cases s.fails <;> simp
      · rw [hr, hnil]; simp
    · obtain ⟨d, s1, hr, hne, _, hbytes, hf⟩ := recv_data s bufSize hbuf hnil
      rw [hr]
      dsimp only
      by_cases hforb : containsForbidden (dec ++ d) words = true
      · left
        rw [if_pos hforb]
        refine ⟨rfl, ?_⟩
        rw [hbytes, ← List.append_assoc]
        exact containsForbidden_append _ _ _ hforb
      · rw [if_neg hforb]
        have hlen : s1.bytes.length < k := by
          have := congrArg List.length hbytes
          have hd : 0 < d.length := List.length_pos.mpr hne
          simp only [List.length_append] at this
          omega
        rcases ih s1 (raw ++ d) (dec ++ d) hlen with hblk | ⟨s2, h2, hb2, hf2⟩
        · left
          refine ⟨hblk.1, ?_⟩
          rw [hbytes, ← List.append_assoc]
          exact hblk.2
        · right
          refine ⟨s2, ?_, hb2, hf2.trans hf⟩
          rw [h2, hbytes]
          simp [List.append_assoc]

theorem readUntilCloseResponse_spec (words : List Str) (bufSize : Nat) (hbuf : 0 < bufSize)
    (s : Sock) :
    ((readUntilCloseResponse words bufSize s).status = .blocked
      ∧ containsForbidden s.bytes words = true)
    ∨ ∃ s1, readUntilCloseResponse words bufSize s = ⟨.ok, s.bytes, s.bytes, s1⟩
        ∧ s1.bytes = [] ∧ s1.fails = s.fails := by
  have := readUntilCloseLoop_spec words bufSize hbuf (s.bytes.length + 1) s [] []
    (Nat.lt_succ_self _)
  simpa [readUntilCloseResponse] using this

/-- Faithful forwarding (what holds of C1): when a session has handed its request to the
upstream and the response has CRLF line ends, a head within the limits of
`recvLine` and `readHeaders`, a body that is complete under its framing
(well-formed chunks, the announced `Content-Length`, or everything up to the
end of the stream) and no forbidden word in its decoded body, in either
letter case, then what the proxy writes to the client is byte for byte the
status line, the headers and the body the upstream sent. -/
theorem clean_crlf_response_forwarded (pol : Policy) (env : Env)
    (clientSock serverSock : Sock) (acts : List Action)
    (statusLine : Str) (headerLines : List Str) (body decoded rest : Str)
    (hreq : requestPhase pol env clientSock = (acts, some serverSock))
    (hbuf : 0 < env.bufSize)
    (hsend : env.sendFails .client (statusLine ++ CRLF ++ (encodeLines headerLines ++ CRLF))
      = false)
    (hstatus : (∀ c ∈ statusLine, c ≠ '\r' ∧ c ≠ '\n') ∧ statusLine.length < 8192)
    (hlines : ∀ l ∈ headerLines, l ≠ [] ∧ (∀ c ∈ l, c ≠ '\r' ∧ c ≠ '\n') ∧ l.length < 8192)
    (hsize : (encodeLines headerLines).length ≤ 64 * 1024)
    (hbytes : serverSock.bytes
      = statusLine ++ CRLF ++ (encodeLines headerLines ++ CRLF ++ (body ++ rest)))
    (hbody : (∃ b : ChunkedBody,
          (determineFraming (encodeLines headerLines ++ CRLF)).isChunked = true
          ∧ b.wellFormed ∧ body = b.encode ∧ decoded = b.decoded)
        ∨ ((determineFraming (encodeLines headerLines ++ CRLF)).isChunked = false
          ∧ (determineFraming (encodeLines headerLines ++ CRLF)).hasContentLength = true
          ∧ (determineFraming (encodeLines headerLines ++ CRLF)).contentLength = body.length
          ∧ decoded = body)
        ∨ ((determineFraming (encodeLines headerLines ++ CRLF)).isChunked = false
          ∧ (determineFraming (encodeLines headerLines ++ CRLF)).hasContentLength = false
          ∧ rest = [] ∧ decoded = body))
    (hclean : containsForbidden decoded pol.forbiddenWords = false
      ∧ containsForbidden (toLowerCopy decoded) pol.forbiddenWords = false) :
    clientOutput (client_thread pol env clientSock)
      = statusLine ++ CRLF ++ (encodeLines headerLines ++ CRLF) ++ body := by
  have hout := requestPhase_upstream pol env clientSock serverSock acts hreq
  have hct : client_thread pol env clientSock = acts ++ responsePhase pol env serverSock := by
    unfold client_thread; rw [hreq]
  obtain ⟨s1, h1, hb1, _⟩ := recvLine_crlf (8 * 1024) serverSock statusLine
    (encodeLines headerLines ++ CRLF ++ (body ++ rest)) hstatus.1
    (by simpa [CRLF, List.append_assoc] using hbytes) (by omega)
  obtain ⟨s2, h2, hb2, _⟩ := readHeaders_spec s1 headerLines (body ++ rest) hlines hsize hb1
  have hfin : ∀ r : BodyRead, r.status = .ok → r.raw = body → r.decoded = decoded →
      clientOutput (match r.status with
        | .crashed => [Action.terminate]
        | .blocked => [.send .client send503, .close .server, .close .client]
        | .failed => [.close .server, .close .client]
        | .ok =>
          if containsForbidden (toLowerCopy r.decoded) pol.forbiddenWords then
            [.send .client page503, .close .server, .close .client]
          else if env.sendFails .client (statusLine ++ CRLF ++ (encodeLines headerLines ++ CRLF))
          then
            [.send .client (statusLine ++ CRLF ++ (encodeLines headerLines ++ CRLF)),
              .close .server, .close .client]
          else if r.raw.isEmpty then
            [.send .client (statusLine ++ CRLF ++ (encodeLines headerLines ++ CRLF)),
              .close .server, .close .client]
          else
            [.send .client (statusLine ++ CRLF ++ (encodeLines headerLines ++ CRLF)),
              .send .client r.raw, .close .server, .close .client])
        = statusLine ++ CRLF ++ (encodeLines headerLines ++ CRLF) ++ body := by
    intro r hok hraw hdec
    rw [hok]
    dsimp only
    rw [hdec, hclean.2, hsend, hraw]
    cases body with
    | nil => simp [clientOutput]
    | cons a t => simp [clientOutput]
  have hread : ∃ s3, readBody pol.forbiddenWords env.bufSize
      (determineFraming (encodeLines headerLines ++ CRLF)) s2 = ⟨.ok, body, decoded, s3⟩ := by
    rcases hbody with ⟨b, hch, hwf, hbe, hde⟩ | ⟨hnc, hcl, hlen, hde⟩ | ⟨hnc, hncl, hrest, hde⟩
    · have hrb : readBody pol.forbiddenWords env.bufSize
          (determineFraming (encodeLines headerLines ++ CRLF)) s2
          = readChunkedResponse pol.forbiddenWords s2 := by
        unfold readBody; rw [if_pos hch]
      rw [hrb]
      rcases readChunkedResponse_wellFormed pol.forbiddenWords b rest s2 hwf
          (by rw [hb2, hbe]) with hblk | ⟨s3, h3, _, _⟩
      · rw [← hde, hclean.1] at hblk
        exact absurd hblk.2 Bool.false_ne_true
      · exact ⟨s3, by rw [h3, hbe, hde]⟩
    · have hrb : readBody pol.forbiddenWords env.bufSize
          (determineFraming (encodeLines headerLines ++ CRLF)) s2
          = readContentLengthResponse pol.forbiddenWords env.bufSize s2 body.length := by
        unfold readBody
        rw [hnc, hcl, hlen]
        simp
      rw [hrb]
      rcases readContentLengthResponse_spec pol.forbiddenWords env.bufSize hbuf s2 body rest
          hb2 with hblk | ⟨s3, h3, _, _⟩
      · rw [← hde, hclean.1] at hblk
        exact absurd hblk.2 Bool.false_ne_true
      · exact ⟨s3, by rw [h3, hde]⟩
    · have hrb : readBody pol.forbiddenWords env.bufSize
          (determineFraming (encodeLines headerLines ++ CRLF)) s2
          = readUntilCloseResponse pol.forbiddenWords env.bufSize s2 := by
        unfold readBody
        rw [hnc, hncl]
        simp
      have hs2 : s2.bytes = body := by rw [hb2, hrest, List.append_nil]
      rw [hrb]
      rcases readUntilCloseResponse_spec pol.forbiddenWords env.bufSize hbuf s2
        with hblk | ⟨s3, h3, _, _⟩
      · rw [hs2, ← hde, hclean.1] at hblk
        exact absurd hblk.2 Bool.false_ne_true
      · exact ⟨s3, by rw [h3, hs2, hde]⟩
  obtain ⟨s3, h3⟩ := hread
  rw [hct, clientOutput_append, hout, List.nil_append]
  unfold responsePhase
  rw [h1]
  dsimp only
  rw [h2]
  dsimp only
  rw [h3]
  exact hfin ⟨.ok, body, decoded, s3⟩ rfl rfl rfl

/-- Witness of faithful forwarding: a clean chunked response. -/
theorem clean_crlf_response_forwarded_witness :
    clientOutput (client_thread demoPolicy (demoEnv cleanChunkedResponse false) demoGet)
      = "HTTP/1.1 200 OK".toList ++ CRLF
        ++ (encodeLines ["Server: demo".toList, "Transfer-Encoding: chunked".toList] ++ CRLF)
        ++ sampleChunked.encode :=
  clean_crlf_response_forwarded demoPolicy (demoEnv cleanChunkedResponse false) demoGet
    ⟨[cleanChunkedResponse], false⟩
    [.connect "ok.example".toList "80".toList,
      .send .server "GET /x HTTP/1.1\r\nHost: ok.example\r\n\r\n".toList]
    "HTTP/1.1 200 OK".toList ["Server: demo".toList, "Transfer-Encoding: chunked".toList]
    sampleChunked.encode sampleChunked.decoded []
    (by decide) (by decide) (by decide) (by decide) (by decide) (by decide) (by decide)
    (Or.inl ⟨sampleChunked, by decide, by decide, rfl, rfl⟩) (by decide)

theorem requestPhase_sends (pol : Policy) (env : Env) (clientSock : Sock)
    (acts : List Action) (o : Option Sock) (b : Str)
    (h : requestPhase pol env clientSock = (acts, o))
    (hmem : Action.send .client b ∈ acts) : b ∈ ownPages := by
  unfold requestPhase httpBranch connectBranch at h
  dsimp only at h
  repeat' split at h
  all_goals
    simp only [Prod.mk.injEq] at h
    rw [← h.1] at hmem
    (simp only [List.mem_cons, Action.send.injEq, true_and, reduceCtorEq, false_and,
      List.mem_singleton, or_false, false_or, List.mem_nil_iff, List.not_mem_nil] at hmem)
      <;> (subst hmem; simp [ownPages])

/-- What holds of C5: every piece the proxy writes to the client is either
one of its own answers, or the header block or the raw body of a response
whose reader returned success and whose lowercased decoded body holds no
forbidden word. -/
theorem client_gets_own_pages_or_cleared_response (pol : Policy) (env : Env)
    (clientSock : Sock) (b : Str)
    (hmem : Action.send .client b ∈ client_thread pol env clientSock) :
    b ∈ ownPages
    ∨ ∃ acts serverSock statusLine s1 serverHeaders s2,
        requestPhase pol env clientSock = (acts, some serverSock)
        ∧ recvLine serverSock (8 * 1024) = (some statusLine, s1)
        ∧ readHeaders s1 = (some serverHeaders, s2)
        ∧ (readBody pol.forbiddenWords env.bufSize (determineFraming serverHeaders) s2).status
          = .ok
        ∧ containsForbidden (toLowerCopy
            (readBody pol.forbiddenWords env.bufSize (determineFraming serverHeaders) s2).decoded)
            pol.forbiddenWords = false
        ∧ (b = statusLine ++ CRLF ++ serverHeaders
          ∨ b = (readBody pol.forbiddenWords env.bufSize (determineFraming serverHeaders)
              s2).raw) := by
  unfold client_thread at hmem
  cases hrp : requestPhase pol env clientSock with
  | mk acts o =>
    rw [hrp] at hmem
    cases o with
    | none => exact Or.inl (requestPhase_sends pol env clientSock acts none b hrp hmem)
    | some serverSock =>
      dsimp only at hmem
      rcases List.mem_append.mp hmem with h | h
      · exact Or.inl (requestPhase_sends pol env clientSock acts _ b hrp h)
      · unfold responsePhase at h
        cases hsl : recvLine serverSock (8 * 1024) with
        | mk ol s1 =>
          rw [hsl] at h
          cases ol with
          | none => simp at h
          | some statusLine =>
            dsimp only at h
            cases hrh : readHeaders s1 with
            | mk oh s2 =>
              rw [hrh] at h
              cases oh with
              | none => simp at h
              | some serverHeaders =>
                dsimp only at h
                cases hst : (readBody pol.forbiddenWords env.bufSize
                    (determineFraming serverHeaders) s2).status with
                | crashed => rw [hst] at h; simp at h
                | failed => rw [hst] at h; simp at h
                | blocked =>
                  rw [hst] at h
                  left
                  have : b = send503 := by simpa using h
                  subst this; simp [ownPages]
                | ok =>
                  rw [hst] at h
                  dsimp only at h
                  by_cases hf : containsForbidden (toLowerCopy
                      (readBody pol.forbiddenWords env.bufSize
                        (determineFraming serverHeaders) s2).decoded) pol.forbiddenWords = true
                  · rw [if_pos hf] at h
                    left
                    have : b = page503 := by simpa using h
                    subst this; simp [ownPages]
                  · rw [if_neg hf] at h
                    right
                    refine ⟨acts, serverSock, statusLine, s1, serverHeaders, s2, rfl, hsl, hrh,
                      hst, by simpa using hf, ?_⟩
                    split at h
                    · left; simpa using h
                    · split at h
                      · left; simpa using h
                      · simpa using h

/-- Witness: the body of a clean response is such a piece. -/
theorem client_gets_own_pages_or_cleared_response_witness :
    "hi".toList ∈ ownPages
    ∨ ∃ acts serverSock statusLine s1 serverHeaders s2,
        requestPhase demoPolicy (demoEnv cleanResponse false) demoGet = (acts, some serverSock)
        ∧ recvLine serverSock (8 * 1024) = (some statusLine, s1)
        ∧ readHeaders s1 = (some serverHeaders, s2)
        ∧ (readBody demoPolicy.forbiddenWords (demoEnv cleanResponse false).bufSize
            (determineFraming serverHeaders) s2).status = .ok
        ∧ containsForbidden (toLowerCopy
            (readBody demoPolicy.forbiddenWords (demoEnv cleanResponse false).bufSize
              (determineFraming serverHeaders) s2).decoded)
            demoPolicy.forbiddenWords = false
        ∧ ("hi".toList = statusLine ++ CRLF ++ serverHeaders
          ∨ "hi".toList = (readBody demoPolicy.forbiddenWords
              (demoEnv cleanResponse false).bufSize (determineFraming serverHeaders) s2).raw) :=
  client_gets_own_pages_or_cleared_response demoPolicy (demoEnv cleanResponse false) demoGet
    "hi".toList (by decide)

/-! ### The fuel of the loops is enough -/

/-- More fuel than `len` rounds changes nothing in `recvExact`. -/
theorem recvExactLoop_fuel (fuel k : Nat) : ∀ (s : Sock) (len : Nat) (got : Str),
    len ≤ got.length + fuel →
    recvExactLoop (fuel + k) s len got = recvExactLoop fuel s len got := by
  induction fuel with
  | zero =>
    intro s len got h
    cases k with
    | zero => rfl
    | succ j =>
      have hnot : ¬ got.length < len := by omega
      simp only [Nat.zero_add, recvExactLoop, hnot, if_false]
  | succ n ih =>
    intro s len got h
    have hk : n + 1 + k = (n + k) + 1 := by omega
    rw [hk, recvExactLoop, recvExactLoop]
    by_cases hlt : got.length < len
    · rw [if_pos hlt, if_pos hlt]
      have hspec := recv_spec s (len - got.length) (by omega)
      cases hr : recv s (len - got.length) with
      | error => rfl
      | closed => rfl
      | data d s1 =>
        rw [hr] at hspec
        have hd : 0 < d.length := List.length_pos.mpr hspec.1
        exact ih s1 len (got ++ d) (by simp only [List.length_append]; omega)
    · rw [if_neg hlt, if_neg hlt]

theorem fgetsCopy_length (room : Nat) (f : Str) :
    ((fgetsCopy room f).2).length + ((fgetsCopy room f).1).length = f.length := by
  induction f generalizing room with
  | nil => cases room <;> simp [fgetsCopy]
  | cons c cs ih =>
    cases room with
    | zero => simp [fgetsCopy]
    | succ r =>
      by_cases hc : c = '\n'
      · simp [fgetsCopy, hc]
      · have := ih r
        simp only [fgetsCopy, hc, if_false, List.length_cons]
        omega

theorem fgets_shorter (f buf rest : Str) (h : fgets 1024 f = some (buf, rest)) :
    rest.length < f.length := by
  cases f with
  | nil => simp [fgets] at h
  | cons c cs =>
    simp only [fgets, Option.some.injEq] at h
    have hrest : rest = (fgetsCopy 1023 (c :: cs)).2 := by rw [h]
    have hlen := fgetsCopy_length 1023 (c :: cs)
    have hpos : 0 < ((fgetsCopy 1023 (c :: cs)).1).length := by
      by_cases hc : c = '\n' <;> simp [fgetsCopy, hc]
    rw [hrest]
    omega

/-- More fuel than one `fgets` per byte changes nothing in the loader. -/
theorem loadLoop_fuel (fuel k : Nat) : ∀ (f : Str) (p : Policy), f.length < fuel →
    loadLoop (fuel + k) f p = loadLoop fuel f p := by
  induction fuel with
  | zero => intro f p h; simp at h
  | succ n ih =>
    intro f p h
    have hk : n + 1 + k = (n + k) + 1 := by omega
    rw [hk, loadLoop, loadLoop]
    cases hg : fgets 1024 f with
    | none => rfl
    | some br =>
      obtain ⟨buf, rest⟩ := br
      have := fgets_shorter f buf rest hg
      exact ih rest _ (by omega)

/-- More fuel than `remaining` rounds changes nothing in the request-body loop. -/
theorem readRequestBodyLoop_fuel (bufSize fuel k : Nat) :
    ∀ (s : Sock) (remaining : Nat) (body : Str), remaining ≤ fuel →
    readRequestBodyLoop bufSize (fuel + k) s remaining body
      = readRequestBodyLoop bufSize fuel s remaining body := by
  induction fuel with
  | zero =>
    intro s remaining body h
    have h0 : remaining = 0 := by omega
    subst h0
    cases k with
    | zero => rfl
    | succ j => simp [readRequestBodyLoop]
  | succ n ih =>
    intro s remaining body h
    have hk : n + 1 + k = (n + k) + 1 := by omega
    rw [hk, readRequestBodyLoop, readRequestBodyLoop]
    by_cases hpos : remaining > 0
    · rw [if_pos hpos, if_pos hpos]
      by_cases hlen : 0 < (if remaining < bufSize then remaining else bufSize)
      · have hspec := recv_spec s _ hlen
        cases hr : recv s (if remaining < bufSize then remaining else bufSize) with
        | error => rfl
        | closed => rfl
        | data d s1 =>
          rw [hr] at hspec
          have hd : 0 < d.length := List.length_pos.mpr hspec.1
          exact ih s1 _ _ (by omega)
      · have h0 : (if remaining < bufSize then remaining else bufSize) = 0 := by omega
        rw [h0]
        simp [recv]
    · rw [if_neg hpos, if_neg hpos]

/-! ### The framed reads on the flat byte stream -/

/-- However the bytes are cut into pieces, `recvLine` does what `recvLineFlat`
does on the pending bytes. -/
theorem recvLineLoop_flat (maxlen : Int) (fuel : Nat) : ∀ (out : Str) (s : Sock),
    s.bytes.length < fuel →
    ∃ s1, recvLineLoop maxlen fuel out s = ((recvLineFlat maxlen out s.bytes).1, s1)
      ∧ s1.bytes = (recvLineFlat maxlen out s.bytes).2 ∧ s1.fails = s.fails := by
  induction fuel with
  | zero => intro out s h; simp at h
  | succ k ih =>
    intro out s hfuel
    cases hb : s.bytes with
    | nil =>
      refine ⟨s, ?_, by simp [recvLineFlat, hb], rfl⟩
      rw [recvLineLoop, recvByte_nil s hb]
      simp [recvLineFlat]
    | cons ch rest =>
      obtain ⟨s1, h1, hb1, hf1⟩ := recvByte_cons s ch rest hb
      rw [recvLineLoop, h1]
      dsimp only
      by_cases hcr : ch = '\r'
      · subst hcr
        simp only [recvLineFlat, if_true]
        cases hrest : rest with
        | nil =>
          rw [hrest] at hb1
          refine ⟨s1, ?_, by simpa using hb1, hf1⟩
          rw [recvByte_nil s1 hb1]
        | cons c2 rest2 =>
          rw [hrest] at hb1
          obtain ⟨s2, h2, hb2, hf2⟩ := recvByte_cons s1 c2 rest2 hb1
          rw [h2]
          by_cases hlf : c2 = '\n'
          · subst hlf
            exact ⟨s2, rfl, hb2, hf2.trans hf1⟩
          · refine ⟨s1, ?_, ?_, hf1⟩
            · split
              · rename_i heq
                simp only [Option.some.injEq, Prod.mk.injEq] at heq
                exact absurd heq.1 hlf
              · split
                · rename_i heq
                  simp only [List.cons.injEq] at heq
                  exact absurd heq.1 hlf
                · rfl
            · split
              · rename_i heq
                simp only [List.cons.injEq] at heq
                exact absurd heq.1 hlf
              · exact hb1
      · by_cases hlf : ch = '\n'
        · subst hlf
          refine ⟨s1, ?_, ?_, hf1⟩
          · simp [recvLineFlat]
          · simpa [recvLineFlat] using hb1
        · simp only [recvLineFlat, hcr, hlf, if_false]
          by_cases hmax : ((out ++ [ch]).length : Int) ≥ maxlen
          · simp only [hmax, if_true]
            exact ⟨s1, rfl, hb1, hf1⟩
          · simp only [hmax, if_false]
            have hlen : s1.bytes.length < k := by
              rw [hb1]
              rw [hb] at hfuel
              simpa using hfuel
            obtain ⟨s2, h2, hb2, hf2⟩ := ih (out ++ [ch]) s1 hlen
            rw [hb1] at h2 hb2
            exact ⟨s2, h2, hb2, hf2.trans hf1⟩

theorem recvLine_flat (maxlen : Int) (s : Sock) :
    ∃ s1, recvLine s maxlen = ((recvLineFlat maxlen [] s.bytes).1, s1)
      ∧ s1.bytes = (recvLineFlat maxlen [] s.bytes).2 ∧ s1.fails = s.fails :=
  recvLineLoop_flat maxlen (s.bytes.length + 1) [] s (Nat.lt_succ_self _)

/-- `recvExact` on a socket that ends before `len` bytes: it returns `-1` when
the stream ends in a failure and the short count when it ends in a close. -/
theorem recvExactLoop_short (fuel : Nat) : ∀ (s : Sock) (len : Nat) (got : Str),
    got.length + s.bytes.length < len → s.bytes.length < fuel →
    ∃ s1, recvExactLoop fuel s len got
        = ((if s.fails then (-1 : Int) else ((got ++ s.bytes).length : Int)), got ++ s.bytes, s1)
      ∧ s1.bytes = [] ∧ s1.fails = s.fails := by
  induction fuel with
  | zero => intro s len got _ h; simp at h
  | succ k ih =>
    intro s len got hshort hfuel
    have hlt : got.length < len := by omega
    rw [recvExactLoop, if_pos hlt]
    by_cases hnil : s.bytes = []
    · have hspec := recv_spec s (len - got.length) (by omega)
      refine ⟨s, ?_, hnil, rfl⟩
      cases hr : recv s (len - got.length) with
      | data d s1 =>
        rw [hr, hnil] at hspec
        have := hspec.2.2.1
        cases d with
        | nil => exact absurd rfl hspec.1
        | cons a b => simp at this
      | error =>
        rw [hr] at hspec
        simp [hspec.2, hnil]
      | closed =>
        rw [hr] at hspec
        simp [hspec.2, hnil]
    · obtain ⟨d, s1, hr, hne, _, hbytes, hf⟩ := recv_data s (len - got.length) (by omega) hnil
      rw [hr]
      dsimp only
      have hd : 0 < d.length := List.length_pos.mpr hne
      have hl := congrArg List.length hbytes
      simp only [List.length_append] at hl
      obtain ⟨s2, h2, hb2, hf2⟩ := ih s1 len (got ++ d)
        (by simp only [List.length_append]; omega) (by omega)
      refine ⟨s2, ?_, hb2, hf2.trans hf⟩
      rw [h2, hf, hbytes]
      simp [List.append_assoc]

/-- `recvExact` for every socket and length: it stores the first `len`
pending bytes (all of them when fewer are pending), leaves the rest, and
returns `len`, or on a short stream `-1` after a failure and the short count
after a close. -/
theorem recvExact_general (s : Sock) (len : Nat) :
    ∃ s1, recvExact s len
        = ((if len ≤ s.bytes.length then (len : Int)
            else if s.fails then (-1 : Int) else (s.bytes.length : Int)),
          s.bytes.take len, s1)
      ∧ s1.bytes = s.bytes.drop len ∧ s1.fails = s.fails := by
  by_cases hle : len ≤ s.bytes.length
  · obtain ⟨s1, h1, hb1, hf1⟩ := recvExact_spec s (s.bytes.take len) (s.bytes.drop len)
      (List.take_append_drop len s.bytes).symm
    have hl : (s.bytes.take len).length = len := by rw [List.length_take]; omega
    rw [hl] at h1
    exact ⟨s1, by rw [h1, if_pos hle], hb1, hf1⟩
  · have hlt : s.bytes.length < len := by omega
    obtain ⟨s1, h1, hb1, hf1⟩ := recvExactLoop_short len s len [] (by simpa using hlt) hlt
    refine ⟨s1, ?_, ?_, hf1⟩
    · rw [recvExact, h1, if_neg hle, List.take_of_length_le (Nat.le_of_lt hlt)]
      simp
    · rw [hb1, List.drop_of_length_le (Nat.le_of_lt hlt)]

/-! ### Lines on the flat byte stream -/

/-- `recvLineFlat` on a line of bytes other than CR and LF that is shorter than
`maxlen`: it is returned for each of the endings LF, CRLF and a CR that no LF
follows. -/
theorem recvLineFlat_line (maxlen : Int) (rest : Str) (l : Str) :
    ∀ out : Str, (∀ c ∈ l, c ≠ '\r' ∧ c ≠ '\n') → ((out ++ l).length : Int) < maxlen →
    recvLineFlat maxlen out (l ++ '\n' :: rest) = (some (out ++ l), rest)
    ∧ recvLineFlat maxlen out (l ++ '\r' :: '\n' :: rest) = (some (out ++ l), rest)
    ∧ (rest.head? ≠ some '\n' →
        recvLineFlat maxlen out (l ++ '\r' :: rest) = (some (out ++ l), rest)) := by
  induction l with
  | nil =>
    intro out _ _
    refine ⟨by simp [recvLineFlat], by simp [recvLineFlat], ?_⟩
    intro hh
    cases rest with
    | nil => simp [recvLineFlat]
    | cons a r =>
      have ha : a ≠ '\n' := fun e => hh (by simp [e])
      simp only [List.nil_append, recvLineFlat, if_true, List.append_nil]
      split
      · rename_i heq
        simp only [List.cons.injEq] at heq
        exact absurd heq.1 ha
      · rfl
  | cons c cs ih =>
    intro out hl hmax
    have hc := hl c (List.mem_cons_self _ _)
    have hnot : ¬ (((out ++ [c]).length : Int) ≥ maxlen) := by
      simp only [List.length_append, List.length_cons, List.length_nil] at hmax ⊢
      push_cast at hmax ⊢
      omega
    have hrec := ih (out ++ [c]) (fun x hx => hl x (List.mem_cons_of_mem _ hx))
      (by simpa using hmax)
    simp only [List.cons_append, recvLineFlat, hc.1, hc.2, if_false, hnot]
    simpa using hrec

/-- `recvLineFlat` fails on a run of `maxlen` or more bytes other than CR and
LF, whatever follows. -/
theorem recvLineFlat_too_long (maxlen : Int) (tail : Str) (l : Str) :
    ∀ out : Str, (∀ c ∈ l, c ≠ '\r' ∧ c ≠ '\n') → l ≠ [] →
    ((out ++ l).length : Int) ≥ maxlen →
    (recvLineFlat maxlen out (l ++ tail)).1 = none := by
  induction l with
  | nil => intro out _ h; exact absurd rfl h
  | cons c cs ih =>
    intro out hl _ hmax
    have hc := hl c (List.mem_cons_self _ _)
    simp only [List.cons_append, recvLineFlat, hc.1, hc.2, if_false]
    by_cases hfull : ((out ++ [c]).length : Int) ≥ maxlen
    · rw [if_pos hfull]
    · rw [if_neg hfull]
      have hcs : cs ≠ [] := by
        intro e
        subst e
        exact hfull hmax
      exact ih (out ++ [c]) (fun x hx => hl x (List.mem_cons_of_mem _ hx)) hcs
        (by simpa using hmax)

/-- `recvLine` returns a line ended by LF or CRLF when it holds fewer than
`maxlen` bytes, none of them CR or LF, and leaves what follows the ending. -/
theorem recvLine_line (maxlen : Int) (s : Sock) (l term rest : Str)
    (hl : ∀ c ∈ l, c ≠ '\r' ∧ c ≠ '\n')
    (hterm : term = ['\n'] ∨ term = ['\r', '\n'])
    (hb : s.bytes = l ++ term ++ rest) (hmax : (l.length : Int) < maxlen) :
    ∃ s1, recvLine s maxlen = (some l, s1) ∧ s1.bytes = rest ∧ s1.fails = s.fails := by
  obtain ⟨s1, h1, hb1, hf1⟩ := recvLine_flat maxlen s
  have hflat := recvLineFlat_line maxlen rest l [] hl (by simpa using hmax)
  have hres : recvLineFlat maxlen [] s.bytes = (some l, rest) := by
    rcases hterm with h | h
    · rw [hb, h]
      simpa using hflat.1
    · rw [hb, h]
      simpa using hflat.2.1
  rw [hres] at h1 hb1
  exact ⟨s1, h1, hb1, hf1⟩

/-- `recvLine` fails on a line of `maxlen` or more bytes. -/
theorem recvLine_too_long (maxlen : Int) (s : Sock) (l tail : Str)
    (hl : ∀ c ∈ l, c ≠ '\r' ∧ c ≠ '\n') (hne : l ≠ [])
    (hb : s.bytes = l ++ tail) (hmax : (l.length : Int) ≥ maxlen) :
    (recvLine s maxlen).1 = none := by
  obtain ⟨s1, h1, _, _⟩ := recvLine_flat maxlen s
  rw [h1, hb]
  exact recvLineFlat_too_long maxlen tail l [] hl hne (by simpa using hmax)

/-- C18 (as amended): for every stream that starts with fewer than `maxlen`
bytes other than CR and LF followed by `\n` or by `\r\n`, `recvLine` returns
those bytes (the bytes before the first `\n`, the `\r` before it stripped) and
takes the stream exactly up to and including that `\n`. -/
theorem recvLine_returns_first_line (maxlen : Int) (s : Sock) (l term rest : Str)
    (hl : ∀ c ∈ l, c ≠ '\r' ∧ c ≠ '\n')
    (hterm : term = ['\n'] ∨ term = ['\r', '\n'])
    (hb : s.bytes = l ++ term ++ rest) (hmax : (l.length : Int) < maxlen) :
    ∃ s1, recvLine s maxlen = (some l, s1) ∧ s1.bytes = rest := by
  obtain ⟨s1, h1, hb1, _⟩ := recvLine_line maxlen s l term rest hl hterm hb hmax
  exact ⟨s1, h1, hb1⟩

/-- Witness for C18: a CRLF-ended line arriving in two pieces. -/
theorem recvLine_returns_first_line_witness :
    ∃ s1, recvLine ⟨["Host: a".toList, "\r\nnext".toList], false⟩ (8 * 1024)
        = (some "Host: a".toList, s1) ∧ s1.bytes = "next".toList :=
  recvLine_returns_first_line (8 * 1024) ⟨["Host: a".toList, "\r\nnext".toList], false⟩
    "Host: a".toList ['\r', '\n'] "next".toList (by decide) (Or.inr rfl) (by decide) (by decide)

/-- Counterexample to C18 as stated: the stream `abcd\n` holds a `\n`, yet with
`maxlen = 3` `recvLine` fails instead of returning `abcd`; and on `ab\rcd\n` it
returns `ab` and leaves `cd\n` unread, where the bytes before the first `\n`
are `ab\rcd`. -/
theorem recvLine_not_always_up_to_lf :
    (recvLine ⟨["abcd\n".toList], false⟩ 3).1 = none
    ∧ recvLine ⟨["ab\rcd\n".toList], false⟩ (8 * 1024)
        = (some "ab".toList, ⟨["cd\n".toList], false⟩) := by
  decide

/-- A line of `n` letters with `n` at least `maxlen` makes `recvLine` fail. -/
theorem recvLine_replicate_fails (n : Nat) (hn : 0 < n) (maxlen : Int)
    (hmax : (n : Int) ≥ maxlen) (tail : Str) :
    (recvLine ⟨[List.replicate n 'a' ++ tail], false⟩ maxlen).1 = none := by
  apply recvLine_too_long maxlen _ (List.replicate n 'a') tail
  · intro c hc
    have : c = 'a' := (List.mem_replicate.mp hc).2
    subst this
    decide
  · intro h
    have := congrArg List.length h
    rw [List.length_replicate] at this
    simp at this
    omega
  · simp [Sock.bytes]
  · rw [List.length_replicate]
    exact hmax

/-- C19 (code bug): a terminated line of exactly `maxlen` bytes does not exceed
`maxlen`, yet `recvLine` fails on it: with `maxlen = 3` on `abc\n`, and with
the limit 8192 of the proxy on a line of 8192 bytes ended by CRLF. -/
theorem recvLine_fails_at_exactly_maxlen :
    (recvLine ⟨["abc\n".toList], false⟩ 3).1 = none
    ∧ (List.replicate 8192 'a').length = 8192
    ∧ (recvLine ⟨[List.replicate 8192 'a' ++ CRLF], false⟩ (8 * 1024)).1 = none :=
  ⟨by decide, List.length_replicate _ _,
    recvLine_replicate_fails 8192 (by decide) (8 * 1024) (by decide) CRLF⟩

/-! ### What `readHeaders` returns -/

/-- A line `recvLineFlat` returns holds no CR and no LF, is shorter than
`maxlen` unless nothing was added to `out`, and at least one byte was taken. -/
theorem recvLineFlat_some (maxlen : Int) (b : Str) : ∀ (out l rest : Str),
    recvLineFlat maxlen out b = (some l, rest) →
    ∃ l1, l = out ++ l1 ∧ (∀ c ∈ l1, c ≠ '\r' ∧ c ≠ '\n')
      ∧ (l1 = [] ∨ (l.length : Int) < maxlen) ∧ rest.length < b.length := by
  induction b with
  | nil => intro out l rest h; simp [recvLineFlat] at h
  | cons ch t ih =>
    intro out l rest h
    simp only [recvLineFlat] at h
    by_cases hcr : ch = '\r'
    · rw [if_pos hcr] at h
      split at h
      · simp only [Prod.mk.injEq, Option.some.injEq] at h
        refine ⟨[], by simp [h.1], by simp, Or.inl rfl, ?_⟩
        rw [← h.2]; simp only [List.length_cons]; omega
      · simp only [Prod.mk.injEq, Option.some.injEq] at h
        refine ⟨[], by simp [h.1], by simp, Or.inl rfl, ?_⟩
        rw [← h.2]; simp
    · rw [if_neg hcr] at h
      by_cases hlf : ch = '\n'
      · rw [if_pos hlf] at h
        simp only [Prod.mk.injEq, Option.some.injEq] at h
        refine ⟨[], by simp [h.1], by simp, Or.inl rfl, ?_⟩
        rw [← h.2]; simp
      · rw [if_neg hlf] at h
        by_cases hfull : ((out ++ [ch]).length : Int) ≥ maxlen
        · rw [if_pos hfull] at h
          simp at h
        · rw [if_neg hfull] at h
          obtain ⟨l1, hl1, hc1, hlen1, hrest⟩ := ih (out ++ [ch]) l rest h
          refine ⟨ch :: l1, by simpa using hl1, ?_, ?_, by simp only [List.length_cons]; omega⟩
          · intro c hc
            rcases List.mem_cons.mp hc with e | e
            · subst e; exact ⟨hcr, hlf⟩
            · exact hc1 c e
          · right
            rcases hlen1 with e | e
            · subst e
              rw [hl1]
              simpa using hfull
            · exact e

/-- A line `recvLine` returns holds no CR and no LF and, for a positive limit,
is shorter than the limit; the socket has lost at least one byte. -/
theorem recvLine_some (maxlen : Int) (hpos : 0 < maxlen) (s s1 : Sock) (l : Str)
    (h : recvLine s maxlen = (some l, s1)) :
    (∀ c ∈ l, c ≠ '\r' ∧ c ≠ '\n') ∧ (l.length : Int) < maxlen
      ∧ s1.bytes.length < s.bytes.length := by
  obtain ⟨s2, h2, hb2, _⟩ := recvLine_flat maxlen s
  rw [h] at h2
  simp only [Prod.mk.injEq] at h2
  have hflat : recvLineFlat maxlen [] s.bytes
      = (some l, (recvLineFlat maxlen [] s.bytes).2) := by
    rw [h2.1]
  obtain ⟨l1, hl1, hc1, hlen1, hrest⟩ := recvLineFlat_some maxlen s.bytes [] l _ hflat
  simp only [List.nil_append] at hl1
  subst hl1
  refine ⟨hc1, ?_, ?_⟩
  · rcases hlen1 with e | e
    · subst e; simpa using hpos
    · exact e
  · rw [h2.2, hb2]; exact hrest

/-- The shape of every header block `readHeaders` returns: lines that are not
empty, hold no CR and no LF and are shorter than 8192 bytes, each followed by
CRLF and together at most 64 KiB, and then one more CRLF. -/
theorem readHeadersLoop_some (fuel : Nat) : ∀ (acc : Str) (s s1 : Sock) (h : Str),
    readHeadersLoop fuel acc s = (some h, s1) →
    ∃ lines, h = acc ++ encodeLines lines ++ CRLF
      ∧ (∀ l ∈ lines, l ≠ [] ∧ (∀ c ∈ l, c ≠ '\r' ∧ c ≠ '\n') ∧ l.length < 8192)
      ∧ (lines ≠ [] → (acc ++ encodeLines lines).length ≤ 64 * 1024) := by
  induction fuel with
  | zero => intro acc s s1 h hh; simp [readHeadersLoop] at hh
  | succ k ih =>
    intro acc s s1 h hh
    rw [readHeadersLoop] at hh
    cases hr : recvLine s (8 * 1024) with
    | mk o s2 =>
      rw [hr] at hh
      cases o with
      | none => simp at hh
      | some line =>
        dsimp only at hh
        obtain ⟨hlc, hll, _⟩ := recvLine_some (8 * 1024) (by decide) s s2 line hr
        by_cases hemp : line.isEmpty = true
        · rw [if_pos hemp] at hh
          simp only [Prod.mk.injEq, Option.some.injEq] at hh
          exact ⟨[], by simp [encodeLines, hh.1], by simp, by simp⟩
        · rw [if_neg hemp] at hh
          by_cases hbig : (acc ++ line ++ CRLF).length > 64 * 1024
          · rw [if_pos hbig] at hh
            simp at hh
          · rw [if_neg hbig] at hh
            obtain ⟨lines, hl, hprops, hsize⟩ := ih (acc ++ line ++ CRLF) s2 s1 h hh
            refine ⟨line :: lines, ?_, ?_, ?_⟩
            · rw [hl]; simp [encodeLines, List.append_assoc]
            · intro l hl
              rcases List.mem_cons.mp hl with e | e
              · subst e
                refine ⟨?_, hlc, by omega⟩
                intro e; subst e; exact hemp rfl
              · exact hprops l e
            · intro _
              by_cases hne : lines = []
              · subst hne
                have : (acc ++ line ++ CRLF).length ≤ 64 * 1024 := by omega
                simpa [encodeLines, List.append_assoc] using this
              · have := hsize hne
                simpa [encodeLines, List.append_assoc] using this

theorem readHeaders_some (s s1 : Sock) (h : Str) (hh : readHeaders s = (some h, s1)) :
    ∃ lines, h = encodeLines lines ++ CRLF
      ∧ (∀ l ∈ lines, l ≠ [] ∧ (∀ c ∈ l, c ≠ '\r' ∧ c ≠ '\n') ∧ l.length < 8192)
      ∧ (encodeLines lines).length ≤ 64 * 1024 := by
  obtain ⟨lines, hl, hprops, hsize⟩ := readHeadersLoop_some _ [] s s1 h hh
  refine ⟨lines, by simpa using hl, hprops, ?_⟩
  by_cases hne : lines = []
  · subst hne; simp [encodeLines]
  · simpa using hsize hne

theorem encodeLines_replicate_length (k : Nat) (l : Str) :
    (encodeLines (List.replicate k l)).length = k * (l.length + 2) := by
  induction k with
  | zero => simp [encodeLines]
  | succ n ih =>
    have hstep : encodeLines (List.replicate (n + 1) l)
        = l ++ CRLF ++ encodeLines (List.replicate n l) := by
      simp [encodeLines, List.replicate_succ]
    rw [hstep, List.length_append, List.length_append, ih]
    simp only [CRLF, List.length_cons, List.length_nil]
    ring

/-- What holds of C20: every header block `readHeaders` returns is made of
lines shorter than 8192 bytes that together, CRLFs included, take at most
65536 bytes, plus the closing CRLF: at most 65538 bytes in all. -/
theorem readHeaders_success_bounds (s s1 : Sock) (h : Str)
    (hh : readHeaders s = (some h, s1)) :
    h.length ≤ 64 * 1024 + 2
      ∧ ∃ lines, h = encodeLines lines ++ CRLF ∧ ∀ l ∈ lines, l.length < 8192 := by
  obtain ⟨lines, hl, hprops, hsize⟩ := readHeaders_some s s1 h hh
  refine ⟨?_, lines, hl, fun l hm => (hprops l hm).2.2⟩
  rw [hl, List.length_append]
  simp only [CRLF, List.length_cons, List.length_nil]
  omega

/-- C20 (code bug): on a header block whose eight lines of 8190 bytes fill
64 KiB exactly, `readHeaders` succeeds and returns a block of 65538 bytes,
two more than the limit of 65536. -/
theorem readHeaders_returns_more_than_64KiB :
    ∃ h s1, readHeaders ⟨[fullHeaders], false⟩ = (some h, s1) ∧ h.length = 65538
      ∧ 65536 < h.length := by
  have hlen : (encodeLines (List.replicate 8 (List.replicate 8190 'a'))).length = 65536 := by
    rw [encodeLines_replicate_length, List.length_replicate]
  obtain ⟨s1, h1, _, _⟩ := readHeaders_spec ⟨[fullHeaders], false⟩
    (List.replicate 8 (List.replicate 8190 'a')) []
    (by
      intro l hl
      have hl' : l = List.replicate 8190 'a' := (List.mem_replicate.mp hl).2
      subst hl'
      refine ⟨?_, ?_, ?_⟩
      · intro h
        have := congrArg List.length h
        rw [List.length_replicate] at this
        simp at this
      · intro c hc
        have : c = 'a' := (List.mem_replicate.mp hc).2
        subst this
        decide
      · rw [List.length_replicate]; decide)
    (by rw [hlen])
    (by simp only [Sock.bytes, List.flatten_cons, List.flatten_nil, List.append_nil]; rfl)
  refine ⟨_, s1, h1, ?_, ?_⟩
  · rw [List.length_append, hlen]; rfl
  · rw [List.length_append, hlen]; decide

/-! ### `readContentLengthResponse` on every length -/

theorem containsForbidden_false_of_free (body : Str) (words : List Str)
    (hfree : ∀ w ∈ words, ¬ w <:+: body) : containsForbidden body words = false := by
  cases h : containsForbidden body words with
  | false => rfl
  | true =>
    obtain ⟨w, hw, hin⟩ := (containsForbidden_iff body words).mp h
    exact absurd hin (hfree w hw)

theorem containsForbidden_false_left (a b : Str) (words : List Str)
    (h : containsForbidden (a ++ b) words = false) : containsForbidden a words = false := by
  cases ha : containsForbidden a words with
  | false => rfl
  | true =>
    rw [containsForbidden_append a b words ha] at h
    exact absurd h (by decide)

/-- When the stream ends before `remaining` bytes and holds no forbidden word,
the loop of `readContentLengthResponse` fails. -/
theorem readContentLengthLoop_short (words : List Str) (bufSize : Nat) (hbuf : 0 < bufSize)
    (fuel : Nat) : ∀ (s : Sock) (remaining : Nat) (raw dec : Str),
    s.bytes.length < remaining → remaining < fuel →
    containsForbidden (dec ++ s.bytes) words = false →
    (readContentLengthLoop words bufSize fuel s remaining raw dec).status = .failed := by
  induction fuel with
  | zero => intro s remaining raw dec _ hfuel; simp at hfuel
  | succ k ih =>
    intro s remaining raw dec hshort hfuel hfree
    rw [readContentLengthLoop]
    have hrem : remaining > 0 := by omega
    rw [if_pos hrem]
    generalize htr : (if remaining < bufSize then remaining else bufSize) = toRead
    have htr1 : 0 < toRead ∧ toRead ≤ remaining := by
      rw [← htr]; split <;> omega
    obtain ⟨s1, h1, hb1, hf1⟩ := recvExact_general s toRead
    simp only [h1]
    by_cases hle : toRead ≤ s.bytes.length
    · rw [if_pos hle]
      have hpos : ¬ ((toRead : Int) ≤ 0) := by omega
      rw [if_neg hpos]
      have hsplit : dec ++ s.bytes = (dec ++ s.bytes.take toRead) ++ s.bytes.drop toRead := by
        rw [List.append_assoc, List.take_append_drop]
      have hfree1 : containsForbidden (dec ++ s.bytes.take toRead) words = false :=
        containsForbidden_false_left _ (s.bytes.drop toRead) words (by rw [← hsplit]; exact hfree)
      simp only [hfree1, Bool.false_eq_true, if_false]
      have hlen : (s.bytes.take toRead).length = toRead := by
        rw [List.length_take]; omega
      apply ih
      · rw [hb1, List.length_drop, hlen]; omega
      · rw [hlen]; omega
      · rw [hb1, ← hsplit]; exact hfree
    · rw [if_neg hle]
      have htake : s.bytes.take toRead = s.bytes := List.take_of_length_le (by omega)
      have hdrop : s.bytes.drop toRead = [] := List.drop_of_length_le (by omega)
      by_cases hfails : s.fails = true
      · simp [hfails]
      · simp only [hfails, Bool.false_eq_true, if_false]
        by_cases hzero : ((s.bytes.length : Int) ≤ 0)
        · rw [if_pos hzero]
        · rw [if_neg hzero]
          rw [htake]
          simp only [hfree, Bool.false_eq_true, if_false]
          apply ih
          · rw [hb1, hdrop]; simp only [List.length_nil]; omega
          · omega
          · rw [hb1, hdrop, List.append_nil]; exact hfree

theorem readContentLengthResponse_short (words : List Str) (bufSize : Nat) (hbuf : 0 < bufSize)
    (s : Sock) (n : Nat) (hshort : s.bytes.length < n)
    (hfree : containsForbidden s.bytes words = false) :
    (readContentLengthResponse words bufSize s n).status = .failed :=
  readContentLengthLoop_short words bufSize hbuf (n + 1) s n [] [] hshort (Nat.lt_succ_self _)
    (by simpa using hfree)

/-- C15: for every length `n`, every buffer size above zero and every upstream
stream in which no stored word occurs, `readContentLengthResponse` succeeds
exactly when the stream holds at least `n` bytes; on success the raw and the
decoded stream both equal the first `n` bytes and exactly those bytes have
left the socket; when the stream ends before `n` bytes the read fails. -/
theorem readContentLengthResponse_exact (words : List Str) (bufSize : Nat) (hbuf : 0 < bufSize)
    (s : Sock) (n : Nat) (hfree : ∀ w ∈ words, ¬ w <:+: s.bytes) :
    ((readContentLengthResponse words bufSize s n).status = .ok ↔ n ≤ s.bytes.length)
    ∧ (n ≤ s.bytes.length →
        ∃ s1, readContentLengthResponse words bufSize s n
            = ⟨.ok, s.bytes.take n, s.bytes.take n, s1⟩ ∧ s1.bytes = s.bytes.drop n)
    ∧ (s.bytes.length < n → (readContentLengthResponse words bufSize s n).status = .failed) := by
  have hfree1 := containsForbidden_false_of_free s.bytes words hfree
  have hok : n ≤ s.bytes.length →
      ∃ s1, readContentLengthResponse words bufSize s n
          = ⟨.ok, s.bytes.take n, s.bytes.take n, s1⟩ ∧ s1.bytes = s.bytes.drop n := by
    intro hle
    have hlen : (s.bytes.take n).length = n := by rw [List.length_take]; omega
    have hspec := readContentLengthResponse_spec words bufSize hbuf s (s.bytes.take n)
      (s.bytes.drop n) (List.take_append_drop n s.bytes).symm
    rw [hlen] at hspec
    rcases hspec with ⟨_, hforb⟩ | ⟨s1, h1, hb1, _⟩
    · have hno : containsForbidden (s.bytes.take n) words = false :=
        containsForbidden_false_left _ (s.bytes.drop n) words
          (by rw [List.take_append_drop]; exact hfree1)
      rw [hno] at hforb
      exact absurd hforb (by decide)
    · exact ⟨s1, h1, hb1⟩
  have hfail : s.bytes.length < n →
      (readContentLengthResponse words bufSize s n).status = .failed :=
    fun hlt => readContentLengthResponse_short words bufSize hbuf s n hlt hfree1
  refine ⟨⟨?_, ?_⟩, hok, hfail⟩
  · intro hstat
    by_contra hnot
    rw [hfail (by omega)] at hstat
    exact absurd hstat (by decide)
  · intro hle
    obtain ⟨s1, h1, _⟩ := hok hle
    rw [h1]

/-- Witness for C15: the policy word `badword` does not occur in the stream
`hello world`; five bytes are read off it, and twelve are not there. -/
theorem readContentLengthResponse_exact_witness :
    (∃ s1, readContentLengthResponse ["badword".toList] 4 ⟨["hel".toList, "lo world".toList], false⟩ 5
        = ⟨.ok, "hello".toList, "hello".toList, s1⟩ ∧ s1.bytes = " world".toList)
    ∧ (readContentLengthResponse ["badword".toList] 4
        ⟨["hel".toList, "lo world".toList], false⟩ 12).status = .failed :=
  have h := readContentLengthResponse_exact ["badword".toList] 4 (by decide)
    ⟨["hel".toList, "lo world".toList], false⟩
  have hfree : ∀ w ∈ ["badword".toList],
      ¬ w <:+: (⟨["hel".toList, "lo world".toList], false⟩ : Sock).bytes := by
    intro w hw
    rw [← find_isSome_iff]
    simp only [List.mem_singleton] at hw
    subst hw
    decide
  ⟨(h 5 hfree).2.1 (by decide), (h 12 hfree).2.2 (by decide)⟩

/-! ### Target resolution -/

theorem findChar_none_iff (s : Str) (c : Char) : findChar s c = none ↔ c ∉ s := by
  induction s with
  | nil => simp [findChar]
  | cons x xs ih =>
    rw [findChar]
    by_cases h : x = c
    · simp [h]
    · rw [if_neg h]
      have hne : c ≠ x := fun e => h e.symm
      simp [ih, hne]

theorem findChar_some (s : Str) (c : Char) : ∀ i, findChar s c = some i →
    s.take i = s.takeWhile (· != c) ∧ s.drop i = s.dropWhile (· != c) ∧ c ∈ s := by
  induction s with
  | nil => intro i h; simp [findChar] at h
  | cons x xs ih =>
    intro i h
    rw [findChar] at h
    by_cases hx : x = c
    · rw [if_pos hx] at h
      simp only [Option.some.injEq] at h
      subst h
      subst hx
      simp [List.takeWhile, List.dropWhile]
    · rw [if_neg hx] at h
      cases hrec : findChar xs c with
      | none => rw [hrec] at h; simp at h
      | some j =>
        rw [hrec] at h
        simp only [Option.map_some', Option.some.injEq] at h
        subst h
        obtain ⟨h1, h2, h3⟩ := ih j hrec
        have hb : (x != c) = true := by simpa using hx
        refine ⟨?_, ?_, List.mem_cons_of_mem _ h3⟩
        · rw [List.take_succ_cons, h1, List.takeWhile_cons, hb]; rfl
        · rw [List.drop_succ_cons, h2, List.dropWhile_cons, hb]; rfl

theorem takeWhile_of_not_mem (s : Str) (c : Char) (h : c ∉ s) :
    s.takeWhile (· != c) = s := by
  rw [List.takeWhile_eq_self_iff]
  intro x hx
  have : x ≠ c := fun e => h (e ▸ hx)
  simpa using this

theorem splitHostPort_spec (authority defaultPort : Str) :
    splitHostPort authority defaultPort = specHostPort authority defaultPort := by
  unfold splitHostPort specHostPort
  cases h : findChar authority ':' with
  | none =>
    have hn := (findChar_none_iff authority ':').mp h
    simp only [takeWhile_of_not_mem authority ':' hn, if_neg hn]
  | some col =>
    obtain ⟨h1, h2, h3⟩ := findChar_some authority ':' col h
    simp only [substr, substrFrom, List.drop_zero, h1, if_pos h3]
    rw [← h2, List.drop_drop, Nat.add_comm]

/-- The absolute-URI branch of `determineHostPortAndPath` on a target made of
a scheme mark of `k` bytes and the text `rest` after it. -/
theorem determineHostPortAndPath_after_scheme (requestLine headers M U V rest : Str) (k : Nat)
    (secure : Bool)
    (hreq : parseRequestLine requestLine = some (M, U, V))
    (hstart : (startsWith U "http://".toList = true ∨ startsWith U "https://".toList = true))
    (hsec : startsWith U "https://".toList = secure)
    (hfind : find U "://".toList = some k) (hrest : U.drop (k + 3) = rest) :
    determineHostPortAndPath requestLine headers
      = some ((specHostPort (rest.takeWhile (· != '/'))
                (if secure then "443".toList else "80".toList)).1,
              (specHostPort (rest.takeWhile (· != '/'))
                (if secure then "443".toList else "80".toList)).2,
              if '/' ∈ rest then rest.dropWhile (· != '/') else "/".toList) := by
  unfold determineHostPortAndPath
  rw [hreq]
  dsimp only
  rw [if_pos hstart, hfind]
  dsimp only
  rw [hsec, splitHostPort_spec]
  unfold findCharFrom
  rw [hrest]
  cases h : findChar rest '/' with
  | none =>
    have hn := (findChar_none_iff rest '/').mp h
    simp only [Option.map_none', substrFrom, hrest, takeWhile_of_not_mem rest '/' hn, if_neg hn]
  | some i =>
    obtain ⟨h1, h2, h3⟩ := findChar_some rest '/' i h
    simp only [Option.map_some', substr, substrFrom, hrest, Nat.add_sub_cancel_left, h1,
      if_pos h3, ← List.drop_drop, h2]

/-- C16: for every request line whose three tokens are `M U V` with `U` the
mark `http://` or `https://` followed by `rest`, `determineHostPortAndPath`
succeeds; the authority is `rest` up to its first `/`, the path is `rest`
from that `/` on, or `/` when there is none, the host is the authority up to
its first `:`, and the port is what follows that `:`, or else `443` for
https and `80` for http. -/
theorem determineHostPortAndPath_absolute_uri (requestLine headers M V rest : Str)
    (secure : Bool)
    (hreq : parseRequestLine requestLine
      = some (M, (if secure then "https://".toList else "http://".toList) ++ rest, V)) :
    determineHostPortAndPath requestLine headers
      = some ((rest.takeWhile (· != '/')).takeWhile (· != ':'),
              (if ':' ∈ rest.takeWhile (· != '/')
                then ((rest.takeWhile (· != '/')).dropWhile (· != ':')).drop 1
                else if secure then "443".toList else "80".toList),
              if '/' ∈ rest then rest.dropWhile (· != '/') else "/".toList) := by
  cases secure with
  | false =>
    exact determineHostPortAndPath_after_scheme requestLine headers M _ V rest 4 false hreq
      (Or.inl (by simp [startsWith, List.isPrefixOf])) (by simp [startsWith, List.isPrefixOf])
      (by simp [find]) (by simp)
  | true =>
    exact determineHostPortAndPath_after_scheme requestLine headers M _ V rest 5 true hreq
      (Or.inr (by simp [startsWith, List.isPrefixOf])) (by simp [startsWith, List.isPrefixOf])
      (by simp [find]) (by simp)

/-- Witness for C16: a target with a port and a path, over http. -/
theorem determineHostPortAndPath_absolute_uri_witness :
    determineHostPortAndPath "GET http://example.com:8080/a/b HTTP/1.1".toList []
      = some ("example.com".toList, "8080".toList, "/a/b".toList) :=
  (determineHostPortAndPath_absolute_uri "GET http://example.com:8080/a/b HTTP/1.1".toList []
    "GET".toList "HTTP/1.1".toList "example.com:8080/a/b".toList false (by decide)).trans
    (by decide)

/-! ### Header blocks as lists of lines -/

theorem getlinesFrom_line (l rest : Str) (hl : ∀ c ∈ l, c ≠ '\n') : ∀ cur : Str,
    getlinesFrom cur (l ++ '\n' :: rest) = (cur ++ l) :: getlinesFrom [] rest := by
  induction l with
  | nil => intro cur; simp [getlinesFrom]
  | cons c cs ih =>
    intro cur
    have hc : c ≠ '\n' := hl c (List.mem_cons_self _ _)
    rw [List.cons_append, getlinesFrom, if_neg hc,
      ih (fun x hx => hl x (List.mem_cons_of_mem _ hx))]
    simp

/-- What `std::getline` yields on a block of CRLF-ended lines closed by an
empty line: every line with its CR, and the lone CR of the empty line. -/
theorem getlines_encodeLines (lines : List Str) (hl : ∀ l ∈ lines, ∀ c ∈ l, c ≠ '\r' ∧ c ≠ '\n') :
    getlines (encodeLines lines ++ CRLF) = lines.map (· ++ ['\r']) ++ [['\r']] := by
  unfold getlines
  induction lines with
  | nil => simp [encodeLines, CRLF, getlinesFrom]
  | cons l ls ih =>
    have hstep : encodeLines (l :: ls) ++ CRLF
        = (l ++ ['\r']) ++ '\n' :: (encodeLines ls ++ CRLF) := by
      simp [encodeLines, CRLF]
    rw [hstep, getlinesFrom_line _ _ ?_ [], ih (fun x hx => hl x (List.mem_cons_of_mem _ hx))]
    · simp
    · intro c hc
      rcases List.mem_append.mp hc with h | h
      · exact (hl l (List.mem_cons_self _ _) c h).2
      · simp only [List.mem_singleton] at h
        subst h
        decide

theorem tolower_eq_h (c : Char) (h : tolower c = 'h') : c = 'H' ∨ c = 'h' := by
  unfold tolower at h
  by_cases hr : 65 ≤ c.toNat ∧ c.toNat ≤ 90
  · rw [if_pos hr] at h
    left
    have hc : c = Char.ofNat c.toNat := (Char.ofNat_toNat c).symm
    generalize c.toNat = n at hr h hc
    obtain ⟨h1, h2⟩ := hr
    subst hc
    interval_cases n <;> first | rfl | (exact absurd h (by decide))
  · rw [if_neg hr] at h
    exact Or.inr h

/-- The test of lines 296-300 on a line that still carries its CR is the
test "starts with `host:` in any letter case" on the line without it. -/
theorem hostLine_test (l : Str) :
    ((l ++ ['\r']).length > 5 ∧ ((l ++ ['\r']).head? = some 'H' ∨ (l ++ ['\r']).head? = some 'h')
        ∧ startsWith (toLowerCopy (l ++ ['\r'])) "host:".toList = true)
      ↔ startsWith (toLowerCopy l) "host:".toList = true := by
  rcases l with _ | ⟨c0, _ | ⟨c1, _ | ⟨c2, _ | ⟨c3, _ | ⟨c4, t⟩⟩⟩⟩⟩
  · simp [startsWith, toLowerCopy, List.isPrefixOf]
  · simp [startsWith, toLowerCopy, List.isPrefixOf]
  · simp [startsWith, toLowerCopy, List.isPrefixOf]
  · simp [startsWith, toLowerCopy, List.isPrefixOf]
  · simp [startsWith, toLowerCopy, List.isPrefixOf]
  · simp only [startsWith, toLowerCopy, List.cons_append, List.map_cons, List.length_cons,
      List.head?_cons, Option.some.injEq]
    have hpre : ∀ x : Str, "host:".toList.isPrefixOf
        (tolower c0 :: tolower c1 :: tolower c2 :: tolower c3 :: tolower c4 :: x) = true
        ↔ (tolower c0 = 'h' ∧ tolower c1 = 'o' ∧ tolower c2 = 's' ∧ tolower c3 = 't'
            ∧ tolower c4 = ':') := by
      intro x
      show (['h', 'o', 's', 't', ':'] : Str).isPrefixOf _ = true ↔ _
      simp only [List.isPrefixOf, Bool.and_eq_true, beq_iff_eq, and_true]
      constructor
      · rintro ⟨a, b, c, d, e⟩; exact ⟨a.symm, b.symm, c.symm, d.symm, e.symm⟩
      · rintro ⟨a, b, c, d, e⟩; exact ⟨a.symm, b.symm, c.symm, d.symm, e.symm⟩
    rw [hpre, hpre]
    constructor
    · intro h; exact h.2.2
    · intro h
      exact ⟨by simp, tolower_eq_h c0 h.1, h⟩

theorem hostHeaderLoop_lines (lines : List Str) :
    hostHeaderLoop (lines.map (· ++ ['\r']) ++ [['\r']])
      = ((lines.find? (fun l => startsWith (toLowerCopy l) "host:".toList)).map
          (fun l => l.drop 5 ++ ['\r'])).getD [] := by
  induction lines with
  | nil => simp [hostHeaderLoop]
  | cons l ls ih =>
    rw [List.map_cons, List.cons_append, hostHeaderLoop, List.find?_cons]
    by_cases h : startsWith (toLowerCopy l) "host:".toList = true
    · rw [if_pos ((hostLine_test l).mpr h), h]
      have hlen : 5 ≤ l.length := by
        have hp : "host:".toList <+: toLowerCopy l := List.isPrefixOf_iff_prefix.mp h
        have := hp.length_le
        simpa [toLowerCopy] using this
      simp only [substrFrom, Option.map_some', Option.getD_some]
      rw [List.drop_append_of_le_length hlen]
    · rw [if_neg (fun hc => h ((hostLine_test l).mp hc)), ih]
      simp only [Bool.not_eq_true] at h
      rw [h]

theorem dropWhile_agree (p q : Char → Bool) (l : Str) (h : ∀ x ∈ l, p x = q x) :
    l.dropWhile p = l.dropWhile q := by
  induction l with
  | nil => rfl
  | cons c cs ih =>
    rw [List.dropWhile_cons, List.dropWhile_cons, h c (List.mem_cons_self _ _),
      ih (fun x hx => h x (List.mem_cons_of_mem _ hx))]

/-- The `trim` lambda on a value that still carries the CR of its line. -/
theorem trimLambda_value (v : Str) (hv : ∀ c ∈ v, c ≠ '\r' ∧ c ≠ '\n') :
    trimLambda (v ++ ['\r']) = specTrim " \t".toList v := by
  have hsub : ∀ c, [' ', '\t'].contains c = true → [' ', '\t', '\r', '\n'].contains c = true := by
    intro c hc
    simp only [List.contains_eq_any_beq, List.any_cons, List.any_nil, Bool.or_false,
      Bool.or_eq_true, beq_iff_eq] at hc ⊢
    rcases hc with e | e
    · exact Or.inl e
    · exact Or.inr (Or.inl e)
  have hr : (v ++ ['\r']).rdropWhile [' ', '\t', '\r', '\n'].contains
      = v.rdropWhile [' ', '\t'].contains := by
    rw [List.rdropWhile_concat_pos _ _ _ (by decide)]
    unfold List.rdropWhile
    congr 1
    apply dropWhile_agree
    intro x hx
    have hx1 := hv x (List.mem_reverse.mp hx)
    simp [hx1.1, hx1.2]
  unfold trimLambda
  rw [trimWith_eq _ _ _ hsub, hr]
  unfold specTrim
  by_cases he : v.rdropWhile [' ', '\t'].contains = []
  · rw [if_pos he]
    show [] = List.dropWhile _ (List.rdropWhile _ v)
    have : List.rdropWhile (" \t".toList).contains v = [] := he
    rw [this]
    rfl
  · rw [if_neg he]
    rfl

/-- C17: for every request line whose three tokens are `M U V` with `U` not
starting with `http://` or `https://`, and every header block of CRLF-ended
lines closed by an empty line, `determineHostPortAndPath` takes the first line
that starts with `host:` in any letter case and trims the text after the
colon; it fails when there is no such line or nothing is left of the value,
and else returns the value up to its first `:` as host, what follows that `:`
or else `80` as port, and `U` itself as path. -/
theorem determineHostPortAndPath_origin_form (requestLine M U V : Str) (lines : List Str)
    (hreq : parseRequestLine requestLine = some (M, U, V))
    (hform : startsWith U "http://".toList = false ∧ startsWith U "https://".toList = false)
    (hl : ∀ l ∈ lines, ∀ c ∈ l, c ≠ '\r' ∧ c ≠ '\n') :
    determineHostPortAndPath requestLine (encodeLines lines ++ CRLF)
      = match specHostValue lines with
        | none => none
        | some v =>
          if v = [] then none
          else some (v.takeWhile (· != ':'),
            (if ':' ∈ v then (v.dropWhile (· != ':')).drop 1 else "80".toList), U) := by
  unfold determineHostPortAndPath
  rw [hreq]
  dsimp only
  rw [if_neg (by rw [hform.1, hform.2]; decide), getlines_encodeLines lines hl, hostHeaderLoop_lines,
    splitHostPort_spec]
  unfold specHostValue
  cases hf : lines.find? (fun l => startsWith (toLowerCopy l) "host:".toList) with
  | none =>
    simp only [Option.map_none', Option.getD_none]
    rfl
  | some l =>
    have hmem : l ∈ lines := List.mem_of_find?_eq_some hf
    have hv : ∀ c ∈ l.drop 5, c ≠ '\r' ∧ c ≠ '\n' :=
      fun c hc => hl l hmem c (List.mem_of_mem_drop hc)
    simp only [Option.map_some', Option.getD_some, trimLambda_value _ hv]
    by_cases he : specTrim " \t".toList (l.drop 5) = []
    · rw [if_pos he, if_pos (by rw [he]; rfl)]
    · rw [if_neg he, if_neg (by simpa [List.isEmpty_iff] using he)]
      rfl

/-- Witness for C17: the second line is the first `Host` line; its value has
a port. -/
theorem determineHostPortAndPath_origin_form_witness :
    determineHostPortAndPath "GET /a?b HTTP/1.1".toList
        (encodeLines ["Accept: */*".toList, "hOsT: \texample.com:81 ".toList,
          "Host: other".toList] ++ CRLF)
      = some ("example.com".toList, "81".toList, "/a?b".toList) :=
  (determineHostPortAndPath_origin_form "GET /a?b HTTP/1.1".toList "GET".toList "/a?b".toList
    "HTTP/1.1".toList ["Accept: */*".toList, "hOsT: \texample.com:81 ".toList,
      "Host: other".toList] (by decide) (by decide) (by decide)).trans (by decide)

/-! ### The request sent upstream -/

theorem stripCR_line (l : Str) : stripCR (l ++ ['\r']) = l := by
  unfold stripCR
  simp

theorem find_first_not_of_some (l set : Str) (h : ∃ c ∈ l, set.contains c = false) :
    ∃ i, find_first_not_of l set = some i := by
  induction l with
  | nil => obtain ⟨c, hc, _⟩ := h; simp at hc
  | cons x xs ih =>
    rw [find_first_not_of]
    by_cases hx : set.contains x = true
    · rw [if_pos hx]
      obtain ⟨c, hc, hcs⟩ := h
      rcases List.mem_cons.mp hc with e | e
      · subst e; rw [hx] at hcs; exact absurd hcs (by decide)
      · obtain ⟨i, hi⟩ := ih ⟨c, e, hcs⟩
        exact ⟨i + 1, by rw [hi]; rfl⟩
    · rw [if_neg hx]
      exact ⟨0, rfl⟩

theorem forwardHeaderLines_lines (lines : List Str)
    (hl : ∀ l ∈ lines, ∃ c ∈ l, c ≠ ' ' ∧ c ≠ '\t') : ∀ (outReq : Str) (hasHost : Bool),
    forwardHeaderLines (lines.map (· ++ ['\r']) ++ [['\r']]) outReq hasHost
      = (outReq ++ encodeLines (lines.filterMap specRewriteLine),
          hasHost || specHasHost lines) := by
  induction lines with
  | nil =>
    intro outReq hasHost
    simp [forwardHeaderLines, stripCR, find_first_not_of, encodeLines, specHasHost]
  | cons l ls ih =>
    intro outReq hasHost
    have hne : ∃ i, find_first_not_of l [' ', '\t'] = some i := by
      obtain ⟨c, hc, h1, h2⟩ := hl l (List.mem_cons_self _ _)
      exact find_first_not_of_some l _ ⟨c, hc, by simp [h1, h2]⟩
    obtain ⟨i, hi⟩ := hne
    have ihs := ih (fun x hx => hl x (List.mem_cons_of_mem _ hx))
    rw [List.map_cons, List.cons_append, forwardHeaderLines]
    simp only [stripCR_line, hi]
    have hany : specHasHost (l :: ls)
        = (decide (specHeaderName l = "host".toList) || specHasHost ls) := by
      simp [specHasHost]
    have hgoal : ∀ key : Str, key = specHeaderName l →
        (if key = "proxy-connection".toList then
            forwardHeaderLines (ls.map (· ++ ['\r']) ++ [['\r']]) outReq hasHost
          else if key = "connection".toList then
            forwardHeaderLines (ls.map (· ++ ['\r']) ++ [['\r']])
              (outReq ++ "Connection: close\r\n".toList) hasHost
          else
            forwardHeaderLines (ls.map (· ++ ['\r']) ++ [['\r']]) (outReq ++ l ++ CRLF)
              (hasHost || decide (key = "host".toList)))
          = (outReq ++ encodeLines ((l :: ls).filterMap specRewriteLine),
              hasHost || specHasHost (l :: ls)) := by
      intro key hk
      subst hk
      by_cases hp : specHeaderName l = "proxy-connection".toList
      · have hh : ¬ specHeaderName l = "host".toList := by rw [hp]; decide
        have hrw : specRewriteLine l = none := by unfold specRewriteLine; rw [if_pos hp]
        rw [if_pos hp, ihs, hany, List.filterMap_cons, hrw, decide_eq_false hh]
        simp
      · rw [if_neg hp]
        by_cases hc : specHeaderName l = "connection".toList
        · have hh : ¬ specHeaderName l = "host".toList := by rw [hc]; decide
          have hrw : specRewriteLine l = some "Connection: close".toList := by
            unfold specRewriteLine; rw [if_neg hp, if_pos hc]
          rw [if_pos hc, ihs, hany, List.filterMap_cons, hrw, decide_eq_false hh]
          simp [encodeLines, CRLF]
        · have hrw : specRewriteLine l = some l := by
            unfold specRewriteLine; rw [if_neg hp, if_neg hc]
          rw [if_neg hc, ihs, hany, List.filterMap_cons, hrw]
          simp [encodeLines, Bool.or_assoc]
    cases hfc : findChar l ':' with
    | none =>
      exact hgoal _ (by
        unfold specHeaderName
        rw [takeWhile_of_not_mem l ':' ((findChar_none_iff l ':').mp hfc)])
    | some j =>
      exact hgoal _ (by
        unfold specHeaderName
        obtain ⟨h1, _, _⟩ := findChar_some l ':' j hfc
        simp only [substr, List.drop_zero, h1])

/-- C11: for every client header block of CRLF-ended lines closed by an empty
line, none of the lines made of spaces and tabs only, the request sent
upstream is the request line, then the client lines in their order with each
`Proxy-Connection` line left out, each `Connection` line replaced by
`Connection: close` and every other line as it was, then the line
`Host: ` with the resolved host exactly when no client line is a `Host` line,
then the empty line. -/
theorem buildUpstreamRequest_rewrites_headers (method path version host : Str)
    (lines : List Str)
    (hl : ∀ l ∈ lines, (∀ c ∈ l, c ≠ '\r' ∧ c ≠ '\n') ∧ ∃ c ∈ l, c ≠ ' ' ∧ c ≠ '\t') :
    buildUpstreamRequest method path version (encodeLines lines ++ CRLF) host
      = method ++ " ".toList ++ path ++ " ".toList ++ version ++ CRLF
        ++ encodeLines (lines.filterMap specRewriteLine)
        ++ (if specHasHost lines then [] else "Host: ".toList ++ host ++ CRLF)
        ++ CRLF := by
  unfold buildUpstreamRequest
  rw [getlines_encodeLines lines (fun l h => (hl l h).1),
    forwardHeaderLines_lines lines (fun l h => (hl l h).2)]
  simp only [Bool.false_or]
  cases specHasHost lines <;> simp [List.append_assoc]

/-- Witness for C11: a block with a `Proxy-Connection` line, a `Connection`
line and no `Host` line. -/
theorem buildUpstreamRequest_rewrites_headers_witness :
    buildUpstreamRequest "GET".toList "/x".toList "HTTP/1.1".toList
        (encodeLines ["Accept: */*".toList, "Proxy-Connection: keep-alive".toList,
          "CONNECTION: keep-alive".toList, "X-A: 1".toList] ++ CRLF) "example.com".toList
      = ("GET /x HTTP/1.1\r\nAccept: */*\r\nConnection: close\r\nX-A: 1\r\n"
          ++ "Host: example.com\r\n\r\n").toList :=
  (buildUpstreamRequest_rewrites_headers "GET".toList "/x".toList "HTTP/1.1".toList
    "example.com".toList ["Accept: */*".toList, "Proxy-Connection: keep-alive".toList,
      "CONNECTION: keep-alive".toList, "X-A: 1".toList] (by decide)).trans (by decide)

/-! ### Block pages -/

/-- Every page of `sendErrorHtml` carries `Connection: close` and a
`Content-Length` with the length of the body that ends the page. -/
theorem sendErrorHtml_has_close_and_length (code reason bodytext : Str) :
    ∃ head body, sendErrorHtml code reason bodytext
      = head ++ "Connection: close\r\n".toList ++ "Content-Length: ".toList
          ++ decimal body.length ++ CRLF ++ CRLF ++ body :=
  ⟨_, _, rfl⟩

/-- C12 (code bug): when the body reader meets the stored word in a response,
the client receives the answer of `send503`, which holds neither
`Connection: close` nor a `Content-Length` line in any letter case. -/
theorem reader_503_has_no_close_and_no_length :
    clientOutput (client_thread demoPolicy (demoEnv storedWordResponse false) demoGet) = send503
    ∧ find (toLowerCopy send503) "connection".toList = none
    ∧ find (toLowerCopy send503) "content-length".toList = none := by
  decide

/-! ### Where the body readers stop -/

/-- C14 (code bug): the first bytes of each stream spell the forbidden word
in capitals, which the lowercasing test of the policy finds; each of the
three readers still reads on to the end of the body and reports success. -/
theorem readers_read_past_a_capitals_hit :
    containsForbidden (toLowerCopy "BADWORD".toList) demoPolicy.forbiddenWords = true
    ∧ ((readChunkedResponse demoPolicy.forbiddenWords capitalsChunked).status = .ok
        ∧ (readChunkedResponse demoPolicy.forbiddenWords capitalsChunked).decoded
            = "BADWORDmore".toList
        ∧ (readChunkedResponse demoPolicy.forbiddenWords capitalsChunked).sock.bytes = [])
    ∧ ((readContentLengthResponse demoPolicy.forbiddenWords 7 capitalsPlain 11).status = .ok
        ∧ (readContentLengthResponse demoPolicy.forbiddenWords 7 capitalsPlain 11).decoded
            = "BADWORDmore".toList
        ∧ (readContentLengthResponse demoPolicy.forbiddenWords 7 capitalsPlain 11).sock.bytes = [])
    ∧ ((readUntilCloseResponse demoPolicy.forbiddenWords 7 capitalsPlain).status = .ok
        ∧ (readUntilCloseResponse demoPolicy.forbiddenWords 7 capitalsPlain).decoded
            = "BADWORDmore".toList
        ∧ (readUntilCloseResponse demoPolicy.forbiddenWords 7 capitalsPlain).sock.bytes = []) := by
  decide

/-- The same streams with the word as stored: every reader stops at the hit
and leaves the rest of the body on the socket. -/
theorem readers_stop_at_a_stored_word :
    ((readChunkedResponse demoPolicy.forbiddenWords
          ⟨["7\r\nbadword\r\n4\r\nmore\r\n0\r\n\r\n".toList], false⟩).status = .blocked
      ∧ (readChunkedResponse demoPolicy.forbiddenWords
          ⟨["7\r\nbadword\r\n4\r\nmore\r\n0\r\n\r\n".toList], false⟩).sock.bytes
          = "\r\n4\r\nmore\r\n0\r\n\r\n".toList)
    ∧ ((readContentLengthResponse demoPolicy.forbiddenWords 7
          ⟨["badword".toList, "more".toList], false⟩ 11).status = .blocked
      ∧ (readContentLengthResponse demoPolicy.forbiddenWords 7
          ⟨["badword".toList, "more".toList], false⟩ 11).sock.bytes = "more".toList)
    ∧ ((readUntilCloseResponse demoPolicy.forbiddenWords 7
          ⟨["badword".toList, "more".toList], false⟩).status = .blocked
      ∧ (readUntilCloseResponse demoPolicy.forbiddenWords 7
          ⟨["badword".toList, "more".toList], false⟩).sock.bytes = "more".toList) := by
  decide

/-! ### The tunnel relay -/

/-- C21 (as amended): for every `n` and every stream, `recvExact` returns `n`
and the first `n` bytes when the stream holds that many; when the stream ends
before, it returns `-1` if the end is a read error and else the number of
bytes that did arrive, with those bytes: the short count is the report. -/
theorem recvExact_delivers_or_counts (s : Sock) (n : Nat) :
    ∃ s1, recvExact s n
        = ((if n ≤ s.bytes.length then (n : Int)
            else if s.fails then (-1 : Int) else (s.bytes.length : Int)),
          s.bytes.take n, s1)
      ∧ s1.bytes = s.bytes.drop n := by
  obtain ⟨s1, h1, hb1, _⟩ := recvExact_general s n
  exact ⟨s1, h1, hb1⟩

/-- Counterexample to C21 as stated: the peer closes after two of five bytes;
`recvExact` returns the count 2 with those two bytes, a short read and not the
failure value `-1`, which it keeps for a read error. -/
theorem recvExact_short_read_on_close :
    (recvExact ⟨["ab".toList], false⟩ 5).1 = 2
    ∧ (recvExact ⟨["ab".toList], false⟩ 5).2.1 = "ab".toList
    ∧ (recvExact ⟨["ab".toList], true⟩ 5).1 = -1 := by
  decide

/-! ### Empty entries -/

theorem containsForbidden_of_empty_entry (body : Str) (words : List Str) (h : [] ∈ words) :
    containsForbidden body words = true :=
  (containsForbidden_iff body words).mpr ⟨[], h, List.nil_infix⟩

/-- Counterexample to C25 as stated: a list made of one empty entry matches
the text `hello` and the empty text. -/
theorem empty_entry_matches_everything :
    containsForbidden "hello".toList [[]] = true
    ∧ containsForbidden [] [[]] = true := by
  decide

/-! ### The raw stream of a chunked body -/

/-- C27 (code bug): `readChunkedResponse` succeeds on a chunked body with bare
LF line ends and on one whose chunk data is followed by `XY`; it consumes the
whole stream, and the raw stream it produced differs from the bytes consumed:
every line end has become CRLF and `XY` has become CRLF. -/
theorem raw_stream_differs_from_consumed_bytes :
    ((readChunkedResponse [] lfChunked).status = .ok
      ∧ (readChunkedResponse [] lfChunked).sock.bytes = []
      ∧ (readChunkedResponse [] lfChunked).raw = "2\r\nhi\r\n0\r\n\r\n".toList
      ∧ (readChunkedResponse [] lfChunked).raw ≠ lfChunked.bytes)
    ∧ ((readChunkedResponse [] oddChunked).status = .ok
      ∧ (readChunkedResponse [] oddChunked).sock.bytes = []
      ∧ (readChunkedResponse [] oddChunked).raw = "2\r\nhi\r\n0\r\nT: v\r\n\r\n".toList
      ∧ (readChunkedResponse [] oddChunked).raw ≠ oddChunked.bytes) := by
  decide

/-! ### A read error in until-close mode -/

/-- On a stream that ends in a read error and holds no stored word,
`readUntilCloseResponse` returns success with every byte that arrived; the
`recv` that ended its loop is the one that fails. -/
theorem readUntilCloseResponse_error (words : List Str) (bufSize : Nat) (hbuf : 0 < bufSize)
    (s : Sock) (hfail : s.fails = true) (hclean : ∀ w ∈ words, ¬ w <:+: s.bytes) :
    ∃ s1, readUntilCloseResponse words bufSize s = ⟨.ok, s.bytes, s.bytes, s1⟩
      ∧ recv s1 bufSize = .error := by
  rcases readUntilCloseResponse_spec words bufSize hbuf s with ⟨_, hforb⟩ | ⟨s1, h1, hb1, hf1⟩
  · obtain ⟨w, hw, hin⟩ := (containsForbidden_iff _ _).mp hforb
    exact absurd hin (hclean w hw)
  · refine ⟨s1, h1, ?_⟩
    have hspec := recv_spec s1 bufSize hbuf
    cases hr : recv s1 bufSize with
    | data d s2 =>
      rw [hr] at hspec
      rw [hb1] at hspec
      have hd := hspec.2.2.1
      have : d = [] := by
        cases d with
        | nil => rfl
        | cons x xs => simp at hd
      exact absurd this hspec.1
    | error => rfl
    | closed =>
      rw [hr] at hspec
      rw [hf1, hfail] at hspec
      exact absurd hspec.2 (by decide)

/-- C28 (code bug): the upstream sends a response without length and the
connection fails after nine bytes of body; the read that ends the body is the
failing one, the reader reports success, and the session writes the whole
partial response to the client. -/
theorem until_close_error_response_is_written :
    (∃ s1, readUntilCloseResponse demoPolicy.forbiddenWords 65536
        ⟨["half a pa".toList], true⟩ = ⟨.ok, "half a pa".toList, "half a pa".toList, s1⟩
      ∧ recv s1 65536 = .error)
    ∧ clientOutput (client_thread demoPolicy (demoEnv resetResponse true) demoGet)
        = resetResponse :=
  ⟨readUntilCloseResponse_error demoPolicy.forbiddenWords 65536 (by decide)
      ⟨["half a pa".toList], true⟩ rfl (by
        intro w hw
        rw [← find_isSome_iff]
        simp only [demoPolicy, List.mem_singleton] at hw
        subst hw
        decide),
    by decide⟩

/-! ### The status line -/

/-- C23 (as amended): the status line is never split into tokens; whatever it
holds (no CR or LF inside, fewer than 8192 bytes), a response with CRLF line
ends, a head within the limits, a complete body and no forbidden word in its
decoded body is written to the client with that status line in front. -/
theorem any_status_line_is_forwarded (pol : Policy) (env : Env)
    (clientSock serverSock : Sock) (acts : List Action)
    (statusLine : Str) (headerLines : List Str) (body decoded rest : Str)
    (hreq : requestPhase pol env clientSock = (acts, some serverSock))
    (hbuf : 0 < env.bufSize)
    (hsend : env.sendFails .client (statusLine ++ CRLF ++ (encodeLines headerLines ++ CRLF))
      = false)
    (hstatus : (∀ c ∈ statusLine, c ≠ '\r' ∧ c ≠ '\n') ∧ statusLine.length < 8192)
    (hlines : ∀ l ∈ headerLines, l ≠ [] ∧ (∀ c ∈ l, c ≠ '\r' ∧ c ≠ '\n') ∧ l.length < 8192)
    (hsize : (encodeLines headerLines).length ≤ 64 * 1024)
    (hbytes : serverSock.bytes
      = statusLine ++ CRLF ++ (encodeLines headerLines ++ CRLF ++ (body ++ rest)))
    (hbody : (∃ b : ChunkedBody,
          (determineFraming (encodeLines headerLines ++ CRLF)).isChunked = true
          ∧ b.wellFormed ∧ body = b.encode ∧ decoded = b.decoded)
        ∨ ((determineFraming (encodeLines headerLines ++ CRLF)).isChunked = false
          ∧ (determineFraming (encodeLines headerLines ++ CRLF)).hasContentLength = true
          ∧ (determineFraming (encodeLines headerLines ++ CRLF)).contentLength = body.length
          ∧ decoded = body)
        ∨ ((determineFraming (encodeLines headerLines ++ CRLF)).isChunked = false
          ∧ (determineFraming (encodeLines headerLines ++ CRLF)).hasContentLength = false
          ∧ rest = [] ∧ decoded = body))
    (hclean : containsForbidden decoded pol.forbiddenWords = false
      ∧ containsForbidden (toLowerCopy decoded) pol.forbiddenWords = false) :
    clientOutput (client_thread pol env clientSock)
      = statusLine ++ CRLF ++ (encodeLines headerLines ++ CRLF) ++ body :=
  clean_crlf_response_forwarded pol env clientSock serverSock acts statusLine headerLines body
    decoded rest hreq hbuf hsend hstatus hlines hsize hbytes hbody hclean

/-- Witness for C23 as amended: the status line is the single token `junk`. -/
theorem any_status_line_is_forwarded_witness :
    clientOutput (client_thread demoPolicy (demoEnv junkStatusResponse false) demoGet)
      = "junk".toList ++ CRLF ++ (encodeLines ["Content-Length: 2".toList] ++ CRLF)
        ++ "hi".toList :=
  any_status_line_is_forwarded demoPolicy (demoEnv junkStatusResponse false) demoGet
    ⟨[junkStatusResponse], false⟩
    [.connect "ok.example".toList "80".toList,
      .send .server "GET /x HTTP/1.1\r\nHost: ok.example\r\n\r\n".toList]
    "junk".toList ["Content-Length: 2".toList] "hi".toList "hi".toList []
    (by decide) (by decide) (by decide) (by decide) (by decide) (by decide) (by decide)
    (Or.inr (Or.inl ⟨by decide, by decide, by decide, rfl⟩)) (by decide)

/-- Counterexample to C23 as stated: the status line `junk` has one token,
yet the response is read and written to the client as it came. -/
theorem one_token_status_line_is_forwarded :
    (tokensFrom [] "junk".toList).length = 1
    ∧ clientOutput (client_thread demoPolicy (demoEnv junkStatusResponse false) demoGet)
        = junkStatusResponse := by
  decide

/-! ### Requests that cannot be parsed -/

theorem specLastValue_cons_none (l : Str) (ls : List Str) (key : Str)
    (h : specHeaderEntry l = none) : specLastValue (l :: ls) key = specLastValue ls key := by
  unfold specLastValue
  rw [List.filterMap_cons, h]

theorem specLastValue_cons_some (l : Str) (ls : List Str) (key k v : Str)
    (h : specHeaderEntry l = some (k, v)) :
    specLastValue (l :: ls) key
      = (specLastValue ls key).orElse (fun _ => if k = key then some v else none) := by
  unfold specLastValue
  rw [List.filterMap_cons, h]
  simp only [List.reverse_cons, List.find?_append]
  cases hf : List.find? (fun e => decide (e.1 = key)) (List.filterMap specHeaderEntry ls).reverse with
  | some e => simp
  | none =>
    by_cases hk : k = key
    · simp [hk]
    · simp [hk]

/-- The entry the parsers take from a line, from the position of its first
colon. -/
theorem specHeaderEntry_of_findChar (l : Str) :
    (findChar l ':' = none → specHeaderEntry l = none)
    ∧ (∀ pos, findChar l ':' = some pos →
        specHeaderEntry l = some (toLowerCopy (trimLambda (substr l 0 pos)),
          trimLambda (substrFrom l (pos + 1)))) := by
  constructor
  · intro h
    unfold specHeaderEntry
    rw [if_neg ((findChar_none_iff l ':').mp h)]
  · intro pos h
    obtain ⟨h1, h2, h3⟩ := findChar_some l ':' pos h
    unfold specHeaderEntry
    rw [if_pos h3]
    simp only [substr, substrFrom, List.drop_zero, h1, ← h2, List.drop_drop]

theorem parseHeaderLines_lines (lines : List Str) (key : Str) : ∀ m : HeaderMap,
    parseHeaderLines (lines.map (· ++ ['\r']) ++ [['\r']]) m key
      = (specLastValue lines key).orElse (fun _ => m key) := by
  induction lines with
  | nil =>
    intro m
    simp [parseHeaderLines, stripCR, specLastValue]
  | cons l ls ih =>
    intro m
    rw [List.map_cons, List.cons_append, parseHeaderLines]
    simp only [stripCR_line]
    obtain ⟨hnone, hsome⟩ := specHeaderEntry_of_findChar l
    by_cases hemp : l.isEmpty = true
    · rw [if_pos hemp, ih]
      have hl : l = [] := List.isEmpty_iff.mp hemp
      rw [specLastValue_cons_none l ls key (hnone (by rw [hl]; rfl))]
    · rw [if_neg hemp]
      cases hfc : findChar l ':' with
      | none =>
        simp only []
        rw [ih, specLastValue_cons_none l ls key (hnone hfc)]
      | some pos =>
        simp only []
        rw [ih, specLastValue_cons_some l ls key _ _ (hsome pos hfc)]
        cases specLastValue ls key with
        | some v => rfl
        | none =>
          simp only [Option.orElse, HeaderMap.set]
          by_cases hk : toLowerCopy (trimLambda (substr l 0 pos)) = key
          · rw [if_pos hk, if_pos hk.symm]
          · rw [if_neg hk, if_neg (fun e => hk e.symm)]

theorem scanContentLength_lines (lines : List Str) : ∀ n : Nat,
    scanContentLength (lines.map (· ++ ['\r']) ++ [['\r']]) n
      = ((specLastValue lines "content-length".toList).map
          (fun v => (stoul v 10).getD 0)).getD n := by
  induction lines with
  | nil =>
    intro n
    simp [scanContentLength, stripCR, specLastValue, findChar]
  | cons l ls ih =>
    intro n
    rw [List.map_cons, List.cons_append, scanContentLength]
    simp only [stripCR_line]
    obtain ⟨hnone, hsome⟩ := specHeaderEntry_of_findChar l
    cases hfc : findChar l ':' with
    | none =>
      simp only []
      rw [ih, specLastValue_cons_none l ls _ (hnone hfc)]
    | some pos =>
      simp only []
      rw [specLastValue_cons_some l ls _ _ _ (hsome pos hfc)]
      by_cases hk : toLowerCopy (trimLambda (substr l 0 pos)) = "content-length".toList
      · rw [if_pos hk, ih, if_pos hk]
        cases specLastValue ls "content-length".toList with
        | some v => rfl
        | none => rfl
      · rw [if_neg hk, ih, if_neg hk]
        cases specLastValue ls "content-length".toList with
        | some v => rfl
        | none => rfl

/-- C24 (as amended): in a header block of CRLF-ended lines closed by an empty
line, the value the response framing finds under a header name is the value
of the last line with that name, and the `Content-Length` that frames the
request body is the one of the last `Content-Length` line (zero when it is
not a number). -/
theorem last_header_line_frames_the_body (lines : List Str)
    (hl : ∀ l ∈ lines, ∀ c ∈ l, c ≠ '\r' ∧ c ≠ '\n') :
    (∀ key, parseHeadersToMap (encodeLines lines ++ CRLF) key = specLastValue lines key)
    ∧ scanContentLength (getlines (encodeLines lines ++ CRLF)) 0
        = ((specLastValue lines "content-length".toList).map
            (fun v => (stoul v 10).getD 0)).getD 0 := by
  constructor
  · intro key
    unfold parseHeadersToMap
    rw [getlines_encodeLines lines hl, parseHeaderLines_lines]
    cases specLastValue lines key <;> rfl
  · rw [getlines_encodeLines lines hl, scanContentLength_lines]

/-- Witness for C24 as amended: of two `Content-Length` lines the second one
counts, for the response and for the request. -/
theorem last_header_line_frames_the_body_witness :
    parseHeadersToMap (encodeLines twoLengths ++ CRLF) "content-length".toList
        = some "5".toList
    ∧ scanContentLength (getlines (encodeLines twoLengths ++ CRLF)) 0 = 5 :=
  ⟨((last_header_line_frames_the_body twoLengths (by decide)).1 "content-length".toList).trans
      (by decide),
    (last_header_line_frames_the_body twoLengths (by decide)).2.trans (by decide)⟩

/-- Counterexample to C24 as stated: the first `Content-Length` line says 2,
yet the response is framed with 5 and all five body bytes are forwarded, and
the request body is read with 5; the first `Transfer-Encoding` line says
chunked, yet the response is not read as chunked. -/
theorem first_header_line_does_not_frame :
    specFirstValue twoLengths "content-length".toList = some "2".toList
    ∧ determineFraming (encodeLines twoLengths ++ CRLF) = ⟨false, true, 5⟩
    ∧ clientOutput (client_thread demoPolicy
          (demoEnv ("HTTP/1.1 200 OK\r\n".toList ++ encodeLines twoLengths ++ CRLF
            ++ "hello".toList) false) demoGet)
        = "HTTP/1.1 200 OK\r\n".toList ++ encodeLines twoLengths ++ CRLF ++ "hello".toList
    ∧ scanContentLength (getlines (encodeLines twoLengths ++ CRLF)) 0 = 5
    ∧ specFirstValue twoEncodings "transfer-encoding".toList = some "chunked".toList
    ∧ (determineFraming (encodeLines twoEncodings ++ CRLF)).isChunked = false := by
  decide

/-! ### Chunk-size lines -/

theorem chunkSizeText_eq (line : Str) :
    chunkSizeText line = if specSizeText line = [] then none else some (specSizeText line) := by
  unfold chunkSizeText specSizeText
  cases h : findChar line ';' with
  | none =>
    have ht := takeWhile_of_not_mem line ';' ((findChar_none_iff line ';').mp h)
    simp only []
    rw [ht]
    exact trimWith_same _ _
  | some i =>
    obtain ⟨h1, _, _⟩ := findChar_some line ';' i h
    simp only [substr, List.drop_zero, h1]
    exact trimWith_same _ _

/-- `std::stoul` throws on a text whose first byte is neither white space nor
a sign nor a hexadecimal digit. -/
theorem stoul_none_of_head (c : Char) (t : Str) (hd : isDigitOf 16 c = false)
    (hp : c ≠ '+') (hm : c ≠ '-') (hs : isspace c = false) : stoul (c :: t) 16 = none := by
  have hdrop : (c :: t).dropWhile isspace = c :: t := by
    simp [List.dropWhile, hs]
  have hsign : stripSign (c :: t) = (false, c :: t) := by
    unfold stripSign
    split
    · rename_i heq; simp at heq; exact absurd heq.1 hm
    · rename_i heq; simp at heq; exact absurd heq.1 hp
    · rfl
  have hmark : stripHexMark 16 (c :: t) = c :: t := by
    have h0 : c ≠ '0' := fun e => by rw [e] at hd; exact absurd hd (by decide)
    unfold stripHexMark
    split
    · rename_i heq; simp at heq; exact absurd heq.1 h0
    · rfl
  have hpd : parseDigits 16 (c :: t) 0 0 = (0, 0) := by
    rw [parseDigits]
    unfold isDigitOf at hd
    cases hv : digitVal c with
    | none => rfl
    | some d =>
      rw [hv] at hd
      have : ¬ d < 16 := by simpa using hd
      simp [this]
  unfold stoul
  simp only [hdrop, hsign, hmark, hpd, if_true]

/-- One round of the chunked reader on a size line that gives no size. -/
theorem readChunkedResponse_bad_size (words : List Str) (s : Sock) (line rest : Str)
    (hl : (∀ c ∈ line, c ≠ '\r' ∧ c ≠ '\n') ∧ line.length < 8192)
    (hb : s.bytes = line ++ CRLF ++ rest)
    (hbad : chunkSizeText line = none
      ∨ ∃ hex, chunkSizeText line = some hex ∧ stoul hex 16 = none) :
    (readChunkedResponse words s).status = .failed := by
  obtain ⟨s1, h1, _, _⟩ := recvLine_line (8 * 1024) s line CRLF rest hl.1 (Or.inr rfl) hb
    (by omega)
  unfold readChunkedResponse
  rw [readChunkedLoop, h1]
  rcases hbad with h | ⟨hex, h, hst⟩
  · simp only [h]
  · simp only [h, hst]

/-- C26 (as amended): when the part of a chunk-size line before an optional
`;`, trimmed of spaces and tabs, is empty or starts with a byte that is
neither a hexadecimal digit nor a sign nor white space, `readChunkedResponse`
fails. -/
theorem bad_chunk_size_line_fails (words : List Str) (s : Sock) (line rest : Str)
    (hl : (∀ c ∈ line, c ≠ '\r' ∧ c ≠ '\n') ∧ line.length < 8192)
    (hb : s.bytes = line ++ CRLF ++ rest)
    (hbad : specSizeText line = []
      ∨ ∃ c t, specSizeText line = c :: t ∧ isDigitOf 16 c = false
          ∧ c ≠ '+' ∧ c ≠ '-' ∧ isspace c = false) :
    (readChunkedResponse words s).status = .failed := by
  apply readChunkedResponse_bad_size words s line rest hl hb
  rw [chunkSizeText_eq]
  rcases hbad with h | ⟨c, t, h, hd, hp, hm, hs⟩
  · left
    rw [if_pos h]
  · right
    refine ⟨c :: t, ?_, stoul_none_of_head c t hd hp hm hs⟩
    rw [h, if_neg (by simp)]

/-- Witness for C26 as amended: the size line `g;x` and a size line of spaces. -/
theorem bad_chunk_size_line_fails_witness :
    (readChunkedResponse [] (chunkedAfter "g;x" "hello")).status = .failed
    ∧ (readChunkedResponse [] (chunkedAfter "  " "hello")).status = .failed :=
  ⟨bad_chunk_size_line_fails [] (chunkedAfter "g;x" "hello") "g;x".toList
      ("hello".toList ++ CRLF ++ "0\r\n\r\n".toList) (by decide) (by decide)
      (Or.inr ⟨'g', [], by decide, by decide, by decide, by decide, by decide⟩),
    bad_chunk_size_line_fails [] (chunkedAfter "  " "hello") "  ".toList
      ("hello".toList ++ CRLF ++ "0\r\n\r\n".toList) (by decide) (by decide)
      (Or.inl (by decide))⟩

/-- Counterexample to C26 as stated: the size texts `1z`, `0x10` and `+5` are
not strings of hexadecimal digits, yet the reader takes them as 1, 16 and 5
and succeeds; on `-1` the read does not fail either, it ends the process
(`resize` throws). -/
theorem lenient_chunk_size_lines :
    ((readChunkedResponse [] (chunkedAfter "1z" "A")).status = .ok
      ∧ (readChunkedResponse [] (chunkedAfter "1z" "A")).decoded = "A".toList)
    ∧ ((readChunkedResponse [] (chunkedAfter "0x10" "0123456789abcdef")).status = .ok
      ∧ (readChunkedResponse [] (chunkedAfter "0x10" "0123456789abcdef")).decoded
          = "0123456789abcdef".toList)
    ∧ ((readChunkedResponse [] (chunkedAfter "+5" "hello")).status = .ok
      ∧ (readChunkedResponse [] (chunkedAfter "+5" "hello")).decoded = "hello".toList)
    ∧ (readChunkedResponse [] (chunkedAfter "-1" "hello")).status = .crashed := by
  decide

/-! ### A word split over chunks -/

/-- The chunked reader on well-formed chunks: when the decoded stream holds a
stored word once the payload of chunk `k` is added, the reader answers 503 at
chunk `k` or before, with the payloads up to that chunk as decoded stream and
everything after that chunk's data still on the socket. -/
theorem readChunkedLoop_hit (words : List Str) (tail : Str) (chunks : List Chunk) :
    ∀ (k fuel : Nat) (s : Sock) (raw dec : Str), (∀ c ∈ chunks, c.wellFormed) →
    s.bytes = (chunks.map Chunk.encode).flatten ++ tail →
    chunks.length ≤ fuel → k < chunks.length →
    containsForbidden (dec ++ ((chunks.take (k + 1)).map Chunk.payload).flatten) words = true →
    ∃ j, j ≤ k ∧ (readChunkedLoop words fuel s raw dec).status = .blocked
      ∧ (readChunkedLoop words fuel s raw dec).decoded
          = dec ++ ((chunks.take (j + 1)).map Chunk.payload).flatten
      ∧ (readChunkedLoop words fuel s raw dec).sock.bytes
          = CRLF ++ ((chunks.drop (j + 1)).map Chunk.encode).flatten ++ tail := by
  induction chunks with
  | nil => intro k fuel s raw dec _ _ _ hk; simp at hk
  | cons c cs ih =>
    intro k fuel s raw dec hwf hb hfuel hk hhit
    cases fuel with
    | zero => simp at hfuel
    | succ f =>
      obtain ⟨hsl, hval, hpne, hpmax⟩ := hwf c (List.mem_cons_self _ _)
      obtain ⟨hlc, hll⟩ := sizeLineOk_line _ _ hsl
      let tailBytes := (cs.map Chunk.encode).flatten ++ tail
      obtain ⟨s1, h1, hb1, _⟩ := recvLine_crlf (8 * 1024) s (c.sizeText ++ c.ext)
        (c.payload ++ (CRLF ++ tailBytes)) hlc
        (by simpa [CRLF, Chunk.encode, List.append_assoc, tailBytes] using hb) hll
      obtain ⟨s2, h2, hb2, _⟩ := recvExact_spec s1 c.payload (CRLF ++ tailBytes) hb1
      obtain ⟨s3, h3, hb3, _⟩ := recvExact_spec s2 CRLF tailBytes hb2
      have hst : stoul c.sizeText 16 = some c.payload.length := by
        rw [stoul_hex c.sizeText hsl.1 hsl.2.1
          (by rw [hval]; exact le_trans hpmax (by decide)), hval]
      have hnz : c.payload.length ≠ 0 := fun h => hpne (List.length_eq_zero.mp h)
      have hnm : ¬ c.payload.length > max_size := by omega
      rw [readChunkedLoop, h1]
      simp only [chunkSizeText_sizeLine _ _ hsl, hst, hnz, if_false, hnm, h2]
      have hneg : ¬ ((c.payload.length : Int) < 0) := by omega
      simp only [hneg, ne_eq, not_true_eq_false, or_self, if_false]
      by_cases hforb : containsForbidden (dec ++ c.payload) words = true
      · refine ⟨0, Nat.zero_le _, ?_⟩
        simp only [hforb, if_true, true_and]
        refine ⟨by simp, ?_⟩
        rw [hb2]
        simp [tailBytes, List.append_assoc]
      · simp only [hforb, Bool.false_eq_true, if_false]
        have h32 : recvExact s2 2 = ((2 : Int), CRLF, s3) := by
          have : CRLF.length = 2 := rfl
          rw [this] at h3
          exact h3
        rw [h32]
        simp only [ne_eq, not_true_eq_false, if_false]
        cases k with
        | zero =>
          exfalso
          apply hforb
          simpa using hhit
        | succ k1 =>
          obtain ⟨j, hj, hs, hd, hsock⟩ := ih k1 f s3
            (raw ++ (c.sizeText ++ c.ext) ++ CRLF ++ c.payload ++ CRLF) (dec ++ c.payload)
            (fun x hx => hwf x (List.mem_cons_of_mem _ hx)) hb3
            (by simpa using hfuel) (by simpa using hk)
            (by simpa [List.append_assoc] using hhit)
          refine ⟨j + 1, by omega, hs, ?_, ?_⟩
          · rw [hd]; simp [List.append_assoc]
          · rw [hsock]; simp

/-- C29: for every well-formed chunked body and every stored word that occurs
in the payloads of the chunks up to chunk `k` taken together (split over
chunk boundaries or not), `readChunkedResponse` signals a block at chunk `k`
or before: the decoded stream is the payloads up to the chunk where it
stopped, and everything after that chunk's data is still on the socket. -/
theorem split_word_blocks_chunked_read (words : List Str) (b : ChunkedBody) (rest : Str)
    (s : Sock) (hwf : b.wellFormed) (hb : s.bytes = b.encode ++ rest)
    (k : Nat) (hk : k < b.chunks.length) (w : Str) (hw : w ∈ words)
    (hin : w <:+: ((b.chunks.take (k + 1)).map Chunk.payload).flatten) :
    ∃ j, j ≤ k ∧ (readChunkedResponse words s).status = .blocked
      ∧ (readChunkedResponse words s).decoded
          = ((b.chunks.take (j + 1)).map Chunk.payload).flatten
      ∧ (readChunkedResponse words s).sock.bytes
          = CRLF ++ ((b.chunks.drop (j + 1)).map Chunk.encode).flatten
            ++ ((b.lastSize ++ b.lastExt ++ CRLF ++ encodeLines b.trailers ++ CRLF) ++ rest) := by
  have hfuel : b.chunks.length ≤ s.bytes.length + 1 := by
    rw [hb]
    have := chunks_length_le b.chunks
    simp only [ChunkedBody.encode, List.length_append]
    omega
  obtain ⟨j, hj, hs, hd, hsock⟩ := readChunkedLoop_hit words
    ((b.lastSize ++ b.lastExt ++ CRLF ++ encodeLines b.trailers ++ CRLF) ++ rest) b.chunks
    k (s.bytes.length + 1) s [] [] hwf.1
    (by rw [hb]; simp [ChunkedBody.encode, List.append_assoc]) hfuel hk
    (by
      rw [List.nil_append]
      exact (containsForbidden_iff _ _).mpr ⟨w, hw, hin⟩)
  exact ⟨j, hj, hs, by simpa using hd, hsock⟩

/-- Witness for C29: `badword` lies across the boundary of the first two
chunks `xbad` and `wordy`; the read is blocked at the second chunk at the
latest. -/
theorem split_word_blocks_chunked_read_witness :
    ∃ j, j ≤ 1 ∧ (readChunkedResponse demoPolicy.forbiddenWords
          ⟨[splitWordChunked.encode], false⟩).status = .blocked
      ∧ (readChunkedResponse demoPolicy.forbiddenWords
          ⟨[splitWordChunked.encode], false⟩).decoded
          = ((splitWordChunked.chunks.take (j + 1)).map Chunk.payload).flatten
      ∧ (readChunkedResponse demoPolicy.forbiddenWords
          ⟨[splitWordChunked.encode], false⟩).sock.bytes
          = CRLF ++ ((splitWordChunked.chunks.drop (j + 1)).map Chunk.encode).flatten
            ++ ((splitWordChunked.lastSize ++ splitWordChunked.lastExt ++ CRLF
              ++ encodeLines splitWordChunked.trailers ++ CRLF) ++ []) :=
  split_word_blocks_chunked_read demoPolicy.forbiddenWords splitWordChunked []
    ⟨[splitWordChunked.encode], false⟩ (by decide) (by decide) 1 (by decide)
    "badword".toList (by decide) ⟨['x'], ['y'], by decide⟩

/-- The split word of the example, evaluated: the reader stops at the second
chunk with `xbadwordy` decoded and leaves the third chunk unread. -/
theorem split_word_example :
    (readChunkedResponse demoPolicy.forbiddenWords ⟨[splitWordChunked.encode], false⟩).status
        = .blocked
    ∧ (readChunkedResponse demoPolicy.forbiddenWords ⟨[splitWordChunked.encode], false⟩).decoded
        = "xbadwordy".toList
    ∧ (readChunkedResponse demoPolicy.forbiddenWords
        ⟨[splitWordChunked.encode], false⟩).sock.bytes = "\r\n4\r\nmore\r\n0\r\n\r\n".toList := by
  decide

/-! ### The entries the loader stores -/

theorem tolower_range (c : Char) (h : 65 ≤ c.toNat ∧ c.toNat ≤ 90) :
    97 ≤ (tolower c).toNat ∧ (tolower c).toNat ≤ 122 := by
  unfold tolower
  rw [if_pos h]
  generalize c.toNat = n at h
  obtain ⟨h1, h2⟩ := h
  interval_cases n <;> decide

theorem tolower_not_upper (c : Char) : ¬ (65 ≤ (tolower c).toNat ∧ (tolower c).toNat ≤ 90) := by
  by_cases h : 65 ≤ c.toNat ∧ c.toNat ≤ 90
  · have := tolower_range c h
    omega
  · unfold tolower
    rw [if_neg h]
    exact h

/-- A byte that is not a lowercase letter comes out of `tolower` only from
itself. -/
theorem tolower_fixed (c x : Char) (hx : ¬ (97 ≤ x.toNat ∧ x.toNat ≤ 122))
    (h : tolower c = x) : c = x := by
  by_cases hr : 65 ≤ c.toNat ∧ c.toNat ≤ 90
  · have := tolower_range c hr
    rw [h] at this
    exact absurd this hx
  · unfold tolower at h
    rw [if_neg hr] at h
    exact h

theorem head?_dropWhile_not (p : Char → Bool) (l : Str) (c : Char)
    (h : (l.dropWhile p).head? = some c) : p c = false := by
  induction l with
  | nil => simp at h
  | cons x xs ih =>
    rw [List.dropWhile_cons] at h
    by_cases hx : p x = true
    · rw [if_pos hx] at h
      exact ih h
    · rw [if_neg hx] at h
      simp only [List.head?_cons, Option.some.injEq] at h
      subst h
      simpa using hx

theorem getLast?_dropWhile (p : Char → Bool) (l : Str) (h : l.dropWhile p ≠ []) :
    (l.dropWhile p).getLast? = l.getLast? := by
  induction l with
  | nil => rfl
  | cons x xs ih =>
    rw [List.dropWhile_cons] at h ⊢
    by_cases hx : p x = true
    · rw [if_pos hx] at h ⊢
      rw [ih h]
      cases xs with
      | nil => simp at h
      | cons y ys => simp [List.getLast?_cons_cons]
    · rw [if_neg hx]

theorem getLast?_rdropWhile_not (p : Char → Bool) (l : Str) (c : Char)
    (h : (l.rdropWhile p).getLast? = some c) : p c = false := by
  have hne : l.rdropWhile p ≠ [] := by
    intro e
    rw [e] at h
    simp at h
  have hlast := List.rdropWhile_last_not p l hne
  rw [List.getLast?_eq_getLast _ hne] at h
  simp only [Option.some.injEq] at h
  rw [h] at hlast
  simpa using hlast

/-- What is left after trimming starts and ends with a byte outside the set
and is made of bytes of the text. -/
theorem specTrim_ends (set s : Str) :
    (∀ c, (specTrim set s).head? = some c → set.contains c = false)
    ∧ (∀ c, (specTrim set s).getLast? = some c → set.contains c = false)
    ∧ (∀ c ∈ specTrim set s, c ∈ s) := by
  unfold specTrim
  refine ⟨fun c h => head?_dropWhile_not _ _ c h, ?_, ?_⟩
  · intro c h
    have hne : (s.rdropWhile set.contains).dropWhile set.contains ≠ [] := by
      intro e
      rw [e] at h
      simp at h
    rw [getLast?_dropWhile _ _ hne] at h
    exact getLast?_rdropWhile_not _ _ c h
  · intro c hc
    exact (List.rdropWhile_prefix _ _).subset ((List.dropWhile_suffix _).subset hc)

theorem entryOk_lower (s : Str) (hne : s ≠ [])
    (hh : ∀ c, s.head? = some c → c ≠ ' ' ∧ c ≠ '\t')
    (hl : ∀ c, s.getLast? = some c → c ≠ ' ' ∧ c ≠ '\t') : entryOk (toLowerCopy s) := by
  have hhead : ∀ x : Char, ¬ (97 ≤ x.toNat ∧ x.toNat ≤ 122) → (x = ' ' ∨ x = '\t') →
      (toLowerCopy s).head? ≠ some x := by
    intro x hx hsp h
    unfold toLowerCopy at h
    rw [List.head?_map] at h
    cases hs : s.head? with
    | none => rw [hs] at h; simp at h
    | some c =>
      rw [hs] at h
      simp only [Option.map_some', Option.some.injEq] at h
      have := tolower_fixed c x hx h
      subst this
      rcases hsp with e | e
      · exact (hh c hs).1 e
      · exact (hh c hs).2 e
  have hlast : ∀ x : Char, ¬ (97 ≤ x.toNat ∧ x.toNat ≤ 122) → (x = ' ' ∨ x = '\t') →
      (toLowerCopy s).getLast? ≠ some x := by
    intro x hx hsp h
    unfold toLowerCopy at h
    rw [List.getLast?_map] at h
    cases hs : s.getLast? with
    | none => rw [hs] at h; simp at h
    | some c =>
      rw [hs] at h
      simp only [Option.map_some', Option.some.injEq] at h
      have := tolower_fixed c x hx h
      subst this
      rcases hsp with e | e
      · exact (hl c hs).1 e
      · exact (hl c hs).2 e
  refine ⟨?_, ?_, hhead ' ' (by decide) (Or.inl rfl), hhead '\t' (by decide) (Or.inr rfl),
    hlast ' ' (by decide) (Or.inl rfl), hlast '\t' (by decide) (Or.inr rfl)⟩
  · intro e
    apply hne
    unfold toLowerCopy at e
    exact List.map_eq_nil_iff.mp e
  · intro c hc
    unfold toLowerCopy at hc
    obtain ⟨a, _, ha⟩ := List.mem_map.mp hc
    rw [← ha]
    exact tolower_not_upper a

theorem contains_false_space_tab (set : Str) (hs : set.contains ' ' = true)
    (ht : set.contains '\t' = true) (c : Char) (h : set.contains c = false) :
    c ≠ ' ' ∧ c ≠ '\t' := by
  constructor
  · intro e; rw [e, hs] at h; exact absurd h (by decide)
  · intro e; rw [e, ht] at h; exact absurd h (by decide)

/-- One buffer of the file keeps both lists in order. -/
theorem loadLine_entriesOk (buf : Str) (p : Policy) (hp : p.entriesOk) :
    (loadLine buf p).entriesOk := by
  unfold loadLine
  simp only []
  rw [trimWith_same]
  by_cases h0 : specTrim [' ', '\t', '\r', '\n'] (cString buf) = []
  · rw [if_pos h0]
    exact hp
  · rw [if_neg h0]
    obtain ⟨hh, hl, _⟩ := specTrim_ends [' ', '\t', '\r', '\n'] (cString buf)
    generalize specTrim [' ', '\t', '\r', '\n'] (cString buf) = s at h0 hh hl
    simp only []
    have hword : entryOk (toLowerCopy s) :=
      entryOk_lower s h0
        (fun c h => contains_false_space_tab _ (by decide) (by decide) c (hh c h))
        (fun c h => contains_false_space_tab _ (by decide) (by decide) c (hl c h))
    by_cases he : s.isEmpty = true
    · rw [if_pos he]; exact hp
    · rw [if_neg he]
      by_cases hc : s.head? = some '#'
      · rw [if_pos hc]; exact hp
      · rw [if_neg hc]
        by_cases hsite : startsWith (toLowerCopy s) "site:".toList = true
        · rw [if_pos hsite, trimWith_same]
          by_cases h1 : specTrim [' ', '\t'] (substrFrom (toLowerCopy s) 5) = []
          · rw [if_pos h1]; exact hp
          · rw [if_neg h1]
            obtain ⟨hh1, hl1, hsub⟩ := specTrim_ends [' ', '\t'] (substrFrom (toLowerCopy s) 5)
            refine ⟨hp.1, ?_⟩
            intro e hm
            rcases List.mem_append.mp hm with hm | hm
            · exact hp.2 e hm
            · simp only [List.mem_singleton] at hm
              subst hm
              refine ⟨h1, ?_,
                fun h => (contains_false_space_tab _ (by decide) (by decide) _ (hh1 _ h)).1 rfl,
                fun h => (contains_false_space_tab _ (by decide) (by decide) _ (hh1 _ h)).2 rfl,
                fun h => (contains_false_space_tab _ (by decide) (by decide) _ (hl1 _ h)).1 rfl,
                fun h => (contains_false_space_tab _ (by decide) (by decide) _ (hl1 _ h)).2 rfl⟩
              intro c hc1
              have hc2 : c ∈ toLowerCopy s := List.mem_of_mem_drop (hsub c hc1)
              exact hword.2.1 c hc2
        · rw [if_neg hsite]
          refine ⟨?_, hp.2⟩
          intro e hm
          rcases List.mem_append.mp hm with hm | hm
          · exact hp.1 e hm
          · simp only [List.mem_singleton] at hm
            subst hm
            exact hword

theorem loadLoop_entriesOk (fuel : Nat) : ∀ (f : Str) (p : Policy), p.entriesOk →
    (loadLoop fuel f p).entriesOk := by
  induction fuel with
  | zero => intro f p hp; exact hp
  | succ k ih =>
    intro f p hp
    rw [loadLoop]
    cases hfg : fgets 1024 f with
    | none => exact hp
    | some r => exact ih r.2 _ (loadLine_entriesOk r.1 p hp)

theorem loadForbiddenSingleFile_entriesOk (file : Option Str) :
    (loadForbiddenSingleFile file).entriesOk := by
  unfold loadForbiddenSingleFile
  cases file with
  | none => exact ⟨fun e h => absurd h (List.not_mem_nil e), fun e h => absurd h (List.not_mem_nil e)⟩
  | some f =>
    exact loadLoop_entriesOk _ f ⟨[], []⟩
      ⟨fun e h => absurd h (List.not_mem_nil e), fun e h => absurd h (List.not_mem_nil e)⟩

/-- C30: whatever the policy file holds, and also when it cannot be opened,
every entry of the two lists after loading is not empty, holds no uppercase
ASCII letter and has no space or tab at either end; and a buffer that holds
`site:` alone leaves both lists as they were. -/
theorem loaded_entries_are_in_order (file : Option Str) (e : Str)
    (he : e ∈ (loadForbiddenSingleFile file).forbiddenWords
      ∨ e ∈ (loadForbiddenSingleFile file).forbiddenSites) :
    entryOk e ∧ ∀ p : Policy, loadLine "site:\n".toList p = p := by
  constructor
  · rcases he with h | h
    · exact (loadForbiddenSingleFile_entriesOk file).1 e h
    · exact (loadForbiddenSingleFile_entriesOk file).2 e h
  · intro p
    rfl

/-- Witness for C30: the file of the example gives the word `badword` and the
host `blocked.example`, and the host is in order. -/
theorem loaded_entries_are_in_order_witness :
    loadForbiddenSingleFile (some untidyFile) = ⟨["badword".toList], ["blocked.example".toList]⟩
    ∧ entryOk "blocked.example".toList :=
  ⟨by decide,
    (loaded_entries_are_in_order (some untidyFile) "blocked.example".toList
      (Or.inr (by decide))).1⟩

/-! ### Empty entries and the lists the loader builds -/

theorem loaded_words_not_empty (file : Option Str) :
    [] ∉ (loadForbiddenSingleFile file).forbiddenWords :=
  fun h => ((loadForbiddenSingleFile_entriesOk file).1 [] h).1 rfl

/-- C25 (as amended): an empty entry occurs in every text, so a list that
holds one matches every text; for a list without an empty entry
`containsForbidden` is true exactly when a non-empty entry occurs in the
text; and the word list the loader builds, from any file, holds no empty
entry. -/
theorem containsForbidden_and_empty_entries (text : Str) (words : List Str)
    (file : Option Str) :
    ([] ∈ words → containsForbidden text words = true)
    ∧ ([] ∉ words →
        (containsForbidden text words = true ↔ ∃ w ∈ words, w ≠ [] ∧ w <:+: text))
    ∧ [] ∉ (loadForbiddenSingleFile file).forbiddenWords := by
  refine ⟨containsForbidden_of_empty_entry text words, ?_, loaded_words_not_empty file⟩
  intro hne
  rw [containsForbidden_iff]
  constructor
  · rintro ⟨w, hw, hin⟩
    exact ⟨w, hw, fun e => hne (e ▸ hw), hin⟩
  · rintro ⟨w, hw, _, hin⟩
    exact ⟨w, hw, hin⟩

/-- Witness for C25 as amended: a list with an empty entry matches `hello`;
the list `badword` matches `a badword` by its one, non-empty, entry; the
list loaded from the example file holds no empty entry. -/
theorem containsForbidden_and_empty_entries_witness :
    containsForbidden "hello".toList [[], "x".toList] = true
    ∧ (containsForbidden "a badword".toList ["badword".toList] = true
        ↔ ∃ w ∈ ["badword".toList], w ≠ [] ∧ w <:+: "a badword".toList)
    ∧ [] ∉ (loadForbiddenSingleFile (some untidyFile)).forbiddenWords :=
  ⟨(containsForbidden_and_empty_entries "hello".toList [[], "x".toList] none).1 (by decide),
    (containsForbidden_and_empty_entries "a badword".toList ["badword".toList] none).2.1
      (by decide),
    (containsForbidden_and_empty_entries [] [] (some untidyFile)).2.2⟩

end ProxyHttp
